import Mathlib

/-!
# proglog: the segmented commit log (package `internal/log`)

A shallow embedding of `src/internal/log/log.go` together with the store, index and
segment it drives.

Conventions of the embedding

* Go's `uint64` values are natural numbers; every addition that can overflow is written
  with an explicit `% 2 ^ 64`.
* `[]byte` is `List Byte`, a file name is a `List Char`.
* A `*segment` is an index into `Log.heap`, the list of segment objects allocated so far,
  so that `activeSegment` and the entries of `segments` alias the same object exactly as
  the pointers of the Go program do.
* The directory named by `Log.Dir` is carried in the state as the list of its files.
  An open store or index holds the logical contents of its file; `Close` writes them
  back to the directory (flush of the buffered writer, sync and truncate of the mapping).
* The file system is reliable: opening, reading, writing and deleting files do not fail.
  The only errors are the ones the program raises itself, and the one of listing a path
  that names no directory.
* The in-memory log of package `internal/server` is embedded in the namespace `server`.
-/

namespace Proglog

/-! ## Bytes and fixed-width big-endian integers -/

abbrev Byte := Fin 256

abbrev FileName := List Char

/-- Modulus of `uint64` arithmetic. -/
def U64 : Nat := 2 ^ 64

/-- Go `lenWidth`: width of the length prefix of a store record. -/
def lenWidth : Nat := 8

/-- Go `offWidth`: width of the relative offset in an index entry. -/
def offWidth : Nat := 4

/-- Go `posWidth`: width of the store position in an index entry. -/
def posWidth : Nat := 8

/-- Go `entWidth`: width of an index entry. -/
def entWidth : Nat := offWidth + posWidth

/-- Big-endian encoding of `n` in `w` bytes (`binary.BigEndian.PutUintNN`); the value is
truncated to its low `w` bytes, as a conversion to the `w`-byte unsigned type does. -/
def putUint : Nat → Nat → List Byte
  | 0, _ => []
  | w + 1, n => putUint w (n / 256) ++ [Fin.ofNat (n % 256)]

/-- Big-endian decoding (`binary.BigEndian.UintNN`). -/
def getUint (bs : List Byte) : Nat :=
  bs.foldl (fun acc b => acc * 256 + b.val) 0

/-- Errors raised by the log. `panic` stands for a Go run-time panic (nil dereference,
index out of range), `notExist` for the error of opening a path that names nothing
(`os.ErrNotExist`). -/
inductive Error where
  | offsetOutOfRange (off : Nat)
  | EOF
  | panic
  | notExist
  deriving DecidableEq, Repr

deriving instance DecidableEq for Except

/-- The record type `api.Record`. -/
structure Record where
  Value : List Byte
  Offset : Nat
  deriving DecidableEq, Repr

/-- Go `Config` (`config.go`); the three fields are `uint64`. -/
structure Config where
  MaxStoreBytes : Nat
  MaxIndexBytes : Nat
  InitialOffset : Nat
  deriving DecidableEq, Repr

/-- The fields of a `Config` are 64-bit values. -/
def Config.valid (c : Config) : Prop :=
  c.MaxStoreBytes < U64 ∧ c.MaxIndexBytes < U64 ∧ c.InitialOffset < U64

instance (c : Config) : Decidable c.valid := by
  unfold Config.valid; infer_instance

/-! ## The directory -/

/-- A file of the log directory: its name and its contents. -/
abbrev File := FileName × List Byte

/-- The files of the log directory. -/
abbrev Directory := List File

/-- Contents of the file called `name`, if there is one. -/
def Directory.lookup (d : Directory) (name : FileName) : Option (List Byte) :=
  match d with
  | [] => none
  | (n, c) :: rest => if n = name then some c else Directory.lookup rest name

/-- Replace the contents of `name`, creating the file when it does not exist. -/
def Directory.write (d : Directory) (name : FileName) (c : List Byte) : Directory :=
  match d with
  | [] => [(name, c)]
  | (n, c0) :: rest =>
    if n = name then (n, c) :: rest else (n, c0) :: Directory.write rest name c

/-- Delete the file called `name` (`os.Remove`). -/
def Directory.remove (d : Directory) (name : FileName) : Directory :=
  d.filter (fun f => f.1 ≠ name)

/-- Open with `O_CREATE`: the contents of `name`, and the directory in which `name`
exists. -/
def Directory.openCreate (d : Directory) (name : FileName) : List Byte × Directory :=
  match d.lookup name with
  | some c => (c, d)
  | none => ([], d ++ [(name, [])])

/-! ## Store -/

/-- Modelled from the spec: the store of section 4.1 (`store.go` is not among the
sources). `buf` is the logical content of the file, i.e. what is on disk followed by what
the buffered writer still holds; `Read` and `ReadAt` flush before reading, so they see
all of it. -/
structure store where
  name : FileName
  buf : List Byte
  size : Nat
  deriving DecidableEq, Repr

/-- Modelled from the spec: store construction, "seek to its end, record that as the
initial size". -/
def newStore (name : FileName) (content : List Byte) : store :=
  { name := name, buf := content, size := content.length }

/-- Modelled from the spec: `Store.Append(p)`; returns the new store, the number of bytes
written and the position of the record. -/
def store.Append (s : store) (p : List Byte) : store × Nat × Nat :=
  let pos := s.size
  let w := lenWidth + p.length
  ({ s with buf := s.buf ++ putUint lenWidth p.length ++ p, size := s.size + w }, w, pos)

/-- Modelled from the spec: `Store.ReadAt(buf, pos)` for a buffer of `n` bytes: the bytes
read, and end-of-file when they are fewer than `n` (`os.File.ReadAt`). -/
def store.ReadAt (s : store) (n : Nat) (pos : Nat) : List Byte × Option Error :=
  let bs := (s.buf.drop pos).take n
  (bs, if bs.length < n then some Error.EOF else none)

/-- Modelled from the spec: `Store.Read(pos)`: the length prefix at `pos`, then that many
bytes after it. -/
def store.Read (s : store) (pos : Nat) : Except Error (List Byte) :=
  match s.ReadAt lenWidth pos with
  | (_, some e) => .error e
  | (hdr, none) =>
    match s.ReadAt (getUint hdr) (pos + lenWidth) with
    | (_, some e) => .error e
    | (b, none) => .ok b

/-! ## Index -/

/-- Modelled from the spec: the index of section 4.2 (`index.go` is not among the
sources). `mmap` is the written part of the mapping (the bytes past `size` are never
read), `cap` the length of the mapping, `Config.Segment.MaxIndexBytes`. -/
structure index where
  name : FileName
  mmap : List Byte
  size : Nat
  cap : Nat
  deriving DecidableEq, Repr

/-- Modelled from the spec: index construction: "record its current logical size, grow
the file on disk to `config.maxIndexBytes`, then memory-map". -/
def newIndex (name : FileName) (content : List Byte) (c : Config) : index :=
  { name := name, mmap := content.take c.MaxIndexBytes, size := content.length,
    cap := c.MaxIndexBytes }

/-- Modelled from the spec: `Index.Write(relNum, position)`. -/
def index.Write (i : index) (off pos : Nat) : Except Error index :=
  if i.cap < i.size + entWidth then .error Error.EOF
  else .ok { i with mmap := i.mmap.take i.size ++ putUint offWidth off ++ putUint posWidth pos,
                    size := i.size + entWidth }

/-- Modelled from the spec: `Index.Read(in)`, `in = -1` meaning the last entry; returns
`(relNum, position)`. Reading outside the mapping is a panic. -/
def index.Read (i : index) (n : Int) : Except Error (Nat × Nat) :=
  if i.size = 0 then .error Error.EOF
  else
    let out : Int := if n = -1 then (i.size / entWidth : Nat) - 1 else n
    let pos : Int := out * entWidth
    if (i.size : Int) < pos + entWidth then .error Error.EOF
    else if pos < 0 ∨ i.mmap.length < pos.toNat + entWidth then .error Error.panic
    else
      let e := (i.mmap.drop pos.toNat).take entWidth
      .ok (getUint (e.take offWidth), getUint (e.drop offWidth))

/-- Modelled from the spec: `Index.Close`: "truncate the file to the actual logical
size"; the result is the content of the index file at rest. -/
def index.Close (i : index) (d : Directory) : Directory :=
  d.write i.name (i.mmap.take i.size ++ List.replicate (i.size - i.mmap.length) 0)

/-- Modelled from the spec: `Store.Close`: "flush, close underlying file". -/
def store.Close (s : store) (d : Directory) : Directory :=
  d.write s.name s.buf

/-! ## File names -/

/-- The character of a decimal digit. -/
def digitChar (d : Nat) : Char :=
  Char.ofNat (48 + d)

/-- Digits of `n`, most significant first, in front of `acc`. -/
def formatDigits : Nat → Nat → List Char → List Char
  | 0, _, acc => acc
  | fuel + 1, n, acc =>
    if n / 10 = 0 then digitChar (n % 10) :: acc
    else formatDigits fuel (n / 10) (digitChar (n % 10) :: acc)

/-- Decimal rendering of a `uint64`, the `%d` of `fmt.Sprintf`; a 64-bit value has at
most twenty digits. -/
def formatUint (n : Nat) : List Char :=
  formatDigits 20 n []

/-- Modelled from the spec: name of the store file of the segment with base `b`,
"`<base>.store`", the base in decimal. The spec fixes no padding width; leading zeros
would not change what `NewLog` parses from the name. -/
def storeName (b : Nat) : FileName :=
  formatUint b ++ ".store".toList

/-- Modelled from the spec: name of the index file of the segment with base `b`,
"`<base>.index`". -/
def indexName (b : Nat) : FileName :=
  formatUint b ++ ".index".toList

/-- Go `path.Ext`, scanning the reversed path: the suffix from the final dot of the final
slash-separated element, empty when there is no dot. -/
def extScan : List Char → List Char → List Char
  | [], _ => []
  | c :: rest, acc =>
    if c = '/' then [] else if c = '.' then c :: acc else extScan rest (c :: acc)

/-- Go `path.Ext`. -/
def Ext (path : List Char) : List Char :=
  extScan path.reverse []

/-- Go `strings.TrimSuffix`. -/
def TrimSuffix (s suffix : List Char) : List Char :=
  if suffix.isSuffixOf s then s.take (s.length - suffix.length) else s

/-- The two errors of `strconv.ParseUint`. -/
inductive NumError where
  | ErrSyntax
  | ErrRange
  deriving DecidableEq, Repr

/-- The digit loop of `strconv.ParseUint` for base 10 and 64 bits: `n` is the value read
so far. -/
def parseDigits : List Char → Nat → Nat × Option NumError
  | [], n => (n, none)
  | c :: rest, n =>
    if '0' ≤ c ∧ c ≤ '9' then
      let d := c.toNat - '0'.toNat
      if n ≥ (U64 - 1) / 10 + 1 then (U64 - 1, some NumError.ErrRange)
      else
        let n1 := n * 10 + d
        if n1 > U64 - 1 then (U64 - 1, some NumError.ErrRange)
        else parseDigits rest n1
    else (0, some NumError.ErrSyntax)

/-- Go `strconv.ParseUint(s, 10, 0)` on a 64-bit platform: the value and the error. -/
def ParseUint (s : List Char) : Nat × Option NumError :=
  if s = [] then (0, some NumError.ErrSyntax) else parseDigits s 0

/-! ## Segment -/

/-- Modelled from the spec: the segment of section 4.3 (`segment.go` is not among the
sources). -/
structure segment where
  store : store
  index : index
  baseOffset : Nat
  nextOffset : Nat
  config : Config
  deriving DecidableEq, Repr

instance : Inhabited segment :=
  ⟨{ store := ⟨[], [], 0⟩, index := ⟨[], [], 0, 0⟩, baseOffset := 0, nextOffset := 0,
     config := ⟨0, 0, 0⟩ }⟩

/-- Modelled from the spec: `newSegment(dir, baseOffset, config)`, steps 1 to 3 of
section 4.3; returns the segment and the directory, in which both files now exist. -/
def newSegment (dir : Directory) (baseOffset : Nat) (c : Config) :
    Except Error (segment × Directory) :=
  let (sc, d1) := dir.openCreate (storeName baseOffset)
  let st := newStore (storeName baseOffset) sc
  let (ic, d2) := d1.openCreate (indexName baseOffset)
  let ix := newIndex (indexName baseOffset) ic c
  match ix.Read (-1) with
  | .ok (off, _) =>
    .ok ({ store := st, index := ix, baseOffset := baseOffset,
           nextOffset := (baseOffset + off + 1) % U64, config := c }, d2)
  | .error Error.panic => .error Error.panic
  | .error _ =>
    .ok ({ store := st, index := ix, baseOffset := baseOffset, nextOffset := baseOffset,
           config := c }, d2)

/-- Modelled from the spec: `Segment.Append(record)`. The store is written before the
index, so a failed index write leaves the record bytes in the store. -/
def segment.Append (s : segment) (record : Record) : segment × Except Error Nat :=
  let cur := s.nextOffset
  let (st, _, pos) := s.store.Append record.Value
  match s.index.Write ((cur + U64 - s.baseOffset) % U64) pos with
  | .error e => ({ s with store := st }, .error e)
  | .ok ix => ({ s with store := st, index := ix, nextOffset := (cur + 1) % U64 }, .ok cur)

/-- Modelled from the spec: `Segment.Read(offset)`. -/
def segment.Read (s : segment) (off : Nat) : Except Error Record :=
  match s.index.Read ((off : Int) - (s.baseOffset : Int)) with
  | .error e => .error e
  | .ok (_, pos) =>
    match s.store.Read pos with
    | .error e => .error e
    | .ok p => .ok { Value := p, Offset := off }

/-- Modelled from the spec: `Segment.IsMaxed`. -/
def segment.IsMaxed (s : segment) : Bool :=
  decide (s.store.size ≥ s.config.MaxStoreBytes) || decide (s.index.size ≥ s.config.MaxIndexBytes)

/-- Modelled from the spec: `Segment.Close`: "close index, close store". -/
def segment.Close (s : segment) (d : Directory) : Directory :=
  s.store.Close (s.index.Close d)

/-- Modelled from the spec: `Segment.Remove`: "close, then delete both files". -/
def segment.Remove (s : segment) (d : Directory) : Directory :=
  ((s.Close d).remove s.index.name).remove s.store.name

/-! ## Log (`log.go`) -/

/-- Go `Log`. `Dir` holds the files of the directory the Go field names, `heap` the
segment objects that the pointers `activeSegment` and `segments` refer to; the mutex is
not part of the sequential model. -/
structure Log where
  Dir : Directory
  Config : Config
  heap : List segment
  activeSegment : Option Nat
  segments : List Nat
  deriving DecidableEq, Repr

/-- The segment object a pointer refers to. -/
def Log.deref (l : Log) (p : Nat) : segment :=
  l.heap.getD p default

/-- Go `(*Log).newSegment`. -/
def Log.newSegment (l : Log) (off : Nat) : Except Error Log :=
  match Proglog.newSegment l.Dir off l.Config with
  | .error e => .error e
  | .ok (s, d) =>
    .ok { l with Dir := d, heap := l.heap ++ [s],
                 segments := l.segments ++ [l.heap.length],
                 activeSegment := some l.heap.length }

/-- Go `ioutil.ReadDir`: the names of the files, sorted by name. -/
def ReadDir (d : Directory) : List FileName :=
  (d.map Prod.fst).insertionSort (fun a b => a ≤ b)

/-- The base offset `NewLog` reads off a file name; the error of `ParseUint` is
dropped. -/
def parseBase (name : FileName) : Nat :=
  (ParseUint (TrimSuffix name (Ext name))).1

/-- The segment-opening loop of `NewLog`: `i` is advanced twice per round, so every
second base offset is skipped. -/
def NewLog.loop (l : Log) : List Nat → Except Error Log
  | [] => .ok l
  | [b] => l.newSegment b
  | b :: _ :: rest =>
    match l.newSegment b with
    | .error e => .error e
    | .ok l1 => NewLog.loop l1 rest

/-- Go `NewLog`. -/
def NewLog (dir : Directory) (c : Config) : Except Error Log :=
  let c1 := if c.MaxStoreBytes = 0 then { c with MaxStoreBytes := 1024 } else c
  let c2 := if c1.MaxIndexBytes = 0 then { c1 with MaxIndexBytes := 1024 } else c1
  let l : Log := { Dir := dir, Config := c2, heap := [], activeSegment := none, segments := [] }
  let files := ReadDir dir
  let baseOffsets := (files.map parseBase).insertionSort (fun a b => a ≤ b)
  match NewLog.loop l baseOffsets with
  | .error e => .error e
  | .ok l1 => if l1.segments = [] then l1.newSegment c2.InitialOffset else .ok l1

/-- Go `(*Log).Append`: the state afterwards and the result. -/
def Log.Append (l : Log) (record : Record) : Log × Except Error Nat :=
  match l.activeSegment with
  | none => (l, .error Error.panic)
  | some p =>
    match (l.deref p).Append record with
    | (s, .error e) => ({ l with heap := l.heap.set p s }, .error e)
    | (s, .ok off) =>
      let l1 := { l with heap := l.heap.set p s }
      if s.IsMaxed then
        match l1.newSegment ((off + 1) % U64) with
        | .error e => (l1, .error e)
        | .ok l2 => (l2, .ok off)
      else (l1, .ok off)

/-- Go `(*Log).Read`. -/
def Log.Read (l : Log) (off : Nat) : Except Error Record :=
  match l.segments.find?
      (fun p => decide (off ≥ (l.deref p).baseOffset ∧ off < (l.deref p).nextOffset)) with
  | some p => (l.deref p).Read off
  | none => .error (Error.offsetOutOfRange off)

/-- Go `(*Log).Close`. -/
def Log.Close (l : Log) : Log :=
  { l with Dir := l.segments.foldl (fun d p => (l.deref p).Close d) l.Dir }

/-- Go `(*Log).LowestOffset`; indexing an empty `segments` panics. -/
def Log.LowestOffset (l : Log) : Except Error Nat :=
  match l.segments.head? with
  | none => .error Error.panic
  | some p => .ok (l.deref p).baseOffset

/-- Go `(*Log).HighestOffset`; indexing an empty `segments` panics. -/
def Log.HighestOffset (l : Log) : Except Error Nat :=
  match l.segments.getLast? with
  | none => .error Error.panic
  | some p =>
    let off := (l.deref p).nextOffset
    if off = 0 then .ok 0 else .ok (off - 1)

/-- The test of `Truncate`: `s.nextOffset <= lowerst+1` in `uint64` arithmetic. -/
def truncates (lowerst : Nat) (s : segment) : Bool :=
  decide (s.nextOffset ≤ (lowerst + 1) % U64)

/-- Go `(*Log).Truncate`: the segments that pass the test are removed from the directory,
the others are kept in order. -/
def Log.Truncate (l : Log) (lowerst : Nat) : Log :=
  { l with
    Dir := l.segments.foldl
      (fun d p => if truncates lowerst (l.deref p) then (l.deref p).Remove d else d) l.Dir
    segments := l.segments.filter (fun p => !truncates lowerst (l.deref p)) }

/-- Go `originReader`: a store and the read position in it. -/
structure originReader where
  store : store
  off : Nat
  deriving DecidableEq, Repr

/-- Go `(*originReader).Read` for a buffer of `n` bytes: the reader afterwards, the bytes
read and the error. -/
def originReader.Read (o : originReader) (n : Nat) : originReader × List Byte × Option Error :=
  let (bs, err) := o.store.ReadAt n o.off
  ({ o with off := o.off + bs.length }, bs, err)

/-- Go `(*Log).Reader`: one `originReader` per segment, from position 0; the list is the
argument of `io.MultiReader`. -/
def Log.Reader (l : Log) : List originReader :=
  l.segments.map (fun p => { store := (l.deref p).store, off := 0 })

/-- Go `io.MultiReader`, one call of `Read` with a buffer of `n` bytes: a reader that
reports end-of-file is dropped; the call returns as soon as bytes were read or the error
is not end-of-file, and hides the end-of-file of a reader that is not the last one.
End-of-file is reported when no reader is left. -/
def multiRead : List originReader → Nat → List originReader × List Byte × Option Error
  | [], _ => ([], [], some Error.EOF)
  | r :: rs, n =>
    match r.Read n with
    | (_, bs, some Error.EOF) =>
      if bs.length > 0 then (rs, bs, if rs.length > 0 then none else some Error.EOF)
      else multiRead rs n
    | (r1, bs, err) => (r1 :: rs, bs, err)

/-- Reading a stream to its end with a buffer of `n` bytes, as `ioutil.ReadAll` does:
`Read` is called until it reports an error, and the bytes are collected. `fuel` bounds
the number of calls; `none` when it runs out. -/
def readAll : Nat → List originReader → Nat → Option (List Byte × Error)
  | 0, _, _ => none
  | fuel + 1, rs, n =>
    match multiRead rs n with
    | (_, bs, some e) => some (bs, e)
    | (rs1, bs, none) =>
      match readAll fuel rs1 n with
      | none => none
      | some (rest, e) => some (bs ++ rest, e)

/-- Length-framed decoding of a byte stream: an 8-byte big-endian length, then the
payload; `none` when the stream ends inside a frame. `fuel` bounds the number of
frames. -/
def decodeFrames : Nat → List Byte → Option (List (List Byte))
  | 0, _ => none
  | fuel + 1, bs =>
    if bs = [] then some []
    else if bs.length < lenWidth then none
    else
      let n := getUint (bs.take lenWidth)
      let body := bs.drop lenWidth
      if body.length < n then none
      else
        match decodeFrames fuel (body.drop n) with
        | none => none
        | some ps => some (body.take n :: ps)

/-! ## Ghost descriptions of the file contents -/

/-- One store record: the 8-byte big-endian length, then the payload. -/
def frame (p : List Byte) : List Byte :=
  putUint lenWidth p.length ++ p

/-- Content of a store to which the payloads `ps` were appended in order. -/
def frames (ps : List (List Byte)) : List Byte :=
  ps.flatMap frame

/-- One index entry: the relative offset in 4 bytes, the store position in 8. -/
def entry (rel pos : Nat) : List Byte :=
  putUint offWidth rel ++ putUint posWidth pos

/-- Content of the index of a segment whose store holds the payloads `ps`: entry `k`
points at the start of the `k`-th frame. -/
def entries (ps : List (List Byte)) : List Byte :=
  (List.range ps.length).flatMap (fun k => entry k (frames (ps.take k)).length)

/-- A segment in good order: its store holds the frames of the payloads `ps`, its index
one entry per payload, and its offsets and file names agree with them. -/
structure SegOK (c : Config) (s : segment) (ps : List (List Byte)) : Prop where
  hConfig : s.config = c
  hStoreName : s.store.name = storeName s.baseOffset
  hIndexName : s.index.name = indexName s.baseOffset
  hBuf : s.store.buf = frames ps
  hSize : s.store.size = (frames ps).length
  hMmap : s.index.mmap = entries ps
  hISize : s.index.size = entWidth * ps.length
  hCap : s.index.cap = c.MaxIndexBytes
  hFits : s.index.size ≤ s.index.cap
  hNext : s.nextOffset = s.baseOffset + ps.length
  hNextLt : s.nextOffset < U64
  hLens : ∀ p ∈ ps, p.length < U64
  hPoss : ∀ k, k < ps.length → (frames (ps.take k)).length < U64

/-- The segments of the log, in the order of `Log.segments`. -/
def Log.segs (l : Log) : List segment :=
  l.segments.map l.deref

/-- Names of the two files of a segment. -/
def segFiles (s : segment) : List FileName :=
  [storeName s.baseOffset, indexName s.baseOffset]

/-- The segment `newSegment` returns when neither of its files exists yet. -/
def emptySegment (b : Nat) (c : Config) : segment :=
  { store := { name := storeName b, buf := [], size := 0 },
    index := { name := indexName b, mmap := [], size := 0, cap := c.MaxIndexBytes },
    baseOffset := b, nextOffset := b, config := c }

/-- Order of two segments of which the first comes earlier in the heap: the first is not
empty and the second starts where the first ends. -/
def Follows (s1 s2 : segment) : Prop :=
  s1.baseOffset < s1.nextOffset ∧ s2.baseOffset = s1.nextOffset

/-- The invariant of a log that was opened on an empty directory and has assigned no
offset above `2 ^ 64 - 2`. The files of the open segments are still empty in the
directory: their contents are written by `Close`. -/
structure Inv (l : Log) : Prop where
  hValid : l.Config.valid
  hHeap : l.heap ≠ []
  hActive : l.activeSegment = some (l.heap.length - 1)
  hPtrs : ∃ j, j ≤ l.heap.length ∧ l.segments = List.range' j (l.heap.length - j)
  hSegs : ∀ s ∈ l.heap, ∃ ps, SegOK l.Config s ps
  hChain : List.Chain' Follows l.heap
  hLast : ∀ s, l.heap.getLast? = some s → s.nextOffset = s.baseOffset ∨ s.IsMaxed = false
  hDir : l.Dir.map Prod.fst = l.segs.flatMap segFiles
  hEmpty : ∀ f ∈ l.Dir, f.2 = []

/-- The states of a log opened on an empty directory with the configuration `c`, reached
through successful calls of `Append` that assign offsets below `2 ^ 64 - 1` and through
calls of `Truncate`. Payloads are Go slices, so their lengths and the arguments of
`Truncate` are 64-bit values. -/
inductive Reach (c : Config) : Log → Prop where
  | fresh (l : Log) : c.valid → NewLog [] c = .ok l → Reach c l
  | append (l l1 : Log) (r : Record) (o : Nat) :
      Reach c l → r.Value.length < U64 → l.Append r = (l1, .ok o) → o + 1 < U64 → Reach c l1
  | truncate (l : Log) (lowerst : Nat) : Reach c l → lowerst < U64 → Reach c (l.Truncate lowerst)

/-- The configuration after `NewLog` has filled in the defaults. -/
def Config.withDefaults (c : Config) : Config :=
  { MaxStoreBytes := if c.MaxStoreBytes = 0 then 1024 else c.MaxStoreBytes,
    MaxIndexBytes := if c.MaxIndexBytes = 0 then 1024 else c.MaxIndexBytes,
    InitialOffset := c.InitialOffset }

/-- The log `NewLog` returns on an empty directory. -/
def freshLog (c : Config) : Log :=
  { Dir := [(storeName c.InitialOffset, []), (indexName c.InitialOffset, [])],
    Config := c.withDefaults,
    heap := [emptySegment c.InitialOffset c.withDefaults],
    activeSegment := some 0,
    segments := [0] }

/-- Value of a string of decimal digits read after the value `v`. -/
def digitsVal (v : Nat) (ds : List Char) : Nat :=
  ds.foldl (fun v c => v * 10 + (c.toNat - '0'.toNat)) v


/-- Order of two segments of which the first comes earlier in the heap, in the transitive
form: the first is not empty and ends no later than the second starts. -/
def Before (s1 s2 : segment) : Prop :=
  s1.baseOffset < s1.nextOffset ∧ s1.nextOffset ≤ s2.baseOffset ∧
    s2.baseOffset ≤ s2.nextOffset

/-- The segment `s` stores the offset `off`: the test of `Log.Read`. -/
def covers (off : Nat) (s : segment) : Prop :=
  s.baseOffset ≤ off ∧ off < s.nextOffset

instance (off : Nat) (s : segment) : Decidable (covers off s) := by
  unfold covers; infer_instance

/-! ## Example states -/

/-- The configuration with every field zero: the defaults of `NewLog` apply. -/
def zeroConfig : Config :=
  { MaxStoreBytes := 0, MaxIndexBytes := 0, InitialOffset := 0 }

/-- The log after `Append("h")` and `Append("w")` on a fresh log with the default
configuration: one segment, holding the offsets 0 and 1. -/
def twoRecords : Log :=
  (((freshLog zeroConfig).Append ⟨[104], 0⟩).1.Append ⟨[119], 0⟩).1

/-- Run `Append` on each record in turn: the final state and the results in order. -/
def appendAll : Log → List Record → Log × List (Except Error Nat)
  | l, [] => (l, [])
  | l, r :: rs => ((appendAll (l.Append r).1 rs).1, (l.Append r).2 :: (appendAll (l.Append r).1 rs).2)

/-- The offsets returned by the successful calls among `results`, in order. -/
def okOffsets : List (Except Error Nat) → List Nat
  | [] => []
  | .ok o :: rest => o :: okOffsets rest
  | .error _ :: rest => okOffsets rest

/-- The active segment's index has no room for another entry: every `Append` fails. -/
def Stuck (l : Log) : Prop :=
  ∃ init s, l.heap = init ++ [s] ∧ l.activeSegment = some (l.heap.length - 1) ∧
    s.index.cap < s.index.size + entWidth

/-- The configuration of the rotation scenario: stores of at most 32 bytes, so that a
segment takes two records of ten bytes. -/
def rotatingConfig : Config :=
  { MaxStoreBytes := 32, MaxIndexBytes := 1024, InitialOffset := 0 }

/-- A record with the ten-byte payload "0123456789". -/
def tenBytes : Record :=
  { Value := [48, 49, 50, 51, 52, 53, 54, 55, 56, 57], Offset := 0 }

/-- A configuration whose first offset is the largest 64-bit value and whose segments are
maxed by every record. -/
def lastOffsetConfig : Config :=
  { MaxStoreBytes := 1, MaxIndexBytes := 1024, InitialOffset := 2 ^ 64 - 1 }

/-- The rotation scenario after one append: offset 0 in the first segment. -/
def oneTenBytes : Log :=
  ((freshLog rotatingConfig).Append tenBytes).1

/-- The rotation scenario after two appends: offsets 0 and 1 fill the first segment, and
the second, still empty, segment is active. -/
def twoTenBytes : Log :=
  (oneTenBytes.Append tenBytes).1

/-- One call on the log: a successful `Append` that assigns an offset below `2 ^ 64 - 1`,
or a `Truncate`. -/
inductive Step : Log → Log → Prop where
  | append (l l1 : Log) (r : Record) (o : Nat) :
      r.Value.length < U64 → l.Append r = (l1, .ok o) → o + 1 < U64 → Step l l1
  | truncate (l : Log) (lowerst : Nat) : lowerst < U64 → Step l (l.Truncate lowerst)

/-- Any number of calls, one after the other. -/
inductive Steps : Log → Log → Prop where
  | refl (l : Log) : Steps l l
  | tail (l l1 l2 : Log) : Steps l l1 → Step l1 l2 → Steps l l2

/-- Every offset stored in a segment object of `l1` is still stored in the same object in
`l2`, with the same record. -/
def Keeps (l1 l2 : Log) : Prop :=
  ∀ p o, p < l1.heap.length → covers o (l1.deref p) →
    p < l2.heap.length ∧ covers o (l2.deref p) ∧ (l2.deref p).Read o = (l1.deref p).Read o

/-- A configuration whose first offset is the largest 64-bit value, with the default
segment sizes. -/
def wrapConfig : Config :=
  { MaxStoreBytes := 0, MaxIndexBytes := 0, InitialOffset := 2 ^ 64 - 1 }

/-- A result is a success that assigned an offset below `2 ^ 64 - 1`. -/
def okBelowMax : Except Error Nat → Bool
  | .ok o => decide (o + 1 < U64)
  | .error _ => false

/-- The truncate scenario: ten records of ten bytes, two per segment, offsets 0 to 9. -/
def tenAppended : Log :=
  (appendAll (freshLog rotatingConfig) (List.replicate 10 tenBytes)).1

/-- A configuration whose first offset is `2 ^ 64 - 2`, with the default segment sizes. -/
def wrapTwoConfig : Config :=
  { MaxStoreBytes := 0, MaxIndexBytes := 0, InitialOffset := 2 ^ 64 - 2 }

/-- Four appends on a log opened with `InitialOffset = 2 ^ 64 - 2`. -/
def wrapFour : Log :=
  (appendAll (freshLog wrapTwoConfig) (List.replicate 4 tenBytes)).1

/-- The bytes a list of readers has still to deliver: for each reader the rest of its
store from its position on. -/
def remaining (rs : List originReader) : List Byte :=
  rs.flatMap (fun r => r.store.buf.drop r.off)

/-- The store contents of the segments concatenated in the order of their base offsets. -/
def storesByBase (l : Log) : List Byte :=
  (l.segs.insertionSort (fun a b => a.baseOffset ≤ b.baseOffset)).flatMap (fun s => s.store.buf)

/-- The payloads appended to the segment objects of the heap, one list per object. -/
def Tracks (l : Log) (pss : List (List (List Byte))) : Prop :=
  List.Forall₂ (SegOK l.Config) l.heap pss

/-- Two appends, of the payloads "a" and "b", on a log whose first offset is
`2 ^ 64 - 1` and whose segments are maxed by every record. -/
def wrapAB : Log :=
  (appendAll (freshLog lastOffsetConfig) [⟨[97], 0⟩, ⟨[98], 0⟩]).1

/-- The files of a segment after `Close`: the store file holds the store content, the
index file the written part of the mapping. -/
def closedFiles (s : segment) : List File :=
  [(storeName s.baseOffset, s.store.buf), (indexName s.baseOffset, s.index.mmap)]

/-- The states of a log opened on an empty directory with the configuration `c` that are
reached through successful calls of `Append` alone, assigning offsets below
`2 ^ 64 - 1`. -/
inductive Appended (c : Config) : Log → Prop where
  | fresh (l : Log) : c.valid → NewLog [] c = .ok l → Appended c l
  | append (l l1 : Log) (r : Record) (o : Nat) :
      Appended c l → r.Value.length < U64 → l.Append r = (l1, .ok o) → o + 1 < U64 →
      Appended c l1

/-- The files of an open segment as the directory holds them before `Close`. -/
def blankFiles (s : segment) : List File :=
  [(storeName s.baseOffset, []), (indexName s.baseOffset, [])]

/-- What a list of segments needs for its files to be told apart: the file names follow
the base offsets, the written part of a mapping is its logical size, and the base offsets
are 64-bit values. -/
def Named (L : List segment) : Prop :=
  ∀ s ∈ L, s.store.name = storeName s.baseOffset ∧ s.index.name = indexName s.baseOffset ∧
    s.index.mmap.length = s.index.size ∧ s.baseOffset < U64

/-- The record with the payload "hello". -/
def hello : Record :=
  { Value := [104, 101, 108, 108, 111], Offset := 0 }

/-- The record with the payload "world". -/
def world : Record :=
  { Value := [119, 111, 114, 108, 100], Offset := 0 }

/-- The log after `Append("hello")` on a fresh log with the default configuration. -/
def helloLog : Log :=
  ((freshLog zeroConfig).Append hello).1

/-- The log after `Append("hello")` and `Append("world")`. -/
def helloWorldLog : Log :=
  (helloLog.Append world).1

/-! ## Removing and resetting the log -/

/-- Go `os.RemoveAll(path)`: the directory and everything in it are deleted. The result is
what the path names afterwards: nothing. -/
def RemoveAll (_ : Directory) : Option Directory :=
  none

/-- Go `NewLog` called with a path: `ioutil.ReadDir` fails when the path names no
directory, and `NewLog` returns that error; otherwise it runs on the files found there. -/
def NewLog.onPath (path : Option Directory) (c : Config) : Except Error Log :=
  match path with
  | none => .error Error.notExist
  | some dir => NewLog dir c

/-- Go `(*Log).Remove`: `Close`, then `os.RemoveAll(l.Dir)`. Returns the log object, which
`Remove` leaves as `Close` did, and what the path `l.Dir` names afterwards. -/
def Log.Remove (l : Log) : Log × Option Directory :=
  (l.Close, RemoveAll l.Close.Dir)

/-- Go `(*Log).Reset`: the log object afterwards and the result. The assignment
`*l = *newLog` is reached only when `NewLog` has succeeded. -/
def Log.Reset (l : Log) : Log × Except Error Unit :=
  match NewLog.onPath l.Remove.2 l.Remove.1.Config with
  | .error e => (l.Remove.1, .error e)
  | .ok newLog => (newLog, .ok ())

/-! ## More example states -/

/-- The active segment's index has no room for another entry. -/
def indexFull (l : Log) : Prop :=
  ∃ p, l.activeSegment = some p ∧ p < l.heap.length ∧
    (l.deref p).index.cap < (l.deref p).index.size + entWidth

/-- A directory holding the two files of the segment with base 5 and a file whose name is
not a number. -/
def notesDir : Directory :=
  [("5.index".toList, []), ("5.store".toList, []), ("notes.txt".toList, [])]

/-- The two files of the segment with base 5 alone. -/
def fiveDir : Directory :=
  [("5.index".toList, []), ("5.store".toList, [])]

/-- A directory holding the store files of two segments and no index file. -/
def storesOnlyDir : Directory :=
  [("0.store".toList, []), ("1.store".toList, [])]

/-- The base offsets of the segments of a log, in the order of `Log.segments`. -/
def Log.bases (l : Log) : List Nat :=
  l.segs.map segment.baseOffset

/-- The elements at the even positions of a list: what `NewLog` keeps of the sorted base
offsets. -/
def everyOther : List Nat → List Nat
  | [] => []
  | [b] => [b]
  | b :: _ :: rest => b :: everyOther rest

/-- The sorted base offsets `NewLog` reads off the names of a directory. -/
def baseOffsets (dir : Directory) : List Nat :=
  ((ReadDir dir).map parseBase).insertionSort (fun a b => a ≤ b)

/-- The names of a directory that holds, for every base offset of `B`, the store file and
the index file of that base and nothing else. -/
def pairedNames (B : List Nat) : List FileName :=
  B.flatMap (fun b => [storeName b, indexName b])

/-- The index files of a directory are as `Close` leaves them: a whole number of entries,
no more than the mapping of the configuration holds. -/
def indexFilesClosed (dir : Directory) (c : Config) : Prop :=
  ∀ b content, Directory.lookup dir (indexName b) = some content →
    content.length % entWidth = 0 ∧ content.length ≤ c.MaxIndexBytes

/-! ## Store histories -/

/-- `Append` of each payload in turn: the store afterwards and the results
`(n, pos)` in order. -/
def store.appendAll : store → List (List Byte) → store × List (Nat × Nat)
  | s, [] => (s, [])
  | s, p :: ps =>
    ((store.appendAll (s.Append p).1 ps).1,
      ((s.Append p).2.1, (s.Append p).2.2) :: (store.appendAll (s.Append p).1 ps).2)

/-- The payload of the store test, "hello world". -/
def helloWorld : List Byte :=
  [104, 101, 108, 108, 111, 32, 119, 111, 114, 108, 100]

/-- Go `width` of the store test: `len(write) + lenWidth`. -/
def width : Nat :=
  helloWorld.length + lenWidth

/-! ## The store and its buffered writer -/

/-- Size of the buffer of `bufio.NewWriter`. -/
def bufSize : Nat := 4096

/-- Go `(*bufio.Writer).Write` of `p` on a writer that holds `pending` and writes to a file
holding `file`: the file and the buffer afterwards. Bytes that fit stay in the buffer; a
write that does not fit goes to the file directly when the buffer is empty, and
otherwise fills the buffer, flushes it and starts again with the rest. -/
def bufWrite (file pending p : List Byte) : List Byte × List Byte :=
  if p.length ≤ bufSize - pending.length then (file, pending ++ p)
  else if pending = [] then (file ++ p, [])
  else
    let n := bufSize - pending.length
    if bufSize < (p.drop n).length then (file ++ pending ++ p.take n ++ p.drop n, [])
    else (file ++ pending ++ p.take n, p.drop n)

/-- Modelled from the spec: the store of section 4.1 with its buffered writer told apart
from its file ("wrap writes behind a buffered writer"): `file` is what is on disk,
`pending` what the buffered writer still holds. The logical content, the `buf` of
`store`, is `file ++ pending`. -/
structure bufStore where
  name : FileName
  file : List Byte
  pending : List Byte
  size : Nat
  deriving DecidableEq, Repr

/-- Modelled from the spec: store construction on a file that holds `file`: "seek to its
end, record that as the initial size"; the buffered writer is empty. -/
def bufStore.newStore (name : FileName) (file : List Byte) : bufStore :=
  { name := name, file := file, pending := [], size := file.length }

/-- Modelled from the spec: `Store.Append(p)`: the length, then `p`, are written to the
buffered writer; returns the store, the number of bytes written and the position. -/
def bufStore.Append (s : bufStore) (p : List Byte) : bufStore × Nat × Nat :=
  let w1 := bufWrite s.file s.pending (putUint lenWidth p.length)
  let w2 := bufWrite w1.1 w1.2 p
  ({ s with file := w2.1, pending := w2.2, size := s.size + (lenWidth + p.length) },
    lenWidth + p.length, s.size)

/-- Flush of the buffered writer: what it holds goes to the file. -/
def bufStore.flush (s : bufStore) : bufStore :=
  { s with file := s.file ++ s.pending, pending := [] }

/-- Modelled from the spec: `Store.Read(pos)`: "flush the buffered writer", then read the
length and the payload from the file; returns the store afterwards and the result. -/
def bufStore.Read (s : bufStore) (pos : Nat) : bufStore × Except Error (List Byte) :=
  (s.flush, store.Read (Proglog.newStore s.name s.flush.file) pos)

/-- `Append` of each payload in turn. -/
def bufStore.appendAll : bufStore → List (List Byte) → bufStore
  | s, [] => s
  | s, p :: ps => bufStore.appendAll (s.Append p).1 ps

/-- The store as the segment sees it: the logical content and the size. -/
def bufStore.view (s : bufStore) : store :=
  { name := s.name, buf := s.file ++ s.pending, size := s.size }

/-- The store of the test after `testAppend`: three appends of "hello world" to a store
opened on an empty file. -/
def testStore : bufStore :=
  bufStore.appendAll (bufStore.newStore "store_test".toList [])
    [helloWorld, helloWorld, helloWorld]

/-! ## The in-memory log of package `server` -/

namespace server

/-- Go `server.Record`. -/
structure Record where
  Value : List Byte
  Offset : Nat
  deriving DecidableEq, Repr

instance : Inhabited Record :=
  ⟨{ Value := [], Offset := 0 }⟩

/-- Go `server.ErrOffsetNotFound`, the only error of the package. -/
inductive Err where
  | ErrOffsetNotFound
  deriving DecidableEq, Repr

/-- Go `server.Log`; the mutex is not part of the sequential model. -/
structure Log where
  records : List Record
  deriving DecidableEq, Repr

/-- Go `server.NewLog`. -/
def NewLog : Log :=
  { records := [] }

/-- Go `(*Log).Append`: the log afterwards, the offset and the error, which is always
`nil`. -/
def Log.Append (c : Log) (record : Record) : Log × Nat × Option Err :=
  let record1 := { record with Offset := c.records.length % U64 }
  ({ records := c.records ++ [record1] }, record1.Offset, none)

/-- Go `(*Log).Read`: the log afterwards and the result. -/
def Log.Read (c : Log) (offset : Nat) : Log × Except Err Record :=
  if offset ≥ c.records.length % U64 then (c, .error Err.ErrOffsetNotFound)
  else (c, .ok (c.records.getD offset default))

/-- `Append` of each record in turn on a log: the log afterwards and the results in
order. -/
def appendAll : Log → List Record → Log × List (Nat × Option Err)
  | c, [] => (c, [])
  | c, r :: rs =>
    ((appendAll (c.Append r).1 rs).1, (c.Append r).2 :: (appendAll (c.Append r).1 rs).2)

end server

/-! ## States reached through failed calls too -/

/-- The states of a log opened on an empty directory with the configuration `c`, reached
through calls of `Append`, the failed ones included, whose successes assign offsets below
`2 ^ 64 - 1`, and through calls of `Truncate`. -/
inductive Called (c : Config) : Log → Prop where
  | fresh (l : Log) : c.valid → NewLog [] c = .ok l → Called c l
  | append (l : Log) (r : Record) :
      Called c l → r.Value.length < U64 → (∀ o, (l.Append r).2 = .ok o → o + 1 < U64) →
      Called c (l.Append r).1
  | truncate (l : Log) (lowerst : Nat) :
      Called c l → lowerst < U64 → Called c (l.Truncate lowerst)

/-- What the log reads of a segment apart from the content of its store. -/
def shape (s : segment) : index × Nat × Nat × Config × FileName :=
  (s.index, s.baseOffset, s.nextOffset, s.config, s.store.name)

/-- Two logs that differ at most in the contents of their stores. -/
def sameShape (l l0 : Log) : Prop :=
  l.Dir = l0.Dir ∧ l.Config = l0.Config ∧ l.segments = l0.segments ∧
  l.activeSegment = l0.activeSegment ∧ l.heap.map shape = l0.heap.map shape

/-! ## The lock of the log -/

/-- What a method of `Log` does to the lock `l.mu` and to the segments, in program order:
the four calls on the lock, the test of the segment `p` by a loop over `l.segments`, the
read delegated to the segment `p`, and the assignment to `l.segments`. -/
inductive Event where
  | RLock
  | RUnlock
  | Lock
  | Unlock
  | scan (p : Nat)
  | read (p : Nat)
  | assign
  deriving DecidableEq, Repr

/-- The loop of `(*Log).Read`: the segments are tested in order up to the first that
covers `off`, to which the read is delegated. -/
def scanEvents (l : Log) (off : Nat) : List Nat → List Event
  | [] => []
  | p :: ps =>
    if off ≥ (l.deref p).baseOffset ∧ off < (l.deref p).nextOffset then [.scan p, .read p]
    else .scan p :: scanEvents l off ps

/-- The events of Go `(*Log).Read`: `l.mu.RLock()` and, in the next statement,
`l.mu.RUnlock()`; then the loop and the delegated read. -/
def Log.Read.events (l : Log) (off : Nat) : List Event :=
  .RLock :: .RUnlock :: scanEvents l off l.segments

/-- The events of Go `(*Log).LowestOffset`: `defer l.mu.RUnlock()` puts the unlock after
the access to `l.segments[0]`. -/
def Log.LowestOffset.events (l : Log) : List Event :=
  match l.segments.head? with
  | some p => [.RLock, .scan p, .RUnlock]
  | none => [.RLock, .RUnlock]

/-- The events of Go `(*Log).Truncate`: the write lock, the loop over the segments, the
assignment to `l.segments`, and the deferred unlock. -/
def Log.Truncate.events (l : Log) : List Event :=
  .Lock :: (l.segments.map Event.scan ++ [.assign, .Unlock])

/-- Whether every access to the segments in the events of one call happens while the call
holds the lock; `n` counts the locks held. -/
def lockedFrom : Nat → List Event → Bool
  | _, [] => true
  | n, .RLock :: es => lockedFrom (n + 1) es
  | n, .Lock :: es => lockedFrom (n + 1) es
  | n, .RUnlock :: es => lockedFrom (n - 1) es
  | n, .Unlock :: es => lockedFrom (n - 1) es
  | n, _ :: es => decide (0 < n) && lockedFrom n es

/-- State of a `sync.RWMutex`: the number of readers that hold it and whether a writer
does. -/
structure RWMutex where
  readers : Nat
  writer : Bool
  deriving DecidableEq, Repr

/-- One event under the lock: `none` when the call would block (a reader while a writer
holds the lock, a writer while anyone holds it) or unlocks a lock that is not held. -/
def RWMutex.step (m : RWMutex) : Event → Option RWMutex
  | .RLock => if m.writer then none else some { m with readers := m.readers + 1 }
  | .RUnlock => if m.readers = 0 then none else some { m with readers := m.readers - 1 }
  | .Lock => if m.writer || decide (m.readers ≠ 0) then none else some { m with writer := true }
  | .Unlock => if m.writer then some { m with writer := false } else none
  | _ => some m

/-- Two calls running in two goroutines under one lock. The schedule says which goroutine
takes each step, `false` for the first call and `true` for the second. The result is the
sequence of steps taken, each with its goroutine, when the lock allows every step and both
calls run to their end. -/
def run : RWMutex → List Event → List Event → List Bool → Option (List (Bool × Event))
  | _, [], [], [] => some []
  | m, a :: as, bs, false :: s =>
    match m.step a with
    | none => none
    | some m1 => (run m1 as bs s).map (fun t => (false, a) :: t)
  | m, as, b :: bs, true :: s =>
    match m.step b with
    | none => none
    | some m1 => (run m1 as bs s).map (fun t => (true, b) :: t)
  | _, _, _, _ => none

/-- Whether the first goroutine takes a step in `t`. -/
def firstSteps (t : List (Bool × Event)) : Bool :=
  t.any (fun x => !x.1)

/-- Whether the second goroutine assigns `l.segments` while the call of the first is in
progress: after a step of the first goroutine and before another. -/
def writeDuring : List (Bool × Event) → Bool → Bool
  | [], _ => false
  | (false, _) :: t, _ => writeDuring t true
  | (true, e) :: t, started =>
    (started && decide (e = Event.assign) && firstSteps t) || writeDuring t started

/-- Every schedule of `n` steps. -/
def schedules : Nat → List (List Bool)
  | 0 => [[]]
  | n + 1 => (schedules n).flatMap (fun s => [false :: s, true :: s])

/-- The schedule admits no assignment to `l.segments` during the first call: it is
blocked by the lock, or the assignment falls before or after the call. -/
def excludes (as bs : List Event) (s : List Bool) : Bool :=
  match run ⟨0, false⟩ as bs s with
  | none => true
  | some t => !writeDuring t false

/-! ## An index of more than `2 ^ 32` entries -/

/-- A configuration whose index has room for `2 ^ 32 + 2` entries and whose store does not
fill up before the index does. -/
def bigIndexConfig : Config :=
  { MaxStoreBytes := 2 ^ 40, MaxIndexBytes := 12 * (2 ^ 32 + 2), InitialOffset := 0 }

/-- The record with the empty payload. -/
def emptyRecord : Record :=
  { Value := [], Offset := 0 }

/-- The log after `n` appends of the empty record on a log opened with
`bigIndexConfig`. -/
def emptyAppended (n : Nat) : Log :=
  (appendAll (freshLog bigIndexConfig) (List.replicate n emptyRecord)).1

/-! ## Encodings -/

theorem putUint_length (w n : Nat) : (putUint w n).length = w := by
  induction w generalizing n with
  | zero => rfl
  | succ w ih => simp [putUint, ih]

theorem getUint_append_singleton (bs : List Byte) (b : Byte) :
    getUint (bs ++ [b]) = getUint bs * 256 + b.val := by
  simp [getUint, List.foldl_append]

theorem getUint_putUint (w n : Nat) : getUint (putUint w n) = n % 256 ^ w := by
  induction w generalizing n with
  | zero => simp [putUint, getUint, Nat.mod_one]
  | succ w ih =>
    rw [putUint, getUint_append_singleton, ih]
    have h1 : (Fin.ofNat (n % 256) : Byte).val = n % 256 := by
      simp [Fin.ofNat]
    rw [h1, pow_succ, Nat.mul_comm (256 ^ w) 256, Nat.mod_mul]
    omega

theorem getUint_putUint_of_lt (w n : Nat) (h : n < 256 ^ w) : getUint (putUint w n) = n := by
  rw [getUint_putUint, Nat.mod_eq_of_lt h]

theorem entry_length (rel pos : Nat) : (entry rel pos).length = entWidth := by
  simp [entry, putUint_length, entWidth]

theorem frame_length (p : List Byte) : (frame p).length = lenWidth + p.length := by
  simp [frame, putUint_length]

theorem frames_nil : frames [] = [] := rfl

theorem frames_append (ps qs : List (List Byte)) : frames (ps ++ qs) = frames ps ++ frames qs := by
  simp [frames, List.flatMap_append]

theorem frames_singleton (p : List Byte) : frames [p] = frame p := by
  simp [frames, List.flatMap]

theorem entries_nil : entries [] = [] := rfl

theorem entries_snoc (ps : List (List Byte)) (p : List Byte) :
    entries (ps ++ [p]) = entries ps ++ entry ps.length (frames ps).length := by
  unfold entries
  rw [List.length_append, List.length_singleton, List.range_succ, List.flatMap_append]
  congr 1
  · apply List.flatMap_congr
    intro k hk
    rw [List.mem_range] at hk
    rw [List.take_append_of_le_length (by omega)]
  · simp [List.flatMap]

theorem entries_length (ps : List (List Byte)) : (entries ps).length = entWidth * ps.length := by
  induction ps using List.reverseRecOn with
  | nil => rfl
  | append_singleton ps p ih =>
    rw [entries_snoc, List.length_append, ih, entry_length, List.length_append,
      List.length_singleton, Nat.mul_add, Nat.mul_one]

theorem entries_get (ps : List (List Byte)) (k : Nat) (hk : k < ps.length) :
    ((entries ps).drop (k * entWidth)).take entWidth = entry k (frames (ps.take k)).length := by
  induction ps using List.reverseRecOn with
  | nil => simp at hk
  | append_singleton ps p ih =>
    rw [entries_snoc]
    rw [List.length_append, List.length_singleton] at hk
    by_cases hlt : k < ps.length
    · have hl : k * entWidth + entWidth ≤ (entries ps).length := by
        rw [entries_length]
        have : (k + 1) * entWidth ≤ ps.length * entWidth := Nat.mul_le_mul_right _ hlt
        rw [Nat.mul_comm entWidth]; rw [Nat.add_mul, Nat.one_mul] at this; exact this
      rw [List.drop_append_of_le_length (by omega),
        List.take_append_of_le_length (by rw [List.length_drop]; omega), ih hlt,
        List.take_append_of_le_length (by omega)]
    · have hk2 : k = ps.length := by omega
      subst hk2
      have hl : (entries ps).length = ps.length * entWidth := by
        rw [entries_length, Nat.mul_comm]
      rw [← hl, List.drop_left, List.take_left, ← entry_length ps.length (frames ps).length,
        List.take_length]

/-! ## Reading and appending in one segment -/

theorem frames_split (ps : List (List Byte)) (k : Nat) (hk : k < ps.length) :
    frames ps = frames (ps.take k) ++ (frame ps[k] ++ frames (ps.drop (k + 1))) := by
  conv_lhs => rw [← List.take_append_drop k ps]
  rw [frames_append, List.drop_eq_getElem_cons hk]
  congr 1

theorem store_Read_frame (s : store) (pre post p : List Byte)
    (hbuf : s.buf = pre ++ (frame p ++ post)) (hp : p.length < U64) :
    s.Read pre.length = .ok p := by
  have h8 : (putUint lenWidth p.length).length = lenWidth := putUint_length _ _
  have hdr : (s.buf.drop pre.length).take lenWidth = putUint lenWidth p.length := by
    rw [hbuf, List.drop_left, frame, List.append_assoc, List.take_left' h8]
  have hlen : getUint (putUint lenWidth p.length) = p.length :=
    getUint_putUint_of_lt _ _ (by simpa [lenWidth, U64] using hp)
  have hbody : (s.buf.drop (pre.length + lenWidth)).take p.length = p := by
    rw [hbuf, ← List.drop_drop, List.drop_left, frame, List.append_assoc, List.drop_left' h8,
      List.take_left]
  simp only [store.Read, store.ReadAt, hdr, h8, hlen, hbody, lt_irrefl, if_false]

theorem index_Read_entry (i : index) (ps : List (List Byte)) (k : Nat)
    (hm : i.mmap = entries ps) (hs : i.size = entWidth * ps.length) (hk : k < ps.length) :
    i.Read (k : Int) = .ok (k % 256 ^ offWidth, (frames (ps.take k)).length % 256 ^ posWidth) := by
  have hw : entWidth = 12 := rfl
  have hsz : i.size ≠ 0 := by rw [hs, hw]; omega
  have hne : ((k : Int) = -1) = False := by simp
  have hpos : ((k : Int) * (entWidth : Int)).toNat = k * entWidth := by
    rw [← Int.natCast_mul, Int.toNat_natCast]
  have hlt : ¬ ((i.size : Int) < (k : Int) * (entWidth : Int) + (entWidth : Int)) := by
    rw [hs, hw]; push_cast; omega
  have hlen : ¬ ((k : Int) * (entWidth : Int) < 0 ∨
      (entries ps).length < k * entWidth + entWidth) := by
    rw [entries_length, hw]
    push_neg
    omega
  have he := entries_get ps k hk
  unfold index.Read
  have h4 : (putUint offWidth k).length = offWidth := putUint_length _ _
  simp only [hsz, if_false, hne, hlt, hlen, hpos, hm, he, entry, List.take_left' h4,
    List.drop_left' h4, getUint_putUint]

theorem segment_Read_ok (c : Config) (s : segment) (ps : List (List Byte)) (h : SegOK c s ps)
    (k : Nat) (hk : k < ps.length) :
    s.Read (s.baseOffset + k) = .ok { Value := ps[k], Offset := s.baseOffset + k } := by
  have hrel : ((s.baseOffset + k : Nat) : Int) - (s.baseOffset : Int) = (k : Int) := by
    push_cast; omega
  have hi := index_Read_entry s.index ps k h.hMmap h.hISize hk
  have hpos : (frames (ps.take k)).length % 256 ^ posWidth = (frames (ps.take k)).length :=
    Nat.mod_eq_of_lt (by simpa [posWidth, U64] using h.hPoss k hk)
  have hst : s.store.Read (frames (ps.take k)).length = .ok ps[k] :=
    store_Read_frame s.store _ (frames (ps.drop (k + 1))) ps[k]
      (by rw [h.hBuf]; exact frames_split ps k hk) (h.hLens _ (List.getElem_mem hk))
  unfold segment.Read
  rw [hrel, hi]
  simp only [hpos, hst]
theorem segment_Append_eq (s : segment) (r : Record)
    (hroom : s.index.size + entWidth ≤ s.index.cap) :
    s.Append r =
      ({ s with
          store := { s.store with
            buf := s.store.buf ++ putUint lenWidth r.Value.length ++ r.Value,
            size := s.store.size + (lenWidth + r.Value.length) },
          index := { s.index with
            mmap := s.index.mmap.take s.index.size ++
              putUint offWidth ((s.nextOffset + U64 - s.baseOffset) % U64) ++
              putUint posWidth s.store.size,
            size := s.index.size + entWidth },
          nextOffset := (s.nextOffset + 1) % U64 }, .ok s.nextOffset) := by
  have h : ¬ s.index.cap < s.index.size + entWidth := by omega
  simp [segment.Append, store.Append, index.Write, h]

theorem segment_Append_full (s : segment) (r : Record)
    (hfull : s.index.cap < s.index.size + entWidth) :
    (s.Append r).2 = .error Error.EOF := by
  simp [segment.Append, store.Append, index.Write, hfull]

theorem segment_Append_ok (c : Config) (s : segment) (ps : List (List Byte)) (h : SegOK c s ps)
    (r : Record) (hr : r.Value.length < U64) (hpos : s.store.size < U64)
    (hnext : s.nextOffset + 1 < U64) (hroom : s.index.size + entWidth ≤ s.index.cap) :
    SegOK c (s.Append r).1 (ps ++ [r.Value]) ∧ (s.Append r).1.baseOffset = s.baseOffset ∧
      (s.Append r).2 = .ok s.nextOffset := by
  rw [segment_Append_eq s r hroom]
  refine ⟨?_, rfl, rfl⟩
  have hrel : (s.nextOffset + U64 - s.baseOffset) % U64 = ps.length := by
    have h1 := h.hNext
    have h2 := h.hNextLt
    rw [show s.nextOffset + U64 - s.baseOffset = ps.length + U64 by omega, Nat.add_mod_right]
    exact Nat.mod_eq_of_lt (by omega)
  have htake : s.index.mmap.take s.index.size = s.index.mmap := by
    apply List.take_of_length_le
    rw [h.hMmap, entries_length, h.hISize]
  constructor
  · exact h.hConfig
  · exact h.hStoreName
  · exact h.hIndexName
  · show s.store.buf ++ putUint lenWidth r.Value.length ++ r.Value = frames (ps ++ [r.Value])
    rw [frames_append, frames_singleton, frame, h.hBuf, List.append_assoc]
  · show s.store.size + (lenWidth + r.Value.length) = (frames (ps ++ [r.Value])).length
    rw [frames_append, frames_singleton, List.length_append, frame_length, h.hSize]
  · show s.index.mmap.take s.index.size ++ putUint offWidth _ ++ putUint posWidth s.store.size
      = entries (ps ++ [r.Value])
    rw [entries_snoc, htake, hrel, h.hMmap, h.hSize, entry, List.append_assoc]
  · show s.index.size + entWidth = entWidth * (ps ++ [r.Value]).length
    rw [h.hISize, List.length_append, List.length_singleton, Nat.mul_add, Nat.mul_one]
  · exact h.hCap
  · exact hroom
  · show (s.nextOffset + 1) % U64 = s.baseOffset + (ps ++ [r.Value]).length
    rw [Nat.mod_eq_of_lt hnext, h.hNext, List.length_append, List.length_singleton, Nat.add_assoc]
  · show (s.nextOffset + 1) % U64 < U64
    rw [Nat.mod_eq_of_lt hnext]; exact hnext
  · intro p hp
    rcases List.mem_append.1 hp with hp | hp
    · exact h.hLens p hp
    · rw [List.mem_singleton.1 hp]; exact hr
  · intro k hk
    rw [List.length_append, List.length_singleton] at hk
    rw [List.take_append_of_le_length (by omega)]
    by_cases hlt : k < ps.length
    · exact h.hPoss k hlt
    · have hk2 : k = ps.length := by omega
      rw [hk2, List.take_length, ← h.hSize]; exact hpos

/-! ## File names -/

theorem digitChar_spec (d : Nat) (hd : d < 10) :
    ('0' ≤ digitChar d ∧ digitChar d ≤ '9') ∧ (digitChar d).toNat - '0'.toNat = d := by
  interval_cases d <;> decide

theorem digit_ne_dot (c : Char) (h : '0' ≤ c ∧ c ≤ '9') : c ≠ '.' ∧ c ≠ '/' := by
  constructor
  · rintro rfl; exact absurd h (by decide)
  · rintro rfl; exact absurd h (by decide)

theorem digitsVal_append (v : Nat) (a b : List Char) :
    digitsVal v (a ++ b) = digitsVal (digitsVal v a) b := by
  simp [digitsVal, List.foldl_append]

theorem digitsVal_ge (ds : List Char) (v : Nat) : v ≤ digitsVal v ds := by
  induction ds generalizing v with
  | nil => exact Nat.le_refl _
  | cons c rest ih =>
    have := ih (v * 10 + (c.toNat - '0'.toNat))
    simp only [digitsVal, List.foldl_cons] at this ⊢
    omega

theorem formatDigits_spec (fuel n : Nat) (acc : List Char) (hn : n < 10 ^ (fuel + 1)) :
    ∃ ds, formatDigits (fuel + 1) n acc = ds ++ acc ∧ ds ≠ [] ∧
      (∀ c ∈ ds, '0' ≤ c ∧ c ≤ '9') ∧ ∀ v, digitsVal v ds = v * 10 ^ ds.length + n := by
  have hd := digitChar_spec (n % 10) (Nat.mod_lt _ (by decide))
  induction fuel generalizing n acc with
  | zero =>
    have h0 : n / 10 = 0 := by omega
    unfold formatDigits
    rw [if_pos h0]
    refine ⟨[digitChar (n % 10)], rfl, by simp, ?_, ?_⟩
    · intro c hc; rw [List.mem_singleton.1 hc]; exact hd.1
    · intro v
      simp only [digitsVal, List.foldl_cons, List.foldl_nil, hd.2, List.length_singleton]
      omega
  | succ f ih =>
    unfold formatDigits
    by_cases h0 : n / 10 = 0
    · rw [if_pos h0]
      refine ⟨[digitChar (n % 10)], rfl, by simp, ?_, ?_⟩
      · intro c hc; rw [List.mem_singleton.1 hc]; exact hd.1
      · intro v
        simp only [digitsVal, List.foldl_cons, List.foldl_nil, hd.2, List.length_singleton]
        omega
    · rw [if_neg h0]
      have hlt : n / 10 < 10 ^ (f + 1) := by
        rw [pow_succ] at hn
        exact Nat.div_lt_of_lt_mul (by rw [Nat.mul_comm]; exact hn)
      obtain ⟨ds, he, _, hdig, hval⟩ := ih (n / 10) (digitChar (n % 10) :: acc) hlt
        (digitChar_spec (n / 10 % 10) (Nat.mod_lt _ (by decide)))
      refine ⟨ds ++ [digitChar (n % 10)], by rw [he]; simp, by simp, ?_, ?_⟩
      · intro c hc
        rcases List.mem_append.1 hc with hc | hc
        · exact hdig c hc
        · rw [List.mem_singleton.1 hc]; exact hd.1
      · intro v
        rw [digitsVal_append, hval]
        simp only [digitsVal, List.foldl_cons, List.foldl_nil, hd.2, List.length_append,
          List.length_singleton, pow_succ]
        have := Nat.div_add_mod n 10
        ring_nf
        ring_nf at this
        omega

theorem parseDigits_digits (ds : List Char) (v : Nat) (hdig : ∀ c ∈ ds, '0' ≤ c ∧ c ≤ '9')
    (hfit : digitsVal v ds < U64) : parseDigits ds v = (digitsVal v ds, none) := by
  induction ds generalizing v with
  | nil => rfl
  | cons c rest ih =>
    have hc := hdig c (List.mem_cons_self _ _)
    have hrest : ∀ c ∈ rest, '0' ≤ c ∧ c ≤ '9' := fun x hx => hdig x (List.mem_cons_of_mem _ hx)
    have hfit2 : digitsVal (v * 10 + (c.toNat - '0'.toNat)) rest < U64 := hfit
    have hge := digitsVal_ge rest (v * 10 + (c.toNat - '0'.toNat))
    have hU : U64 = 18446744073709551616 := by decide
    rw [hU] at hfit2
    have h1 : ¬ (v ≥ (U64 - 1) / 10 + 1) := by rw [hU]; omega
    have h2 : ¬ (v * 10 + (c.toNat - '0'.toNat) > U64 - 1) := by rw [hU]; omega
    unfold parseDigits
    rw [if_pos hc]
    simp only [h1, h2, if_false]
    rw [ih _ hrest hfit]
    rfl

theorem formatUint_spec (n : Nat) (hn : n < U64) :
    formatUint n ≠ [] ∧ (∀ c ∈ formatUint n, '0' ≤ c ∧ c ≤ '9') ∧
      ParseUint (formatUint n) = (n, none) := by
  have h20 : n < 10 ^ 20 := lt_trans hn (by decide)
  obtain ⟨ds, he, hne, hdig, hval⟩ := formatDigits_spec 19 n [] h20
  rw [List.append_nil] at he
  have hv : digitsVal 0 ds = n := by rw [hval 0]; omega
  unfold formatUint ParseUint
  rw [he]
  refine ⟨hne, hdig, ?_⟩
  rw [if_neg hne, parseDigits_digits ds 0 hdig (by rw [hv]; exact hn), hv]
theorem Ext_store (ds : List Char) : Ext (ds ++ ".store".toList) = ".store".toList := by
  simp [Ext, List.reverse_append, extScan]

theorem Ext_index (ds : List Char) : Ext (ds ++ ".index".toList) = ".index".toList := by
  simp [Ext, List.reverse_append, extScan]

theorem TrimSuffix_append (ds suf : List Char) : TrimSuffix (ds ++ suf) suf = ds := by
  have h : suf.isSuffixOf (ds ++ suf) = true :=
    List.isSuffixOf_iff_suffix.2 (List.suffix_append ds suf)
  simp [TrimSuffix, h]

theorem parseBase_storeName (b : Nat) (hb : b < U64) : parseBase (storeName b) = b := by
  unfold parseBase storeName
  rw [Ext_store, TrimSuffix_append, (formatUint_spec b hb).2.2]

theorem parseBase_indexName (b : Nat) (hb : b < U64) : parseBase (indexName b) = b := by
  unfold parseBase indexName
  rw [Ext_index, TrimSuffix_append, (formatUint_spec b hb).2.2]

theorem storeName_ne_indexName (a b : Nat) : storeName a ≠ indexName b := by
  intro h
  have h1 := congrArg Ext h
  unfold storeName indexName at h1
  rw [Ext_store, Ext_index] at h1
  exact absurd h1 (by decide)

theorem storeName_inj (a b : Nat) (ha : a < U64) (hb : b < U64) (h : storeName a = storeName b) :
    a = b := by
  rw [← parseBase_storeName a ha, ← parseBase_storeName b hb, h]

theorem indexName_inj (a b : Nat) (ha : a < U64) (hb : b < U64) (h : indexName a = indexName b) :
    a = b := by
  rw [← parseBase_indexName a ha, ← parseBase_indexName b hb, h]

/-! ## Opening a log on an empty directory -/

theorem lookup_eq_none (d : Directory) (n : FileName) :
    d.lookup n = none ↔ n ∉ d.map Prod.fst := by
  induction d with
  | nil => simp [Directory.lookup]
  | cons f rest ih =>
    obtain ⟨m, c⟩ := f
    by_cases h : m = n
    · simp [Directory.lookup, h]
    · have h2 : ¬ n = m := fun e => h e.symm
      simp [Directory.lookup, h, h2, ih]

theorem openCreate_absent (d : Directory) (n : FileName) (h : n ∉ d.map Prod.fst) :
    d.openCreate n = ([], d ++ [(n, [])]) := by
  simp [Directory.openCreate, (lookup_eq_none d n).2 h]

theorem SegOK_empty (b : Nat) (c : Config) (hb : b < U64) : SegOK c (emptySegment b c) [] := by
  constructor <;> simp [emptySegment, frames_nil, entries_nil, hb]

theorem newSegment_absent (d : Directory) (b : Nat) (c : Config)
    (h1 : storeName b ∉ d.map Prod.fst) (h2 : indexName b ∉ d.map Prod.fst) :
    newSegment d b c = .ok (emptySegment b c, d ++ [(storeName b, []), (indexName b, [])]) := by
  have h3 : indexName b ∉ (d ++ [(storeName b, [])]).map Prod.fst := by
    simp only [List.map_append, List.mem_append, List.map_cons, List.map_nil, List.mem_singleton]
    rintro (h | h)
    · exact h2 h
    · exact storeName_ne_indexName b b h.symm
  simp [newSegment, openCreate_absent d _ h1, openCreate_absent _ _ h3, newStore, newIndex,
    index.Read, emptySegment]
theorem withDefaults_valid (c : Config) (h : c.valid) : c.withDefaults.valid := by
  obtain ⟨h1, h2, h3⟩ := h
  have hU : (1024 : Nat) < U64 := by decide
  refine ⟨?_, ?_, h3⟩
  · show (if c.MaxStoreBytes = 0 then 1024 else c.MaxStoreBytes) < U64
    split <;> assumption
  · show (if c.MaxIndexBytes = 0 then 1024 else c.MaxIndexBytes) < U64
    split <;> assumption

theorem NewLog_empty (c : Config) : NewLog [] c = .ok (freshLog c) := by
  have hc : (if (if c.MaxStoreBytes = 0 then { c with MaxStoreBytes := 1024 } else c).MaxIndexBytes = 0
      then { (if c.MaxStoreBytes = 0 then { c with MaxStoreBytes := 1024 } else c) with
        MaxIndexBytes := 1024 }
      else (if c.MaxStoreBytes = 0 then { c with MaxStoreBytes := 1024 } else c)) = c.withDefaults := by
    unfold Config.withDefaults
    by_cases h1 : c.MaxStoreBytes = 0 <;> by_cases h2 : c.MaxIndexBytes = 0 <;> simp [h1, h2]
  have hi : c.withDefaults.InitialOffset = c.InitialOffset := rfl
  unfold NewLog
  simp only [hc, hi]
  simp [ReadDir, NewLog.loop, Log.newSegment, newSegment_absent, freshLog]

theorem segs_fresh (c : Config) : (freshLog c).segs = [emptySegment c.InitialOffset c.withDefaults] := by
  simp [Log.segs, freshLog, Log.deref]

theorem Inv_fresh (c : Config) (h : c.valid) : Inv (freshLog c) := by
  have hv := withDefaults_valid c h
  constructor
  · exact hv
  · simp [freshLog]
  · simp [freshLog]
  · exact ⟨0, by simp [freshLog], by simp [freshLog, List.range']⟩
  · intro s hs
    simp only [freshLog, List.mem_singleton] at hs
    subst hs
    exact ⟨[], SegOK_empty _ _ h.2.2⟩
  · simp [freshLog]
  · intro s hs
    simp only [freshLog, List.getLast?_singleton, Option.some.injEq] at hs
    subst hs
    left; rfl
  · rw [segs_fresh]; simp [freshLog, segFiles, emptySegment]
  · intro f hf
    simp only [freshLog, List.mem_cons, List.mem_singleton, List.not_mem_nil, or_false] at hf
    rcases hf with rfl | rfl <;> rfl

/-! ## The heap of a log -/

theorem map_getD_range' (h : List segment) (j : Nat) :
    (List.range' j (h.length - j)).map (fun p => h.getD p default) = h.drop j := by
  apply List.ext_getElem
  · simp
  · intro i h1 h2
    simp only [List.length_map, List.length_range'] at h1
    simp only [List.getElem_map, List.getElem_range', List.getElem_drop, Nat.one_mul]
    rw [List.getD_eq_getElem?_getD, List.getElem?_eq_getElem (by omega)]
    rfl

theorem segs_eq_drop (l : Log) (j : Nat)
    (hp : l.segments = List.range' j (l.heap.length - j)) : l.segs = l.heap.drop j := by
  unfold Log.segs
  rw [hp]
  exact map_getD_range' l.heap j

theorem SegOK.le (h : SegOK c s ps) : s.baseOffset ≤ s.nextOffset := by
  rw [h.hNext]; omega

theorem pairwise_of_chain (L : List segment) (hc : List.Chain' Follows L)
    (hb : ∀ s ∈ L, s.baseOffset ≤ s.nextOffset) : L.Pairwise Before := by
  induction L with
  | nil => exact List.Pairwise.nil
  | cons a L ih =>
    rw [List.chain'_cons'] at hc
    have ihL := ih hc.2 (fun s hs => hb s (List.mem_cons_of_mem _ hs))
    refine List.Pairwise.cons ?_ ihL
    intro b hbL
    cases L with
    | nil => simp at hbL
    | cons b0 L1 =>
      have hf : Follows a b0 := hc.1 b0 (by simp)
      have hb0 := hb b0 (by simp)
      rcases List.mem_cons.1 hbL with rfl | hmem
      · exact ⟨hf.1, by rw [hf.2], hb0⟩
      · have hbb : Before b0 b := (List.pairwise_cons.1 ihL).1 b hmem
        exact ⟨hf.1, by have := hf.2; have := hbb.2.1; omega, hbb.2.2⟩

theorem Inv.pairwise (hI : Inv l) : l.heap.Pairwise Before :=
  pairwise_of_chain l.heap hI.hChain (fun s hs => by
    obtain ⟨ps, h⟩ := hI.hSegs s hs
    exact h.le)

theorem Inv.lt_U64 (hI : Inv l) (s : segment) (hs : s ∈ l.heap) :
    s.baseOffset ≤ s.nextOffset ∧ s.nextOffset < U64 := by
  obtain ⟨ps, h⟩ := hI.hSegs s hs
  exact ⟨h.le, h.hNextLt⟩

theorem Inv.segs_sub (hI : Inv l) : ∀ s ∈ l.segs, s ∈ l.heap := by
  obtain ⟨j, _, hp⟩ := hI.hPtrs
  rw [segs_eq_drop l j hp]
  intro s hs
  exact List.mem_of_mem_drop hs

/-! ## `Append` keeps the invariant -/

theorem deref_last (l : Log) (init : List segment) (s : segment) (hheap : l.heap = init ++ [s]) :
    l.deref (l.heap.length - 1) = s := by
  simp [Log.deref, hheap, List.getD_eq_getElem?_getD]

theorem set_last (init : List segment) (s s1 : segment) :
    (init ++ [s]).set ((init ++ [s]).length - 1) s1 = init ++ [s1] := by
  simp [List.set_append]

theorem Log_Append_unfold (l : Log) (init : List segment) (s : segment) (r : Record)
    (hheap : l.heap = init ++ [s]) (hact : l.activeSegment = some (l.heap.length - 1)) :
    l.Append r =
      match s.Append r with
      | (s1, .error e) => ({ l with heap := init ++ [s1] }, .error e)
      | (s1, .ok off) =>
        if s1.IsMaxed then
          match ({ l with heap := init ++ [s1] } : Log).newSegment ((off + 1) % U64) with
          | .error e => ({ l with heap := init ++ [s1] }, .error e)
          | .ok l2 => (l2, .ok off)
        else ({ l with heap := init ++ [s1] }, .ok off) := by
  unfold Log.Append
  rw [hact]
  simp only [deref_last l init s hheap]
  have hset : ∀ s1, l.heap.set (l.heap.length - 1) s1 = init ++ [s1] := by
    intro s1; rw [hheap]; exact set_last init s s1
  simp only [hset]

theorem segFiles_congr (L1 L2 : List segment)
    (h : L1.map segment.baseOffset = L2.map segment.baseOffset) :
    L1.flatMap segFiles = L2.flatMap segFiles := by
  have e : ∀ L : List segment, L.flatMap segFiles =
      (L.map segment.baseOffset).flatMap (fun b => [storeName b, indexName b]) := by
    intro L
    induction L with
    | nil => rfl
    | cons a L ih => simp [List.flatMap_cons, segFiles, ih]
  rw [e L1, e L2, h]

theorem mem_segFiles_flatMap (L : List segment) (n : FileName)
    (h : n ∈ L.flatMap segFiles) :
    ∃ s ∈ L, n = storeName s.baseOffset ∨ n = indexName s.baseOffset := by
  rw [List.mem_flatMap] at h
  obtain ⟨s, hs, hn⟩ := h
  refine ⟨s, hs, ?_⟩
  simpa [segFiles] using hn

theorem Inv.fresh_names (hI : Inv l) (b : Nat) (hb : b < U64)
    (hlt : ∀ s ∈ l.heap, s.baseOffset < b) :
    storeName b ∉ l.Dir.map Prod.fst ∧ indexName b ∉ l.Dir.map Prod.fst := by
  rw [hI.hDir]
  constructor
  · intro h
    obtain ⟨s, hs, hn⟩ := mem_segFiles_flatMap _ _ h
    have hsh := hI.segs_sub s hs
    have hsb : s.baseOffset < U64 := lt_of_le_of_lt (hI.lt_U64 s hsh).1 (hI.lt_U64 s hsh).2
    rcases hn with hn | hn
    · have := storeName_inj b s.baseOffset hb hsb hn
      have := hlt s hsh
      omega
    · exact storeName_ne_indexName _ _ hn
  · intro h
    obtain ⟨s, hs, hn⟩ := mem_segFiles_flatMap _ _ h
    have hsh := hI.segs_sub s hs
    have hsb : s.baseOffset < U64 := lt_of_le_of_lt (hI.lt_U64 s hsh).1 (hI.lt_U64 s hsh).2
    rcases hn with hn | hn
    · exact storeName_ne_indexName _ _ hn.symm
    · have := indexName_inj b s.baseOffset hb hsb hn
      have := hlt s hsh
      omega

theorem Inv.heap_bases_lt (hI : Inv l) (init : List segment) (s : segment)
    (hheap : l.heap = init ++ [s]) : ∀ x ∈ l.heap, x.baseOffset < s.nextOffset + 1 := by
  intro x hx
  have hpw := hI.pairwise
  rw [hheap] at hpw hx
  rcases List.mem_append.1 hx with hx | hx
  · have hb : Before x s := (List.pairwise_append.1 hpw).2.2 x hx s (by simp)
    have := hb.1; have := hb.2.1; have := hb.2.2
    omega
  · rw [List.mem_singleton.1 hx]
    have := (hI.lt_U64 s (by rw [hheap]; simp)).1
    omega
theorem Inv.store_size_lt (hI : Inv l) (init : List segment) (s : segment)
    (hheap : l.heap = init ++ [s]) : s.store.size < U64 := by
  obtain ⟨ps, hs⟩ := hI.hSegs s (by rw [hheap]; simp)
  rcases hI.hLast s (by rw [hheap]; simp) with h | h
  · have h0 : ps.length = 0 := by have := hs.hNext; omega
    rw [hs.hSize, List.length_eq_zero.1 h0, frames_nil]
    decide
  · simp only [segment.IsMaxed, Bool.or_eq_false_iff, decide_eq_false_iff_not, not_le] at h
    have := hI.hValid.1
    rw [hs.hConfig] at h
    omega

theorem drop_flatMap_congr (j : Nat) (L1 L2 : List segment)
    (h : L1.map segment.baseOffset = L2.map segment.baseOffset) :
    (L1.drop j).flatMap segFiles = (L2.drop j).flatMap segFiles := by
  apply segFiles_congr
  rw [List.map_drop, List.map_drop, h]

theorem chain_set_last (init : List segment) (s s1 : segment)
    (hc : List.Chain' Follows (init ++ [s])) (hb : s1.baseOffset = s.baseOffset) :
    List.Chain' Follows (init ++ [s1]) := by
  rw [List.chain'_append] at hc ⊢
  refine ⟨hc.1, List.chain'_singleton _, ?_⟩
  intro x hx y hy
  simp only [List.head?_cons, Option.mem_def, Option.some.injEq] at hy
  subst hy
  have := hc.2.2 x hx s (by simp)
  exact ⟨this.1, by rw [hb]; exact this.2⟩

theorem Inv.append (hI : Inv l) (r : Record) (hr : r.Value.length < U64)
    (init : List segment) (s : segment) (hheap : l.heap = init ++ [s])
    (hnext : s.nextOffset + 1 < U64) (hroom : s.index.size + entWidth ≤ s.index.cap) :
    (l.Append r).2 = .ok s.nextOffset ∧ Inv (l.Append r).1 ∧
    ((s.Append r).1.IsMaxed = false →
      (l.Append r).1 = { l with heap := init ++ [(s.Append r).1] }) ∧
    ((s.Append r).1.IsMaxed = true →
      (l.Append r).1 =
        { Dir := l.Dir ++ [(storeName (s.nextOffset + 1), []), (indexName (s.nextOffset + 1), [])],
          Config := l.Config,
          heap := init ++ [(s.Append r).1] ++ [emptySegment (s.nextOffset + 1) l.Config],
          activeSegment := some (init.length + 1),
          segments := l.segments ++ [init.length + 1] }) := by
  obtain ⟨ps, hs⟩ := hI.hSegs s (by rw [hheap]; simp)
  have hpos := hI.store_size_lt init s hheap
  obtain ⟨hok, hbase, hres⟩ := segment_Append_ok l.Config s ps hs r hr hpos hnext hroom
  have hun := Log_Append_unfold l init s r hheap hI.hActive
  generalize hs1 : (s.Append r).1 = s1 at hok hbase hres hun ⊢
  have hsa : s.Append r = (s1, .ok s.nextOffset) := by rw [← hs1, ← hres]
  rw [hsa] at hun
  simp only at hun
  obtain ⟨j, hj, hp⟩ := hI.hPtrs
  have hlen : l.heap.length = init.length + 1 := by rw [hheap]; simp
  have hsegs1 : ∀ x ∈ init ++ [s1], ∃ qs, SegOK l.Config x qs := by
    intro x hx
    rcases List.mem_append.1 hx with hx | hx
    · exact hI.hSegs x (by rw [hheap]; exact List.mem_append_left _ hx)
    · rw [List.mem_singleton.1 hx]; exact ⟨_, hok⟩
  have hchain1 : List.Chain' Follows (init ++ [s1]) :=
    chain_set_last init s s1 (by rw [← hheap]; exact hI.hChain) hbase
  have hmap : (init ++ [s1]).map segment.baseOffset = l.heap.map segment.baseOffset := by
    rw [hheap]; simp [hbase]
  have hnext1 : s1.nextOffset = s.nextOffset + 1 := by
    rw [hok.hNext, hbase, hs.hNext, List.length_append, List.length_singleton, Nat.add_assoc]
  by_cases hm : s1.IsMaxed = true
  · have hfresh := hI.fresh_names (s.nextOffset + 1) hnext (hI.heap_bases_lt init s hheap)
    have hns : ({ l with heap := init ++ [s1] } : Log).newSegment ((s.nextOffset + 1) % U64) =
        .ok { Dir := l.Dir ++ [(storeName (s.nextOffset + 1), []), (indexName (s.nextOffset + 1), [])],
              Config := l.Config,
              heap := init ++ [s1] ++ [emptySegment (s.nextOffset + 1) l.Config],
              activeSegment := some (init.length + 1),
              segments := l.segments ++ [init.length + 1] } := by
      simp [Log.newSegment, Nat.mod_eq_of_lt hnext, newSegment_absent _ _ _ hfresh.1 hfresh.2]
    rw [if_pos hm, hns] at hun
    simp only at hun
    rw [hun]
    refine ⟨rfl, ?_, fun h => absurd hm (by rw [h]; simp), fun _ => rfl⟩
    constructor
    · exact hI.hValid
    · simp
    · simp
    · refine ⟨j, by simp; omega, ?_⟩
      show l.segments ++ [init.length + 1] = _
      rw [hp, hlen]
      simp only [List.length_append, List.length_singleton]
      rw [show init.length + 1 + 1 - j = (init.length + 1 - j) + 1 by omega, List.range'_concat]
      simp only [Nat.one_mul]
      rw [show j + (init.length + 1 - j) = init.length + 1 by omega]
    · intro x hx
      rcases List.mem_append.1 hx with hx | hx
      · exact hsegs1 x hx
      · rw [List.mem_singleton.1 hx]; exact ⟨[], SegOK_empty _ _ hnext⟩
    · show List.Chain' Follows (init ++ [s1] ++ [emptySegment (s.nextOffset + 1) l.Config])
      rw [List.chain'_append]
      refine ⟨hchain1, List.chain'_singleton _, ?_⟩
      intro x hx y hy
      simp only [List.getLast?_concat, Option.mem_def, Option.some.injEq] at hx
      simp only [List.head?_cons, Option.mem_def, Option.some.injEq] at hy
      subst hx; subst hy
      exact ⟨by rw [hnext1]; have := hs.le; rw [hbase]; omega, by rw [hnext1]; rfl⟩
    · intro x hx
      simp only [List.getLast?_concat, Option.some.injEq] at hx
      subst hx
      left; rfl
    · show (l.Dir ++ _).map Prod.fst = (Log.segs _).flatMap segFiles
      rw [segs_eq_drop _ j (by
        show l.segments ++ [init.length + 1] = _
        rw [hp, hlen]
        simp only [List.length_append, List.length_singleton]
        rw [show init.length + 1 + 1 - j = (init.length + 1 - j) + 1 by omega, List.range'_concat]
        simp only [Nat.one_mul]
        rw [show j + (init.length + 1 - j) = init.length + 1 by omega])]
      show _ = ((init ++ [s1] ++ [emptySegment (s.nextOffset + 1) l.Config]).drop j).flatMap segFiles
      rw [List.drop_append_of_le_length (by simp; omega), List.flatMap_append, List.map_append,
        hI.hDir, segs_eq_drop l j hp, drop_flatMap_congr j _ _ hmap]
      simp [segFiles, emptySegment]
    · intro f hf
      rcases List.mem_append.1 hf with hf | hf
      · exact hI.hEmpty f hf
      · simp only [List.mem_cons, List.mem_singleton, List.not_mem_nil, or_false] at hf
        rcases hf with rfl | rfl <;> rfl
  · have hm2 : s1.IsMaxed = false := by simpa using hm
    rw [if_neg hm] at hun
    rw [hun]
    refine ⟨rfl, ?_, fun _ => rfl, fun h => absurd h hm⟩
    constructor
    · exact hI.hValid
    · simp
    · show l.activeSegment = some ((init ++ [s1]).length - 1)
      rw [hI.hActive, hlen]; simp
    · refine ⟨j, by simp; omega, ?_⟩
      show l.segments = List.range' j ((init ++ [s1]).length - j)
      rw [hp, hlen]; simp
    · exact hsegs1
    · exact hchain1
    · intro x hx
      simp only [List.getLast?_concat, Option.some.injEq] at hx
      subst hx
      right; exact hm2
    · show l.Dir.map Prod.fst = (Log.segs _).flatMap segFiles
      rw [segs_eq_drop _ j (by
        show l.segments = List.range' j ((init ++ [s1]).length - j)
        rw [hp, hlen]; simp)]
      show _ = ((init ++ [s1]).drop j).flatMap segFiles
      rw [hI.hDir, segs_eq_drop l j hp, drop_flatMap_congr j _ _ hmap]
    · exact hI.hEmpty
theorem Log_Append_full (l : Log) (init : List segment) (s : segment) (r : Record)
    (hheap : l.heap = init ++ [s]) (hact : l.activeSegment = some (l.heap.length - 1))
    (hfull : s.index.cap < s.index.size + entWidth) :
    (l.Append r).2 = .error Error.EOF := by
  have hun := Log_Append_unfold l init s r hheap hact
  have h2 := segment_Append_full s r hfull
  generalize hs1 : s.Append r = res at hun h2
  obtain ⟨s1, e⟩ := res
  simp only at h2
  subst h2
  simp only at hun
  rw [hun]

theorem heap_split (L : List segment) (h : L ≠ []) : ∃ init s, L = init ++ [s] :=
  ⟨L.dropLast, L.getLast h, (List.dropLast_append_getLast h).symm⟩

theorem Inv.append_ok (hI : Inv l) (r : Record) (hr : r.Value.length < U64)
    (l1 : Log) (o : Nat) (happ : l.Append r = (l1, .ok o)) (ho : o + 1 < U64) :
    Inv l1 ∧ ∃ init s, l.heap = init ++ [s] ∧ o = s.nextOffset ∧
      s.index.size + entWidth ≤ s.index.cap := by
  obtain ⟨init, s, hheap⟩ := heap_split l.heap hI.hHeap
  by_cases hroom : s.index.size + entWidth ≤ s.index.cap
  · have h2 : (l.Append r).2 = .ok o := by rw [happ]
    have h3 : s.nextOffset + 1 < U64 → o = s.nextOffset ∧ Inv l1 := by
      intro hn
      obtain ⟨hres, hinv, _, _⟩ := hI.append r hr init s hheap hn hroom
      rw [happ] at hres hinv
      simp only [Except.ok.injEq] at hres
      exact ⟨hres, hinv⟩
    have ho2 : o = s.nextOffset := by
      have hun := Log_Append_unfold l init s r hheap hI.hActive
      rw [segment_Append_eq s r hroom] at hun
      simp only at hun
      rw [happ] at hun
      split at hun
      · split at hun
        · simp at hun
        · simp only [Prod.mk.injEq, Except.ok.injEq] at hun; exact hun.2
      · simp only [Prod.mk.injEq, Except.ok.injEq] at hun; exact hun.2
    exact ⟨(h3 (by rw [← ho2]; exact ho)).2, init, s, hheap, ho2, hroom⟩
  · have := Log_Append_full l init s r hheap hI.hActive (by omega)
    rw [happ] at this
    simp at this

/-! ## `Truncate` keeps the invariant -/

theorem filter_write (d : Directory) (n : FileName) (c : List Byte) (Q : FileName → Bool)
    (hQ : Q n = false) :
    (d.write n c).filter (fun f => Q f.1) = d.filter (fun f => Q f.1) := by
  induction d with
  | nil => simp [Directory.write, hQ]
  | cons f rest ih =>
    obtain ⟨m, c0⟩ := f
    by_cases h : m = n
    · simp [Directory.write, h, List.filter_cons, hQ]
    · simp only [Directory.write, h, if_false, List.filter_cons, ih]

theorem Remove_eq_filter (s : segment) (d : Directory) :
    s.Remove d =
      d.filter (fun f => decide (f.1 ≠ s.index.name) && decide (f.1 ≠ s.store.name)) := by
  unfold segment.Remove segment.Close store.Close index.Close Directory.remove
  rw [List.filter_filter]
  have h1 := filter_write
    (d.write s.index.name
      (s.index.mmap.take s.index.size ++ List.replicate (s.index.size - s.index.mmap.length) 0))
    s.store.name s.store.buf
    (fun x => decide (x ≠ s.store.name) && decide (x ≠ s.index.name)) (by simp)
  have h2 := filter_write d s.index.name
    (s.index.mmap.take s.index.size ++ List.replicate (s.index.size - s.index.mmap.length) 0)
    (fun x => decide (x ≠ s.store.name) && decide (x ≠ s.index.name)) (by simp)
  refine h1.trans (h2.trans ?_)
  apply List.filter_congr
  intro f _
  exact Bool.and_comm _ _

theorem names_Remove (s : segment) (d : Directory) :
    (s.Remove d).map Prod.fst =
      (d.map Prod.fst).filter (fun x => decide (x ≠ s.index.name) && decide (x ≠ s.store.name)) := by
  rw [Remove_eq_filter, List.filter_map]
  rfl

theorem truncate_fold_mem (lowerst : Nat) (L : List segment) (d : Directory) (f : File)
    (h : f ∈ L.foldl (fun d s => if truncates lowerst s then s.Remove d else d) d) : f ∈ d := by
  induction L generalizing d with
  | nil => exact h
  | cons a L ih =>
    rw [List.foldl_cons] at h
    have := ih _ h
    split at this
    · rw [Remove_eq_filter] at this
      exact (List.mem_filter.1 this).1
    · exact this

/-- The directory after `Truncate` has removed the segments of `L` that pass its test. -/
theorem names_truncate (lowerst : Nat) (L : List segment) (d : Directory) (pre : List FileName)
    (hn : ∀ s ∈ L, s.store.name = storeName s.baseOffset ∧ s.index.name = indexName s.baseOffset ∧
      s.baseOffset < U64)
    (hd : L.Pairwise (fun a b => a.baseOffset ≠ b.baseOffset))
    (hpre : ∀ n ∈ pre, ∀ s ∈ L, n ≠ storeName s.baseOffset ∧ n ≠ indexName s.baseOffset)
    (hdir : d.map Prod.fst = pre ++ L.flatMap segFiles) :
    (L.foldl (fun d s => if truncates lowerst s then s.Remove d else d) d).map Prod.fst =
      pre ++ (L.filter (fun s => !truncates lowerst s)).flatMap segFiles := by
  induction L generalizing d pre with
  | nil => simpa using hdir
  | cons a L ih =>
    have ha := hn a (List.mem_cons_self _ _)
    have hnL : ∀ s ∈ L, s.store.name = storeName s.baseOffset ∧
        s.index.name = indexName s.baseOffset ∧ s.baseOffset < U64 :=
      fun s hs => hn s (List.mem_cons_of_mem _ hs)
    have hdL := (List.pairwise_cons.1 hd).2
    have hda := (List.pairwise_cons.1 hd).1
    have hrest : ∀ n ∈ L.flatMap segFiles,
        n ≠ storeName a.baseOffset ∧ n ≠ indexName a.baseOffset := by
      intro n hn'
      obtain ⟨s, hs, hx⟩ := mem_segFiles_flatMap _ _ hn'
      have hne := hda s hs
      have hsb := (hnL s hs).2.2
      rcases hx with hx | hx
      · rw [hx]
        exact ⟨fun e => hne (storeName_inj _ _ hsb ha.2.2 e).symm,
          storeName_ne_indexName _ _⟩
      · rw [hx]
        exact ⟨fun e => storeName_ne_indexName _ _ e.symm,
          fun e => hne (indexName_inj _ _ hsb ha.2.2 e).symm⟩
    rw [List.foldl_cons]
    by_cases hT : truncates lowerst a = true
    · rw [if_pos hT, List.filter_cons_of_neg (by simp [hT])]
      apply ih _ pre hnL hdL (fun n hn' s hs => hpre n hn' s (List.mem_cons_of_mem _ hs))
      rw [names_Remove, hdir, ha.1, ha.2.1, List.flatMap_cons, List.filter_append,
        List.filter_append]
      have h1 : pre.filter (fun x => decide (x ≠ indexName a.baseOffset) &&
          decide (x ≠ storeName a.baseOffset)) = pre := by
        apply List.filter_eq_self.2
        intro n hn'
        have := hpre n hn' a (List.mem_cons_self _ _)
        simp [this.1, this.2]
      have h2 : (segFiles a).filter (fun x => decide (x ≠ indexName a.baseOffset) &&
          decide (x ≠ storeName a.baseOffset)) = [] := by
        simp [segFiles, List.filter_cons]
      have h3 : (L.flatMap segFiles).filter (fun x => decide (x ≠ indexName a.baseOffset) &&
          decide (x ≠ storeName a.baseOffset)) = L.flatMap segFiles := by
        apply List.filter_eq_self.2
        intro n hn'
        have := hrest n hn'
        simp [this.1, this.2]
      rw [h1, h2, h3, List.nil_append]
    · rw [if_neg hT, List.filter_cons_of_pos (by simpa using hT), List.flatMap_cons,
        ← List.append_assoc]
      apply ih _ (pre ++ segFiles a) hnL hdL
      · intro n hn' s hs
        rcases List.mem_append.1 hn' with hn' | hn'
        · exact hpre n hn' s (List.mem_cons_of_mem _ hs)
        · have hne := hda s hs
          have hsb := (hnL s hs).2.2
          simp only [segFiles, List.mem_cons, List.mem_singleton, List.not_mem_nil, or_false] at hn'
          rcases hn' with hx | hx
          · rw [hx]
            exact ⟨fun e => hne (storeName_inj _ _ ha.2.2 hsb e), storeName_ne_indexName _ _⟩
          · rw [hx]
            exact ⟨fun e => storeName_ne_indexName _ _ e.symm,
              fun e => hne (indexName_inj _ _ ha.2.2 hsb e)⟩
      · rw [hdir, List.flatMap_cons, List.append_assoc]
theorem getD_eq_getElem (heap : List segment) (p : Nat) (hp : p < heap.length) :
    heap.getD p default = heap[p] := by
  rw [List.getD_eq_getElem?_getD, List.getElem?_eq_getElem hp]; rfl

theorem truncates_mono (heap : List segment) (lowerst : Nat) (hpw : heap.Pairwise Before)
    (i p : Nat) (hi : i < p) (hp : p < heap.length)
    (hT : truncates lowerst (heap.getD p default) = true) :
    truncates lowerst (heap.getD i default) = true := by
  rw [getD_eq_getElem heap p hp] at hT
  rw [getD_eq_getElem heap i (by omega)]
  have hb : Before heap[i] heap[p] := (List.pairwise_iff_getElem.1 hpw) i p (by omega) hp hi
  simp only [truncates, decide_eq_true_eq] at hT ⊢
  have := hb.2.1; have := hb.2.2
  omega

theorem filter_ptrs (heap : List segment) (lowerst : Nat) (hpw : heap.Pairwise Before)
    (k j : Nat) (hk : j + k = heap.length) :
    ∃ j', j ≤ j' ∧ j' ≤ heap.length ∧
      (List.range' j k).filter (fun p => !truncates lowerst (heap.getD p default)) =
        List.range' j' (heap.length - j') := by
  induction k generalizing j with
  | zero =>
    refine ⟨j, le_refl _, by omega, ?_⟩
    rw [show heap.length - j = 0 by omega]
    rfl
  | succ k ih =>
    rw [List.range'_succ]
    by_cases hT : truncates lowerst (heap.getD j default) = true
    · obtain ⟨j', h1, h2, h3⟩ := ih (j + 1) (by omega)
      refine ⟨j', by omega, h2, ?_⟩
      rw [List.filter_cons_of_neg (by rw [hT]; decide)]
      exact h3
    · refine ⟨j, le_refl _, by omega, ?_⟩
      rw [show heap.length - j = k + 1 by omega, List.range'_succ]
      apply List.filter_eq_self.2
      intro p hp
      rcases List.mem_cons.1 hp with rfl | hp
      · simpa using hT
      · rw [List.mem_range'_1] at hp
        have : ¬ truncates lowerst (heap.getD p default) = true :=
          fun h => hT (truncates_mono heap lowerst hpw j p (by omega) (by omega) h)
        simpa using this

theorem segs_Truncate (l : Log) (lowerst : Nat) :
    (l.Truncate lowerst).segs = l.segs.filter (fun s => !truncates lowerst s) := by
  simp only [Log.segs, Log.Truncate, Log.deref, List.filter_map]
  rfl

theorem Dir_Truncate (l : Log) (lowerst : Nat) :
    (l.Truncate lowerst).Dir =
      l.segs.foldl (fun d s => if truncates lowerst s then s.Remove d else d) l.Dir := by
  simp only [Log.segs, Log.Truncate, List.foldl_map]

theorem Inv.truncate (hI : Inv l) (lowerst : Nat) : Inv (l.Truncate lowerst) := by
  obtain ⟨j, hj, hp⟩ := hI.hPtrs
  have hpw := hI.pairwise
  constructor
  · exact hI.hValid
  · exact hI.hHeap
  · exact hI.hActive
  · obtain ⟨j', _, h2, h3⟩ := filter_ptrs l.heap lowerst hpw (l.heap.length - j) j (by omega)
    refine ⟨j', h2, ?_⟩
    show l.segments.filter _ = _
    rw [hp]
    exact h3
  · exact hI.hSegs
  · exact hI.hChain
  · exact hI.hLast
  · rw [segs_Truncate, Dir_Truncate]
    have hsub := hI.segs_sub
    have := names_truncate lowerst l.segs l.Dir [] (fun s hs => by
        obtain ⟨ps, h⟩ := hI.hSegs s (hsub s hs)
        exact ⟨h.hStoreName, h.hIndexName, lt_of_le_of_lt h.le h.hNextLt⟩)
      (by
        rw [segs_eq_drop l j hp]
        refine (List.Pairwise.sublist (List.drop_sublist j l.heap) hpw).imp ?_
        intro a b hab
        have := hab.1; have := hab.2.1
        omega)
      (by simp) (by simpa using hI.hDir)
    simpa using this
  · intro f hf
    rw [Dir_Truncate] at hf
    exact hI.hEmpty f (truncate_fold_mem lowerst _ _ f hf)

theorem Reach.inv (h : Reach c l) : Inv l := by
  induction h with
  | fresh l hv hn =>
    rw [NewLog_empty] at hn
    simp only [Except.ok.injEq] at hn
    subst hn
    exact Inv_fresh c hv
  | append l l1 r o _ hr happ ho ih => exact (ih.append_ok r hr l1 o happ ho).1
  | truncate l lowerst _ _ ih => exact ih.truncate lowerst

theorem Reach.config (h : Reach c l) : l.Config = c.withDefaults := by
  induction h with
  | fresh l hv hn =>
    rw [NewLog_empty] at hn
    simp only [Except.ok.injEq] at hn
    subst hn
    rfl
  | append l l1 r o hl hr happ ho ih =>
    obtain ⟨_, init, s, hheap, ho2, hroom⟩ := hl.inv.append_ok r hr l1 o happ ho
    obtain ⟨_, _, h3, h4⟩ := hl.inv.append r hr init s hheap (by rw [← ho2]; exact ho) hroom
    rw [happ] at h3 h4
    by_cases hm : (s.Append r).1.IsMaxed = true
    · have e : l1 = _ := h4 hm
      rw [e]; exact ih
    · have e : l1 = _ := h3 (by simpa using hm)
      rw [e]; exact ih
  | truncate l lowerst _ _ ih => exact ih

/-! ## Reading -/

theorem Log_Read_segs (l : Log) (off : Nat) :
    l.Read off =
      match l.segs.find? (fun s => decide (covers off s)) with
      | some s => s.Read off
      | none => .error (Error.offsetOutOfRange off) := by
  unfold Log.Read Log.segs
  rw [List.find?_map]
  have e : ((fun s => decide (covers off s)) ∘ l.deref) =
      (fun p => decide (off ≥ (l.deref p).baseOffset ∧ off < (l.deref p).nextOffset)) := by
    funext p; rfl
  rw [e]
  cases List.find? (fun p => decide (off ≥ (l.deref p).baseOffset ∧
    off < (l.deref p).nextOffset)) l.segments <;> rfl

theorem index_Read_error (i : index) (n : Int) (e : Error) (h : i.Read n = .error e) :
    e = Error.EOF ∨ e = Error.panic := by
  unfold index.Read at h
  simp only at h
  split_ifs at h <;> simp_all

theorem store_Read_error (s : store) (pos : Nat) (e : Error) (h : s.Read pos = .error e) :
    e = Error.EOF := by
  unfold store.Read store.ReadAt at h
  simp only at h
  split at h
  · rename_i heq
    simp only [Prod.mk.injEq] at heq
    obtain ⟨_, h2⟩ := heq
    split_ifs at h2
    all_goals simp_all
  · split at h
    · rename_i heq
      simp only [Prod.mk.injEq] at heq
      obtain ⟨_, h2⟩ := heq
      split_ifs at h2
      all_goals simp_all
    · simp at h

theorem segment_Read_ne_range (s : segment) (off x : Nat) :
    s.Read off ≠ .error (Error.offsetOutOfRange x) := by
  unfold segment.Read
  cases hi : s.index.Read ((off : Int) - (s.baseOffset : Int)) with
  | error e =>
    rcases index_Read_error _ _ _ hi with rfl | rfl <;> simp
  | ok v =>
    obtain ⟨_, pos⟩ := v
    simp only
    cases hs : s.store.Read pos with
    | error e =>
      have := store_Read_error _ _ _ hs
      subst this
      simp
    | ok p => simp

theorem find_filter_of_imp {α : Type} (p q : α → Bool) (L : List α)
    (h : ∀ x ∈ L, p x = true → q x = true) : (L.filter q).find? p = L.find? p := by
  induction L with
  | nil => rfl
  | cons a L ih =>
    have ihL := ih (fun x hx => h x (List.mem_cons_of_mem _ hx))
    by_cases hq : q a = true
    · rw [List.filter_cons_of_pos hq, List.find?_cons, List.find?_cons, ihL]
    · have hp : p a = false := by
        by_contra hp
        exact hq (h a (List.mem_cons_self _ _) (by simpa using hp))
      rw [List.filter_cons_of_neg hq, List.find?_cons, hp, ihL]

theorem find_filter_none {α : Type} (p q : α → Bool) (L : List α)
    (h : ∀ x ∈ L, p x = true → q x = false) : (L.filter q).find? p = none := by
  rw [List.find?_eq_none]
  intro x hx
  rw [List.mem_filter] at hx
  intro hp
  have := h x hx.1 hp
  rw [this] at hx
  simp at hx

theorem find_filter_some {α : Type} (p q : α → Bool) (L : List α) (a : α)
    (h : L.find? p = some a) (hq : q a = true) : (L.filter q).find? p = some a := by
  induction L with
  | nil => simp at h
  | cons b L ih =>
    rw [List.find?_cons] at h
    by_cases hp : p b = true
    · rw [hp] at h
      simp only [Option.some.injEq] at h
      subst h
      rw [List.filter_cons_of_pos hq, List.find?_cons, hp]
    · have hp2 : p b = false := by simpa using hp
      rw [hp2] at h
      by_cases hqb : q b = true
      · rw [List.filter_cons_of_pos hqb, List.find?_cons, hp2]
        exact ih h
      · rw [List.filter_cons_of_neg hqb]
        exact ih h

/-! ## Sequences of appends -/

theorem lookup_some_mem (d : Directory) (n : FileName) (c : List Byte)
    (h : d.lookup n = some c) : (n, c) ∈ d := by
  induction d with
  | nil => simp [Directory.lookup] at h
  | cons f rest ih =>
    obtain ⟨m, c0⟩ := f
    by_cases hm : m = n
    · simp only [Directory.lookup, hm, if_true, Option.some.injEq] at h
      subst h; subst hm
      exact List.mem_cons_self _ _
    · simp only [Directory.lookup, hm, if_false] at h
      exact List.mem_cons_of_mem _ (ih h)

theorem openCreate_empty (d : Directory) (n : FileName) (hd : ∀ f ∈ d, f.2 = []) :
    (d.openCreate n).1 = [] ∧ ∀ f ∈ (d.openCreate n).2, f.2 = [] := by
  unfold Directory.openCreate
  cases h : d.lookup n with
  | none =>
    refine ⟨rfl, ?_⟩
    intro f hf
    rcases List.mem_append.1 hf with hf | hf
    · exact hd f hf
    · rw [List.mem_singleton.1 hf]
  | some c => exact ⟨hd _ (lookup_some_mem d n c h), hd⟩

theorem newSegment_of_empty (d : Directory) (b : Nat) (c : Config) (hd : ∀ f ∈ d, f.2 = []) :
    ∃ d1, newSegment d b c = .ok (emptySegment b c, d1) := by
  obtain ⟨h1, h2⟩ := openCreate_empty d (storeName b) hd
  obtain ⟨h3, _⟩ := openCreate_empty _ (indexName b) h2
  refine ⟨((d.openCreate (storeName b)).2.openCreate (indexName b)).2, ?_⟩
  unfold newSegment
  generalize d.openCreate (storeName b) = r1 at h1 h3
  obtain ⟨c1, d1⟩ := r1
  simp only at h1 h3 ⊢
  generalize d1.openCreate (indexName b) = r2 at h3
  obtain ⟨c2, d2⟩ := r2
  simp only at h3 ⊢
  subst h1; subst h3
  simp [newStore, newIndex, index.Read, emptySegment]

theorem Stuck.append_fails (h : Stuck l) (r : Record) :
    (l.Append r).2 = .error Error.EOF ∧ Stuck (l.Append r).1 := by
  obtain ⟨init, s, hheap, hact, hfull⟩ := h
  have hun := Log_Append_unfold l init s r hheap hact
  have hs : s.Append r = ({ s with store := (s.store.Append r.Value).1 }, .error Error.EOF) := by
    simp [segment.Append, store.Append, index.Write, hfull]
  rw [hs] at hun
  simp only at hun
  rw [hun]
  refine ⟨rfl, init, _, rfl, ?_, hfull⟩
  show l.activeSegment = _
  rw [hact, hheap]
  simp

theorem Stuck.okOffsets_nil (rs : List Record) (l : Log) (h : Stuck l) :
    okOffsets (appendAll l rs).2 = [] := by
  induction rs generalizing l with
  | nil => rfl
  | cons r rs ih =>
    obtain ⟨h1, h2⟩ := h.append_fails r
    simp only [appendAll, h1, okOffsets]
    exact ih _ h2

theorem Inv.last_next_append (hI : Inv l) (r : Record) (hr : r.Value.length < U64)
    (init : List segment) (s : segment) (hheap : l.heap = init ++ [s])
    (hnext : s.nextOffset + 1 < U64) (hroom : s.index.size + entWidth ≤ s.index.cap) :
    ∃ init1 s1, (l.Append r).1.heap = init1 ++ [s1] ∧ s1.nextOffset = s.nextOffset + 1 := by
  obtain ⟨ps, hs⟩ := hI.hSegs s (by rw [hheap]; simp)
  have hpos := hI.store_size_lt init s hheap
  obtain ⟨hok, hbase, _⟩ := segment_Append_ok l.Config s ps hs r hr hpos hnext hroom
  obtain ⟨_, _, h3, h4⟩ := hI.append r hr init s hheap hnext hroom
  by_cases hm : (s.Append r).1.IsMaxed = true
  · rw [h4 hm]
    exact ⟨init ++ [(s.Append r).1], emptySegment (s.nextOffset + 1) l.Config, rfl, rfl⟩
  · rw [h3 (by simpa using hm)]
    refine ⟨init, (s.Append r).1, rfl, ?_⟩
    rw [hok.hNext, hbase, hs.hNext, List.length_append, List.length_singleton, Nat.add_assoc]

theorem Inv.append_result (hI : Inv l) (r : Record) (init : List segment) (s : segment)
    (hheap : l.heap = init ++ [s]) (hroom : s.index.size + entWidth ≤ s.index.cap) :
    (l.Append r).2 = .ok s.nextOffset := by
  have hun := Log_Append_unfold l init s r hheap hI.hActive
  rw [segment_Append_eq s r hroom] at hun
  simp only at hun
  obtain ⟨d1, hd1⟩ := newSegment_of_empty l.Dir ((s.nextOffset + 1) % U64) l.Config hI.hEmpty
  rw [hun]
  split
  · simp only [Log.newSegment, hd1]
  · rfl

theorem okOffsets_from (rs : List Record) (l : Log) (b : Nat) (hI : Inv l)
    (hrs : ∀ r ∈ rs, r.Value.length < U64)
    (hb : ∀ init s, l.heap = init ++ [s] → s.nextOffset = b)
    (k : Nat) (hk : k < (okOffsets (appendAll l rs).2).length) (hlt : b + k < U64) :
    (okOffsets (appendAll l rs).2)[k] = b + k := by
  induction rs generalizing l b k with
  | nil => simp [appendAll, okOffsets] at hk
  | cons r rs ih =>
    obtain ⟨init, s, hheap⟩ := heap_split l.heap hI.hHeap
    have hsb := hb init s hheap
    by_cases hroom : s.index.size + entWidth ≤ s.index.cap
    · have hres := hI.append_result r init s hheap hroom
      have e : okOffsets (appendAll l (r :: rs)).2 =
          s.nextOffset :: okOffsets (appendAll (l.Append r).1 rs).2 := by
        simp only [appendAll, hres, okOffsets]
      simp only [e] at hk ⊢
      cases k with
      | zero => simp [hsb]
      | succ k =>
        have hnext : s.nextOffset + 1 < U64 := by omega
        have hr := hrs r (List.mem_cons_self _ _)
        obtain ⟨_, hinv, _, _⟩ := hI.append r hr init s hheap hnext hroom
        obtain ⟨init1, s1, hh1, hn1⟩ := hI.last_next_append r hr init s hheap hnext hroom
        simp only [List.length_cons, Nat.add_lt_add_iff_right] at hk
        rw [List.getElem_cons_succ]
        rw [ih (l.Append r).1 (b + 1) hinv (fun x hx => hrs x (List.mem_cons_of_mem _ hx)) ?_ k hk
          (by omega)]
        · omega
        · intro i2 s2 h2
          rw [hh1] at h2
          have := List.append_inj_right' h2 rfl
          simp only [List.cons.injEq, and_true] at this
          rw [← this, hn1, hsb]
    · have hst : Stuck l := ⟨init, s, hheap, hI.hActive, by omega⟩
      rw [hst.okOffsets_nil] at hk
      simp at hk

theorem getD_append_mid (init : List segment) (s : segment) (rest : List segment) :
    (init ++ [s] ++ rest).getD init.length default = s := by
  rw [List.getD_eq_getElem?_getD, List.append_assoc,
    List.getElem?_append_right (Nat.le_refl _), Nat.sub_self]
  simp

theorem Append_deref_last (l : Log) (init : List segment) (s : segment) (r : Record)
    (hheap : l.heap = init ++ [s]) (hact : l.activeSegment = some (l.heap.length - 1)) :
    (l.Append r).1.deref init.length = (s.Append r).1 := by
  have hun := Log_Append_unfold l init s r hheap hact
  rw [hun]
  generalize s.Append r = res
  obtain ⟨s1, e⟩ := res
  have h0 := getD_append_mid init s1 []
  rw [List.append_nil] at h0
  cases e with
  | error e => exact h0
  | ok off =>
    simp only
    split
    · unfold Log.newSegment
      simp only
      cases Proglog.newSegment l.Dir ((off + 1) % U64) l.Config with
      | error e => exact h0
      | ok v =>
        obtain ⟨s2, d2⟩ := v
        exact getD_append_mid init s1 [s2]
    · exact h0

/-! ## Records stay where they were stored -/

theorem Reach.step (h : Reach c l) (hs : Step l l1) : Reach c l1 := by
  cases hs with
  | append _ r o hr happ ho => exact Reach.append l l1 r o h hr happ ho
  | truncate lowerst hlt => exact Reach.truncate l lowerst h hlt

theorem Reach.steps (h : Reach c l) (hs : Steps l l1) : Reach c l1 := by
  induction hs with
  | refl => exact h
  | tail l1 l2 _ hstep ih => exact ih.step hstep

theorem getD_append_left (init rest : List segment) (p : Nat) (hp : p < init.length) :
    (init ++ rest).getD p default = init.getD p default := by
  rw [List.getD_eq_getElem?_getD, List.getD_eq_getElem?_getD, List.getElem?_append_left hp]

theorem SegOK.covers_iff (h : SegOK c s ps) (o : Nat) :
    covers o s ↔ ∃ k, k < ps.length ∧ o = s.baseOffset + k := by
  unfold covers
  rw [h.hNext]
  constructor
  · intro hc
    exact ⟨o - s.baseOffset, by omega, by omega⟩
  · rintro ⟨k, hk, rfl⟩
    omega

theorem Keeps.refl (l : Log) : Keeps l l :=
  fun _ _ hp hc => ⟨hp, hc, rfl⟩

theorem Keeps.trans (h1 : Keeps l1 l2) (h2 : Keeps l2 l3) : Keeps l1 l3 := by
  intro p o hp hc
  obtain ⟨hp2, hc2, hr2⟩ := h1 p o hp hc
  obtain ⟨hp3, hc3, hr3⟩ := h2 p o hp2 hc2
  exact ⟨hp3, hc3, by rw [hr3, hr2]⟩

theorem Step.keeps (hI : Inv l) (hs : Step l l1) : Keeps l l1 := by
  cases hs with
  | truncate lowerst hlt => exact fun _ _ hp hc => ⟨hp, hc, rfl⟩
  | append _ r o hr happ ho =>
    obtain ⟨_, init, s, hheap, ho2, hroom⟩ := hI.append_ok r hr l1 o happ ho
    subst ho2
    obtain ⟨ps, hs⟩ := hI.hSegs s (by rw [hheap]; simp)
    have hpos := hI.store_size_lt init s hheap
    obtain ⟨hok, hbase, _⟩ := segment_Append_ok l.Config s ps hs r hr hpos ho hroom
    obtain ⟨_, _, h3, h4⟩ := hI.append r hr init s hheap ho hroom
    rw [happ] at h3 h4
    simp only at h3 h4
    have hshape : ∃ rest, l1.heap = init ++ [(s.Append r).1] ++ rest := by
      by_cases hm : (s.Append r).1.IsMaxed = true
      · exact ⟨[emptySegment (s.nextOffset + 1) l.Config], by rw [h4 hm]⟩
      · exact ⟨[], by rw [h3 (by simpa using hm)]; simp⟩
    obtain ⟨rest, hh1⟩ := hshape
    intro p o hp hc
    rw [hheap, List.length_append, List.length_singleton] at hp
    have hp1 : p < l1.heap.length := by rw [hh1]; simp; omega
    refine ⟨hp1, ?_⟩
    by_cases hlt : p < init.length
    · have e : l1.deref p = l.deref p := by
        unfold Log.deref
        rw [hh1, hheap, List.append_assoc, getD_append_left _ _ p hlt,
          getD_append_left _ _ p hlt]
      rw [e]
      exact ⟨hc, rfl⟩
    · have hpe : p = init.length := by omega
      subst hpe
      have e0 : l.deref init.length = s := by
        unfold Log.deref
        rw [hheap]
        have := getD_append_mid init s []
        rwa [List.append_nil] at this
      have e1 : l1.deref init.length = (s.Append r).1 := by
        unfold Log.deref
        rw [hh1]
        exact getD_append_mid init _ rest
      rw [e0] at hc
      rw [e0, e1]
      obtain ⟨k, hk, rfl⟩ := (hs.covers_iff o).1 hc
      have hk1 : k < (ps ++ [r.Value]).length := by simp; omega
      refine ⟨(hok.covers_iff _).2 ⟨k, hk1, by rw [hbase]⟩, ?_⟩
      have r1 := segment_Read_ok l.Config s ps hs k hk
      have r2 := segment_Read_ok l.Config _ _ hok k hk1
      rw [hbase] at r2
      rw [r1, r2, List.getElem_append_left hk]

theorem Steps.keeps_all (hr : Reach c l) (hs : Steps l l1) : Keeps l l1 := by
  induction hs with
  | refl => exact Keeps.refl l
  | tail l1 l2 hsteps hstep ih => exact ih.trans (hstep.keeps (hr.steps hsteps).inv)

theorem Inv.unique_cover (hI : Inv l) (o p q : Nat) (hp : p < l.heap.length)
    (hq : q < l.heap.length) (hcp : covers o (l.deref p)) (hcq : covers o (l.deref q)) :
    p = q := by
  have hpw := List.pairwise_iff_getElem.1 hI.pairwise
  unfold Log.deref at hcp hcq
  rw [getD_eq_getElem _ _ hp] at hcp
  rw [getD_eq_getElem _ _ hq] at hcq
  rcases Nat.lt_trichotomy p q with h | h | h
  · have hb := hpw p q hp hq h
    have := hb.2.1; have := hcp.2; have := hcq.1
    omega
  · exact h
  · have hb := hpw q p hq hp h
    have := hb.2.1; have := hcp.1; have := hcq.2
    omega

theorem Inv.mem_segments_lt (hI : Inv l) (p : Nat) (hp : p ∈ l.segments) : p < l.heap.length := by
  obtain ⟨j, hj, hseg⟩ := hI.hPtrs
  rw [hseg, List.mem_range'_1] at hp
  omega

theorem Inv.Read_of_ptr (hI : Inv l) (o p : Nat) (hp : p ∈ l.segments)
    (hc : covers o (l.deref p)) : l.Read o = (l.deref p).Read o := by
  unfold Log.Read
  cases hf : l.segments.find?
      (fun p => decide (o ≥ (l.deref p).baseOffset ∧ o < (l.deref p).nextOffset)) with
  | none =>
    rw [List.find?_eq_none] at hf
    exact absurd (by simpa [covers] using hc) (hf p hp)
  | some q =>
    have hq := List.mem_of_find?_eq_some hf
    have hcq : covers o (l.deref q) := by simpa [covers] using List.find?_some hf
    have := hI.unique_cover o p q (hI.mem_segments_lt p hp) (hI.mem_segments_lt q hq) hc hcq
    subst this
    rfl

/-! ## Coverage -/

theorem LowestOffset_segs (l : Log) :
    l.LowestOffset = match l.segs.head? with
      | none => .error Error.panic
      | some s => .ok s.baseOffset := by
  unfold Log.LowestOffset Log.segs
  rw [List.head?_map]
  cases l.segments.head? <;> rfl

theorem HighestOffset_segs (l : Log) :
    l.HighestOffset = match l.segs.getLast? with
      | none => .error Error.panic
      | some s => if s.nextOffset = 0 then .ok 0 else .ok (s.nextOffset - 1) := by
  unfold Log.HighestOffset Log.segs
  rw [List.getLast?_map]
  cases l.segments.getLast? <;> rfl

theorem Inv.segs_chain (hI : Inv l) : List.Chain' Follows l.segs := by
  obtain ⟨j, _, hp⟩ := hI.hPtrs
  rw [segs_eq_drop l j hp]
  exact hI.hChain.drop j

theorem Inv.segs_pairwise (hI : Inv l) : l.segs.Pairwise Before := by
  obtain ⟨j, _, hp⟩ := hI.hPtrs
  rw [segs_eq_drop l j hp]
  exact List.Pairwise.sublist (List.drop_sublist j l.heap) hI.pairwise

theorem Inv.Read_of_seg (hI : Inv l) (o : Nat) (s : segment) (hs : s ∈ l.segs)
    (hc : covers o s) : l.Read o = s.Read o ∧ ∃ v, s.Read o = .ok { Value := v, Offset := o } := by
  unfold Log.segs at hs
  obtain ⟨p, hp, rfl⟩ := List.mem_map.1 hs
  refine ⟨hI.Read_of_ptr o p hp hc, ?_⟩
  have hmem : l.deref p ∈ l.heap := hI.segs_sub _ hs
  obtain ⟨ps, hok⟩ := hI.hSegs _ hmem
  obtain ⟨k, hk, rfl⟩ := (hok.covers_iff o).1 hc
  exact ⟨ps[k], segment_Read_ok l.Config _ ps hok k hk⟩

theorem chain_covers (L : List segment) (o : Nat) (hc : List.Chain' Follows L)
    (a z : segment) (ha : L.head? = some a) (hz : L.getLast? = some z)
    (hlo : a.baseOffset ≤ o) (hhi : o < z.nextOffset) : ∃ s ∈ L, covers o s := by
  induction L generalizing a with
  | nil => simp at ha
  | cons x L ih =>
    simp only [List.head?_cons, Option.some.injEq] at ha
    subst ha
    cases L with
    | nil =>
      simp only [List.getLast?_singleton, Option.some.injEq] at hz
      subst hz
      exact ⟨x, List.mem_cons_self _ _, hlo, hhi⟩
    | cons y L1 =>
      by_cases hx : o < x.nextOffset
      · exact ⟨x, List.mem_cons_self _ _, hlo, hx⟩
      · rw [List.chain'_cons] at hc
        rw [List.getLast?_cons_cons] at hz
        obtain ⟨s, hs, hcov⟩ := ih hc.2 y rfl hz (by rw [hc.1.2]; omega)
        exact ⟨s, List.mem_cons_of_mem _ hs, hcov⟩

theorem Inv.last_next_max (hI : Inv l) (z : segment) (hz : l.segs.getLast? = some z)
    (s : segment) (hs : s ∈ l.segs) : s.nextOffset ≤ z.nextOffset := by
  have hpw := hI.segs_pairwise
  have hne : l.segs ≠ [] := List.ne_nil_of_mem hs
  have hsplit := (List.dropLast_append_getLast hne).symm
  have hzl : l.segs.getLast hne = z := by
    rw [List.getLast?_eq_getLast _ hne] at hz
    exact Option.some.inj hz
  rw [hzl] at hsplit
  rw [hsplit] at hpw hs
  rcases List.mem_append.1 hs with h | h
  · have hb : Before s z := (List.pairwise_append.1 hpw).2.2 s h z (by simp)
    have := hb.2.1; have := hb.2.2
    omega
  · rw [List.mem_singleton.1 h]

theorem Reach.of_appendAll (h : Reach c l) (rs : List Record)
    (hrs : ∀ r ∈ rs, r.Value.length < U64)
    (hok : (appendAll l rs).2.all okBelowMax = true) : Reach c (appendAll l rs).1 := by
  induction rs generalizing l with
  | nil => exact h
  | cons r rs ih =>
    have e1 : (appendAll l (r :: rs)).1 = (appendAll (l.Append r).1 rs).1 := rfl
    have e2 : (appendAll l (r :: rs)).2 = (l.Append r).2 :: (appendAll (l.Append r).1 rs).2 := rfl
    rw [e2, List.all_cons, Bool.and_eq_true] at hok
    rw [e1]
    obtain ⟨h1, h2⟩ := hok
    cases hres : (l.Append r).2 with
    | error e => rw [hres] at h1; simp [okBelowMax] at h1
    | ok o =>
      rw [hres] at h1
      simp only [okBelowMax, decide_eq_true_eq] at h1
      have happ : l.Append r = ((l.Append r).1, .ok o) := by rw [← hres]
      exact ih (Reach.append l _ r o h (hrs r (List.mem_cons_self _ _)) happ h1)
        (fun x hx => hrs x (List.mem_cons_of_mem _ hx)) h2

/-! ## The reader -/

theorem multiRead_spec (rs : List originReader) (n : Nat) (hn : 0 < n) :
    ((multiRead rs n).2.2 = none ∧ 0 < (multiRead rs n).2.1.length ∧
      (multiRead rs n).2.1 ++ remaining (multiRead rs n).1 = remaining rs) ∨
    ((multiRead rs n).2.2 = some Error.EOF ∧ (multiRead rs n).2.1 = remaining rs) := by
  induction rs with
  | nil => right; exact ⟨rfl, rfl⟩
  | cons r rs ih =>
    have hrem : remaining (r :: rs) = r.store.buf.drop r.off ++ remaining rs := by
      simp [remaining, List.flatMap_cons]
    by_cases hfull : ((r.store.buf.drop r.off).take n).length < n
    · have hall : (r.store.buf.drop r.off).take n = r.store.buf.drop r.off := by
        apply List.take_of_length_le
        rw [List.length_take] at hfull
        omega
      have hR : r.Read n = ({ r with off := r.off + ((r.store.buf.drop r.off).take n).length },
          (r.store.buf.drop r.off).take n, some Error.EOF) := by
        simp only [originReader.Read, store.ReadAt, if_pos hfull]
      by_cases hpos : ((r.store.buf.drop r.off).take n).length > 0
      · have hM : multiRead (r :: rs) n = (rs, (r.store.buf.drop r.off).take n,
            if rs.length > 0 then none else some Error.EOF) := by
          simp only [multiRead, hR, if_pos hpos]
        rw [hM]
        by_cases hrs : rs.length > 0
        · left
          simp only [if_pos hrs]
          exact ⟨trivial, hpos, by rw [hrem, hall]⟩
        · right
          simp only [if_neg hrs]
          have : rs = [] := List.length_eq_zero.1 (by omega)
          subst this
          exact ⟨trivial, by rw [hrem, hall]; simp [remaining]⟩
      · have hM : multiRead (r :: rs) n = multiRead rs n := by
          simp only [multiRead, hR, if_neg hpos]
        have hnil : r.store.buf.drop r.off = [] := by
          rw [← hall]
          exact List.length_eq_zero.1 (by omega)
        rw [hM, hrem, hnil, List.nil_append]
        exact ih
    · have hlen : ((r.store.buf.drop r.off).take n).length = n := by
        have := List.length_take_le n (r.store.buf.drop r.off)
        omega
      have hR : r.Read n = ({ r with off := r.off + ((r.store.buf.drop r.off).take n).length },
          (r.store.buf.drop r.off).take n, none) := by
        simp only [originReader.Read, store.ReadAt, if_neg hfull]
      have hM : multiRead (r :: rs) n =
          ({ r with off := r.off + ((r.store.buf.drop r.off).take n).length } :: rs,
            (r.store.buf.drop r.off).take n, none) := by
        simp only [multiRead, hR]
      rw [hM]
      left
      refine ⟨rfl, by simp only; omega, ?_⟩
      simp only [hrem, hlen]
      have : remaining ({ r with off := r.off + n } :: rs) =
          r.store.buf.drop (r.off + n) ++ remaining rs := by
        simp [remaining, List.flatMap_cons]
      rw [this, ← List.append_assoc, ← List.drop_drop, List.take_append_drop]

theorem readAll_spec (fuel : Nat) (rs : List originReader) (n : Nat) (hn : 0 < n)
    (hf : (remaining rs).length < fuel) :
    readAll fuel rs n = some (remaining rs, Error.EOF) := by
  induction fuel generalizing rs with
  | zero => omega
  | succ fuel ih =>
    have hspec := multiRead_spec rs n hn
    generalize hm : multiRead rs n = res at hspec
    obtain ⟨rs1, bs, err⟩ := res
    simp only at hspec
    unfold readAll
    rw [hm]
    rcases hspec with ⟨he, hpos, hrem⟩ | ⟨he, hrem⟩
    · subst he
      simp only
      have hlt : (remaining rs1).length < fuel := by
        have := congrArg List.length hrem
        rw [List.length_append] at this
        omega
      rw [ih rs1 hlt]
      simp only [hrem]
    · subst he
      simp only [hrem]

theorem remaining_Reader (l : Log) :
    remaining l.Reader = l.segs.flatMap (fun s => s.store.buf) := by
  unfold remaining Log.Reader Log.segs
  rw [List.flatMap_map, List.flatMap_map]
  rfl

theorem decodeFrames_frames (ps : List (List Byte)) (fuel : Nat) (hf : ps.length < fuel)
    (hlen : ∀ p ∈ ps, p.length < U64) : decodeFrames fuel (frames ps) = some ps := by
  induction ps generalizing fuel with
  | nil =>
    cases fuel with
    | zero => omega
    | succ fuel => simp [decodeFrames, frames_nil]
  | cons p ps ih =>
    cases fuel with
    | zero => omega
    | succ fuel =>
      have hp := hlen p (List.mem_cons_self _ _)
      have hfr : frames (p :: ps) = putUint lenWidth p.length ++ (p ++ frames ps) := by
        rw [show p :: ps = [p] ++ ps from rfl, frames_append, frames_singleton, frame,
          List.append_assoc]
      have h8 : (putUint lenWidth p.length).length = lenWidth := putUint_length _ _
      have hne : frames (p :: ps) ≠ [] := by
        intro h
        have := congrArg List.length h
        rw [hfr, List.length_append, h8] at this
        simp [lenWidth] at this
      have hge : ¬ (frames (p :: ps)).length < lenWidth := by
        rw [hfr, List.length_append, h8]; omega
      have hlenv : getUint (putUint lenWidth p.length) = p.length :=
        getUint_putUint_of_lt _ _ (by simpa [lenWidth, U64] using hp)
      have hbody : ¬ (p ++ frames ps).length < p.length := by
        rw [List.length_append]; omega
      unfold decodeFrames
      rw [if_neg hne, if_neg hge]
      simp only [hfr, List.take_left' h8, List.drop_left' h8, hlenv, hbody, if_false,
        List.drop_left, List.take_left]
      rw [ih fuel (by simp at hf; omega) (fun q hq => hlen q (List.mem_cons_of_mem _ hq))]

theorem forall₂_concat_left {α β : Type} {R : α → β → Prop} (init : List α) (s : α)
    (pss : List β) (h : List.Forall₂ R (init ++ [s]) pss) :
    ∃ pinit ps, pss = pinit ++ [ps] ∧ List.Forall₂ R init pinit ∧ R s ps := by
  rw [← List.forall₂_reverse_iff, List.reverse_append, List.reverse_singleton,
    List.singleton_append, List.forall₂_cons_left_iff] at h
  obtain ⟨ps, ptail, hR, hF, he⟩ := h
  refine ⟨ptail.reverse, ps, ?_, ?_, hR⟩
  · have := congrArg List.reverse he
    rw [List.reverse_reverse] at this
    rw [this, List.reverse_cons]
  · rw [← List.forall₂_reverse_iff, List.reverse_reverse]
    exact hF

theorem Tracks.buf (heap : List segment) (pss : List (List (List Byte))) (c : Config)
    (h : List.Forall₂ (SegOK c) heap pss) :
    heap.flatMap (fun s => s.store.buf) = frames pss.flatten := by
  induction h with
  | nil => rfl
  | cons hs _ ih =>
    rw [List.flatMap_cons, ih, List.flatten_cons, frames_append, hs.hBuf]

theorem Tracks.lens (heap : List segment) (pss : List (List (List Byte))) (c : Config)
    (h : List.Forall₂ (SegOK c) heap pss) : ∀ p ∈ pss.flatten, p.length < U64 := by
  induction h with
  | nil => simp
  | cons hs _ ih =>
    intro p hp
    rw [List.flatten_cons, List.mem_append] at hp
    rcases hp with hp | hp
    · exact hs.hLens p hp
    · exact ih p hp

theorem Tracks.append_one (hI : Inv l) (pss : List (List (List Byte))) (hT : Tracks l pss)
    (hseg : l.segments = List.range l.heap.length) (r : Record) (hr : r.Value.length < U64)
    (init : List segment) (s : segment) (hheap : l.heap = init ++ [s])
    (hnext : s.nextOffset + 1 < U64) (hroom : s.index.size + entWidth ≤ s.index.cap) :
    ∃ pss1, Tracks (l.Append r).1 pss1 ∧ pss1.flatten = pss.flatten ++ [r.Value] ∧
      (l.Append r).1.segments = List.range (l.Append r).1.heap.length := by
  unfold Tracks at hT
  rw [hheap] at hT
  obtain ⟨pinit, ps, hpss, hFi, hs⟩ := forall₂_concat_left init s pss hT
  have hpos := hI.store_size_lt init s hheap
  obtain ⟨hok, _, _⟩ := segment_Append_ok l.Config s ps hs r hr hpos hnext hroom
  obtain ⟨_, _, h3, h4⟩ := hI.append r hr init s hheap hnext hroom
  have hlen : l.heap.length = init.length + 1 := by rw [hheap]; simp
  have hF1 : List.Forall₂ (SegOK l.Config) (init ++ [(s.Append r).1]) (pinit ++ [ps ++ [r.Value]]) :=
    List.rel_append hFi (List.Forall₂.cons hok List.Forall₂.nil)
  by_cases hm : (s.Append r).1.IsMaxed = true
  · rw [h4 hm]
    refine ⟨pinit ++ [ps ++ [r.Value]] ++ [[]], ?_, ?_, ?_⟩
    · exact List.rel_append hF1 (List.Forall₂.cons (SegOK_empty _ _ hnext) List.Forall₂.nil)
    · rw [hpss]; simp
    · show l.segments ++ [init.length + 1] = List.range (init ++ [(s.Append r).1] ++ [_]).length
      rw [hseg, hlen]
      simp [List.range_succ]
  · rw [h3 (by simpa using hm)]
    refine ⟨pinit ++ [ps ++ [r.Value]], hF1, ?_, ?_⟩
    · rw [hpss]; simp
    · show l.segments = List.range (init ++ [(s.Append r).1]).length
      rw [hseg, hlen]; simp

theorem Tracks.append_all (rs : List Record) (l : Log) (hI : Inv l)
    (pss : List (List (List Byte))) (hT : Tracks l pss)
    (hseg : l.segments = List.range l.heap.length)
    (hrs : ∀ r ∈ rs, r.Value.length < U64)
    (hok : (appendAll l rs).2.all okBelowMax = true) :
    ∃ pss1, Tracks (appendAll l rs).1 pss1 ∧
      pss1.flatten = pss.flatten ++ rs.map Record.Value ∧
      (appendAll l rs).1.segments = List.range (appendAll l rs).1.heap.length ∧
      Inv (appendAll l rs).1 := by
  induction rs generalizing l pss with
  | nil => exact ⟨pss, hT, by simp, hseg, hI⟩
  | cons r rs ih =>
    simp only [appendAll, List.all_cons, Bool.and_eq_true] at hok ⊢
    obtain ⟨h1, h2⟩ := hok
    have hr := hrs r (List.mem_cons_self _ _)
    cases hres : (l.Append r).2 with
    | error e => rw [hres] at h1; simp [okBelowMax] at h1
    | ok o =>
      rw [hres] at h1
      simp only [okBelowMax, decide_eq_true_eq] at h1
      have happ : l.Append r = ((l.Append r).1, .ok o) := by rw [← hres]
      obtain ⟨hI1, init, s, hheap, ho2, hroom⟩ := hI.append_ok r hr _ o happ h1
      subst ho2
      obtain ⟨pss1, hT1, hfl, hseg1⟩ := Tracks.append_one hI pss hT hseg r hr init s hheap h1 hroom
      obtain ⟨pss2, hT2, hfl2, hseg2, hI2⟩ := ih (l.Append r).1 hI1 pss1 hT1 hseg1
        (fun x hx => hrs x (List.mem_cons_of_mem _ hx)) h2
      exact ⟨pss2, hT2, by rw [hfl2, hfl]; simp, hseg2, hI2⟩

theorem segs_of_range (l : Log) (h : l.segments = List.range l.heap.length) :
    l.segs = l.heap := by
  have := segs_eq_drop l 0 (by rw [h, List.range_eq_range']; simp)
  simpa using this

/-! ## Closing and reopening -/

theorem index_Read_last (i : index) (ps : List (List Byte))
    (hm : i.mmap = entries ps) (hs : i.size = entWidth * ps.length) (hne : 0 < ps.length) :
    i.Read (-1) = .ok ((ps.length - 1) % 256 ^ offWidth,
      (frames (ps.take (ps.length - 1))).length % 256 ^ posWidth) := by
  rw [← index_Read_entry i ps (ps.length - 1) hm hs (by omega)]
  have hw : entWidth = 12 := rfl
  have hdiv : i.size / entWidth = ps.length := by
    rw [hs, hw]; omega
  have e1 : ((i.size / entWidth : Nat) : Int) - 1 = ((ps.length - 1 : Nat) : Int) := by
    rw [hdiv]; omega
  unfold index.Read
  simp only [↓reduceIte, e1, ite_self]

theorem newSegment_reopen (D : Directory) (c : Config) (s : segment) (ps : List (List Byte))
    (hs : SegOK c s ps) (hcap : c.MaxIndexBytes ≤ entWidth * 2 ^ 32)
    (h1 : D.lookup (storeName s.baseOffset) = some s.store.buf)
    (h2 : D.lookup (indexName s.baseOffset) = some s.index.mmap) :
    newSegment D s.baseOffset c = .ok (s, D) := by
  have hmlen : s.index.mmap.length = s.index.size := by
    rw [hs.hMmap, entries_length, hs.hISize]
  have hst : newStore (storeName s.baseOffset) s.store.buf = s.store := by
    have h := hs.hSize
    rw [← hs.hBuf] at h
    have hn := hs.hStoreName
    cases hstore : s.store with
    | mk name buf size =>
      rw [hstore] at h hn
      simp only at h hn
      simp [newStore, h, hn]
  have hix : newIndex (indexName s.baseOffset) s.index.mmap c = s.index := by
    have hn := hs.hIndexName
    have hc := hs.hCap
    have hf := hs.hFits
    cases hindex : s.index with
    | mk name mmap size cap =>
      rw [hindex] at hn hc hf hmlen
      simp only at hn hc hf hmlen
      have htake : mmap.take c.MaxIndexBytes = mmap := List.take_of_length_le (by omega)
      simp [newIndex, hn, hc, hmlen, htake]
  unfold newSegment Directory.openCreate
  simp only [h1, h2, hst, hix]
  by_cases h0 : ps.length = 0
  · have hsz : s.index.size = 0 := by rw [hs.hISize, h0, Nat.mul_zero]
    have hrd : s.index.Read (-1) = .error Error.EOF := by
      unfold index.Read
      rw [if_pos hsz]
    rw [hrd]
    simp only
    have hn := hs.hNext
    have hcfg := hs.hConfig
    rw [h0, Nat.add_zero] at hn
    cases hseg : s with
    | mk st ix b nx cf =>
      rw [hseg] at hn hcfg
      simp only at hn hcfg
      simp [hn, hcfg]
  · have hrd := index_Read_last s.index ps hs.hMmap hs.hISize (by omega)
    rw [hrd]
    simp only
    have hle : ps.length ≤ 2 ^ 32 := by
      have h1 := hs.hFits
      rw [hs.hISize, hs.hCap] at h1
      have hw : entWidth = 12 := rfl
      rw [hw] at h1 hcap
      omega
    have hrel : (ps.length - 1) % 256 ^ offWidth = ps.length - 1 :=
      Nat.mod_eq_of_lt (by
        have : (256 : Nat) ^ offWidth = 2 ^ 32 := by decide
        rw [this]; omega)
    have hn := hs.hNext
    have hlt := hs.hNextLt
    have hcfg := hs.hConfig
    have hnx : (s.baseOffset + (ps.length - 1) % 256 ^ offWidth + 1) % U64 = s.nextOffset := by
      rw [hrel, show s.baseOffset + (ps.length - 1) + 1 = s.nextOffset by omega]
      exact Nat.mod_eq_of_lt hlt
    rw [hnx]
    cases hseg : s with
    | mk st ix b nx cf =>
      rw [hseg] at hcfg
      simp only at hcfg
      simp [hcfg]

theorem lookup_append_skip (pre d : Directory) (n : FileName) (h : n ∉ pre.map Prod.fst) :
    Directory.lookup (pre ++ d) n = Directory.lookup d n := by
  induction pre with
  | nil => rfl
  | cons f pre ih =>
    obtain ⟨m, c0⟩ := f
    simp only [List.map_cons, List.mem_cons, not_or] at h
    have hm : ¬ m = n := fun e => h.1 e.symm
    show Directory.lookup ((m, c0) :: (pre ++ d)) n = Directory.lookup d n
    rw [Directory.lookup, if_neg hm]
    exact ih h.2

theorem write_append_skip (pre d : Directory) (n : FileName) (c : List Byte)
    (h : n ∉ pre.map Prod.fst) :
    Directory.write (pre ++ d) n c = pre ++ Directory.write d n c := by
  induction pre with
  | nil => rfl
  | cons f pre ih =>
    obtain ⟨m, c0⟩ := f
    simp only [List.map_cons, List.mem_cons, not_or] at h
    have hm : ¬ m = n := fun e => h.1 e.symm
    show Directory.write ((m, c0) :: (pre ++ d)) n c = (m, c0) :: (pre ++ Directory.write d n c)
    rw [Directory.write, if_neg hm, ih h.2]

theorem names_disjoint (a s : segment) (ha : a.baseOffset < U64) (hs : s.baseOffset < U64)
    (hne : a.baseOffset ≠ s.baseOffset) :
    storeName s.baseOffset ∉ (closedFiles a).map Prod.fst ∧
    indexName s.baseOffset ∉ (closedFiles a).map Prod.fst := by
  simp only [closedFiles, List.map_cons, List.map_nil, List.mem_cons, List.mem_singleton,
    List.not_mem_nil, or_false, not_or]
  exact ⟨⟨fun e => hne (storeName_inj _ _ hs ha e).symm, storeName_ne_indexName _ _⟩,
    ⟨fun e => storeName_ne_indexName _ _ e.symm, fun e => hne (indexName_inj _ _ hs ha e).symm⟩⟩

theorem lookup_closedFiles (L : List segment) (hn : Named L)
    (hd : L.Pairwise (fun a b => a.baseOffset ≠ b.baseOffset)) (s : segment) (hs : s ∈ L) :
    Directory.lookup (L.flatMap closedFiles) (storeName s.baseOffset) = some s.store.buf ∧
    Directory.lookup (L.flatMap closedFiles) (indexName s.baseOffset) = some s.index.mmap := by
  induction L with
  | nil => simp at hs
  | cons a L ih =>
    rw [List.flatMap_cons]
    rcases List.mem_cons.1 hs with rfl | hmem
    · have hne : ¬ storeName s.baseOffset = indexName s.baseOffset :=
        storeName_ne_indexName _ _
      constructor
      · show Directory.lookup ((storeName s.baseOffset, s.store.buf) ::
          (indexName s.baseOffset, s.index.mmap) :: L.flatMap closedFiles) _ = _
        rw [Directory.lookup, if_pos rfl]
      · show Directory.lookup ((storeName s.baseOffset, s.store.buf) ::
          (indexName s.baseOffset, s.index.mmap) :: L.flatMap closedFiles) _ = _
        rw [Directory.lookup, if_neg hne, Directory.lookup, if_pos rfl]
    · have hne := (List.pairwise_cons.1 hd).1 s hmem
      have hdis := names_disjoint a s (hn a (List.mem_cons_self _ _)).2.2.2
        (hn s (List.mem_cons_of_mem _ hmem)).2.2.2 hne
      rw [lookup_append_skip _ _ _ hdis.1, lookup_append_skip _ _ _ hdis.2]
      exact ih (fun x hx => hn x (List.mem_cons_of_mem _ hx)) (List.pairwise_cons.1 hd).2 hmem

theorem Close_fold (L : List segment) (pre : Directory) (hn : Named L)
    (hd : L.Pairwise (fun a b => a.baseOffset ≠ b.baseOffset))
    (hpre : ∀ s ∈ L, storeName s.baseOffset ∉ pre.map Prod.fst ∧
      indexName s.baseOffset ∉ pre.map Prod.fst) :
    L.foldl (fun d s => s.Close d) (pre ++ L.flatMap blankFiles) =
      pre ++ L.flatMap closedFiles := by
  induction L generalizing pre with
  | nil => rfl
  | cons a L ih =>
    obtain ⟨hsn, hin, hml, hb⟩ := hn a (List.mem_cons_self _ _)
    have hpa := hpre a (List.mem_cons_self _ _)
    have hcont : a.index.mmap.take a.index.size ++
        List.replicate (a.index.size - a.index.mmap.length) 0 = a.index.mmap := by
      rw [List.take_of_length_le (by omega), hml, Nat.sub_self]
      simp
    have hne : ¬ storeName a.baseOffset = indexName a.baseOffset := storeName_ne_indexName _ _
    have hclose : a.Close (pre ++ (a :: L).flatMap blankFiles) =
        (pre ++ closedFiles a) ++ L.flatMap blankFiles := by
      unfold segment.Close store.Close index.Close
      rw [hcont, hsn, hin, List.flatMap_cons, write_append_skip _ _ _ _ hpa.2]
      have e1 : Directory.write (blankFiles a ++ L.flatMap blankFiles) (indexName a.baseOffset)
          a.index.mmap = (storeName a.baseOffset, []) :: (indexName a.baseOffset, a.index.mmap) ::
            L.flatMap blankFiles := by
        show Directory.write ((storeName a.baseOffset, []) :: (indexName a.baseOffset, []) ::
          L.flatMap blankFiles) _ _ = _
        rw [Directory.write, if_neg hne, Directory.write, if_pos rfl]
      rw [e1, write_append_skip _ _ _ _ hpa.1, Directory.write, if_pos rfl]
      simp [closedFiles]
    rw [List.foldl_cons, hclose, List.flatMap_cons, ← List.append_assoc]
    apply ih (pre ++ closedFiles a) (fun x hx => hn x (List.mem_cons_of_mem _ hx))
      (List.pairwise_cons.1 hd).2
    intro s hs
    have hps := hpre s (List.mem_cons_of_mem _ hs)
    have hdis := names_disjoint a s hb (hn s (List.mem_cons_of_mem _ hs)).2.2.2
      ((List.pairwise_cons.1 hd).1 s hs)
    simp only [List.map_append, List.mem_append, not_or]
    exact ⟨⟨hps.1, hdis.1⟩, ⟨hps.2, hdis.2⟩⟩

theorem dir_blank (d : Directory) (N : List FileName) (h1 : d.map Prod.fst = N)
    (h2 : ∀ f ∈ d, f.2 = []) : d = N.map (fun n => (n, [])) := by
  subst h1
  induction d with
  | nil => rfl
  | cons f d ih =>
    obtain ⟨n, c⟩ := f
    have hc : c = [] := h2 (n, c) (List.mem_cons_self _ _)
    subst hc
    rw [List.map_cons, List.map_cons, ← ih (fun x hx => h2 x (List.mem_cons_of_mem _ hx))]

theorem Inv.dir_eq (hI : Inv l) : l.Dir = l.segs.flatMap blankFiles := by
  rw [dir_blank l.Dir _ hI.hDir hI.hEmpty, List.map_flatMap]
  rfl

theorem Inv.named (hI : Inv l) : Named l.segs := by
  intro s hs
  obtain ⟨ps, h⟩ := hI.hSegs s (hI.segs_sub s hs)
  exact ⟨h.hStoreName, h.hIndexName, by rw [h.hMmap, entries_length, h.hISize],
    lt_of_le_of_lt h.le h.hNextLt⟩

theorem Inv.bases_ne (hI : Inv l) :
    l.segs.Pairwise (fun a b => a.baseOffset ≠ b.baseOffset) := by
  refine hI.segs_pairwise.imp ?_
  intro a b hab
  have := hab.1; have := hab.2.1
  omega

theorem Inv.Close_dir (hI : Inv l) : l.Close.Dir = l.segs.flatMap closedFiles := by
  have h := Close_fold l.segs [] hI.named hI.bases_ne (by simp)
  simp only [List.nil_append] at h
  rw [← h, ← hI.dir_eq]
  simp only [Log.Close, Log.segs, List.foldl_map]

theorem sort_of_perm (l1 l2 : List Nat) (hp : l1.Perm l2)
    (hs : l2.Sorted (fun a b => a ≤ b)) : l1.insertionSort (fun a b => a ≤ b) = l2 :=
  List.eq_of_perm_of_sorted ((List.perm_insertionSort _ l1).trans hp)
    (List.sorted_insertionSort _ l1) hs

theorem names_closed (L : List segment) :
    (L.flatMap closedFiles).map Prod.fst = L.flatMap segFiles := by
  rw [List.map_flatMap]
  rfl

theorem bases_closed (L : List segment) (hn : Named L) :
    (L.flatMap segFiles).map parseBase = L.flatMap (fun s => [s.baseOffset, s.baseOffset]) := by
  induction L with
  | nil => rfl
  | cons a L ih =>
    have hb := (hn a (List.mem_cons_self _ _)).2.2.2
    rw [List.flatMap_cons, List.flatMap_cons, List.map_append,
      ih (fun x hx => hn x (List.mem_cons_of_mem _ hx))]
    simp [segFiles, parseBase_storeName _ hb, parseBase_indexName _ hb]

theorem doubled_sorted (L : List segment)
    (hd : L.Pairwise (fun a b => a.baseOffset < b.baseOffset)) :
    (L.flatMap (fun s => [s.baseOffset, s.baseOffset])).Sorted (fun a b => a ≤ b) := by
  induction L with
  | nil => exact List.Pairwise.nil
  | cons a L ih =>
    rw [List.flatMap_cons]
    have h1 := (List.pairwise_cons.1 hd).1
    have hrest : ∀ x ∈ L.flatMap (fun s => [s.baseOffset, s.baseOffset]),
        a.baseOffset ≤ x := by
      intro x hx
      rw [List.mem_flatMap] at hx
      obtain ⟨s, hs, hxs⟩ := hx
      have := h1 s hs
      simp only [List.mem_cons, List.mem_singleton, List.not_mem_nil, or_false, or_self] at hxs
      omega
    refine List.Pairwise.cons ?_ (List.Pairwise.cons hrest (ih (List.pairwise_cons.1 hd).2))
    intro x hx
    rcases List.mem_cons.1 hx with rfl | hx
    · exact Nat.le_refl _
    · exact hrest x hx

theorem baseOffsets_closed (L : List segment) (hn : Named L)
    (hd : L.Pairwise (fun a b => a.baseOffset < b.baseOffset)) :
    ((ReadDir (L.flatMap closedFiles)).map parseBase).insertionSort (fun a b => a ≤ b) =
      L.flatMap (fun s => [s.baseOffset, s.baseOffset]) := by
  apply sort_of_perm _ _ _ (doubled_sorted L hd)
  unfold ReadDir
  rw [names_closed, ← bases_closed L hn]
  exact (List.perm_insertionSort _ _).map _

theorem loop_closed (D : Directory) (c : Config) (hcap : c.MaxIndexBytes ≤ entWidth * 2 ^ 32)
    (L : List segment) (l0 : Log) (hD : l0.Dir = D) (hC : l0.Config = c)
    (hok : ∀ s ∈ L, (∃ ps, SegOK c s ps) ∧
      Directory.lookup D (storeName s.baseOffset) = some s.store.buf ∧
      Directory.lookup D (indexName s.baseOffset) = some s.index.mmap) :
    ∃ l1, NewLog.loop l0 (L.flatMap (fun s => [s.baseOffset, s.baseOffset])) = .ok l1 ∧
      l1.heap = l0.heap ++ L ∧
      l1.segments = l0.segments ++ List.range' l0.heap.length L.length ∧
      l1.Dir = D ∧ l1.Config = c ∧
      (L ≠ [] → l1.activeSegment = some (l0.heap.length + L.length - 1)) := by
  induction L generalizing l0 with
  | nil => exact ⟨l0, rfl, by simp, by simp, hD, hC, fun h => absurd rfl h⟩
  | cons a L ih =>
    obtain ⟨⟨ps, hs⟩, h1, h2⟩ := hok a (List.mem_cons_self _ _)
    obtain ⟨l2, hl2⟩ : ∃ l2 : Log, l2 =
        { l0 with
          heap := l0.heap ++ [a]
          segments := l0.segments ++ [l0.heap.length]
          activeSegment := some l0.heap.length } :=
      ⟨_, rfl⟩
    have hns : l0.newSegment a.baseOffset = .ok l2 := by
      unfold Log.newSegment
      rw [hD, hC, newSegment_reopen D c a ps hs hcap h1 h2, hl2]
      simp only [← hD, ← hC]
    have e1 : l2.heap = l0.heap ++ [a] := by rw [hl2]
    have e2 : l2.segments = l0.segments ++ [l0.heap.length] := by rw [hl2]
    have e3 : l2.activeSegment = some l0.heap.length := by rw [hl2]
    obtain ⟨l1, hl, hh, hsg, hd, hc, ha⟩ := ih l2 (by rw [hl2]; exact hD) (by rw [hl2]; exact hC)
      (fun s hs => hok s (List.mem_cons_of_mem _ hs))
    refine ⟨l1, ?_, ?_, ?_, hd, hc, ?_⟩
    · rw [List.flatMap_cons]
      show NewLog.loop l0 (a.baseOffset :: a.baseOffset :: _) = _
      rw [NewLog.loop, hns]
      exact hl
    · rw [hh, e1]; simp
    · rw [hsg, e1, e2]
      simp only [List.length_append, List.length_singleton, List.length_cons, List.append_assoc]
      rw [List.range'_succ]
      rfl
    · intro _
      by_cases hL : L = []
      · subst hL
        have h3 : NewLog.loop l2 [] = .ok l1 := hl
        simp only [NewLog.loop, Except.ok.injEq] at h3
        rw [← h3, e3]
        simp
      · rw [ha hL, e1]
        simp only [List.length_append, List.length_singleton, List.length_cons, List.length_nil]
        congr 1
        omega

theorem NewLog_unfold (dir : Directory) (c : Config) :
    NewLog dir c =
      match NewLog.loop ⟨dir, c.withDefaults, [], none, []⟩
        (((ReadDir dir).map parseBase).insertionSort (fun a b => a ≤ b)) with
      | .error e => .error e
      | .ok l1 => if l1.segments = [] then l1.newSegment c.withDefaults.InitialOffset else .ok l1 := by
  have hc : (if (if c.MaxStoreBytes = 0 then { c with MaxStoreBytes := 1024 } else c).MaxIndexBytes = 0
      then { (if c.MaxStoreBytes = 0 then { c with MaxStoreBytes := 1024 } else c) with
        MaxIndexBytes := 1024 }
      else (if c.MaxStoreBytes = 0 then { c with MaxStoreBytes := 1024 } else c)) = c.withDefaults := by
    unfold Config.withDefaults
    by_cases h1 : c.MaxStoreBytes = 0 <;> by_cases h2 : c.MaxIndexBytes = 0 <;> simp [h1, h2]
  unfold NewLog
  simp only [hc]

theorem Appended.reach (h : Appended c l) : Reach c l := by
  induction h with
  | fresh l hv hn => exact Reach.fresh l hv hn
  | append l l1 r o _ hr happ ho ih => exact Reach.append l l1 r o ih hr happ ho

theorem Appended.segments_eq (h : Appended c l) : l.segments = List.range l.heap.length := by
  induction h with
  | fresh l hv hn =>
    rw [NewLog_empty] at hn
    simp only [Except.ok.injEq] at hn
    subst hn
    rfl
  | append l l1 r o hl hr happ ho ih =>
    have hI := hl.reach.inv
    obtain ⟨_, init, s, hheap, ho2, hroom⟩ := hI.append_ok r hr l1 o happ ho
    obtain ⟨_, _, h3, h4⟩ := hI.append r hr init s hheap (by rw [← ho2]; exact ho) hroom
    rw [happ] at h3 h4
    have hlen : l.heap.length = init.length + 1 := by rw [hheap]; simp
    by_cases hm : (s.Append r).1.IsMaxed = true
    · have e : l1 = _ := h4 hm
      rw [e]
      show l.segments ++ [init.length + 1] = List.range (init ++ [(s.Append r).1] ++ [_]).length
      rw [ih, hlen]
      simp [List.range_succ]
    · have e : l1 = _ := h3 (by simpa using hm)
      rw [e]
      show l.segments = List.range (init ++ [(s.Append r).1]).length
      rw [ih, hlen]
      simp

theorem Append_ok_offset (l : Log) (init : List segment) (s : segment) (r : Record) (o : Nat)
    (hheap : l.heap = init ++ [s]) (hact : l.activeSegment = some (l.heap.length - 1))
    (hres : (l.Append r).2 = .ok o) : o = s.nextOffset ∧ s.index.size + entWidth ≤ s.index.cap := by
  by_cases hroom : s.index.size + entWidth ≤ s.index.cap
  · refine ⟨?_, hroom⟩
    have hun := Log_Append_unfold l init s r hheap hact
    rw [segment_Append_eq s r hroom] at hun
    simp only at hun
    rw [hun] at hres
    split at hres
    · split at hres
      · simp at hres
      · simp only [Except.ok.injEq] at hres; exact hres.symm
    · simp only [Except.ok.injEq] at hres; exact hres.symm
  · have := Log_Append_full l init s r hheap hact (by omega)
    rw [this] at hres
    simp at hres

theorem Appended.reopen (h : Appended c l)
    (hcap : c.withDefaults.MaxIndexBytes ≤ entWidth * 2 ^ 32) :
    NewLog l.Close.Dir c = .ok l.Close := by
  have hI := h.reach.inv
  have hcfg := h.reach.config
  have hseg := h.segments_eq
  have hsegs := segs_of_range l hseg
  have hD : l.Close.Dir = l.heap.flatMap closedFiles := by rw [hI.Close_dir, hsegs]
  have hnamed : Named l.heap := by rw [← hsegs]; exact hI.named
  have hlt : l.heap.Pairwise (fun a b => a.baseOffset < b.baseOffset) := by
    refine hI.pairwise.imp ?_
    intro a b hab
    have := hab.1; have := hab.2.1
    omega
  have hne : l.heap.Pairwise (fun a b => a.baseOffset ≠ b.baseOffset) :=
    hlt.imp (fun hab => Nat.ne_of_lt hab)
  rw [NewLog_unfold, hD, baseOffsets_closed l.heap hnamed hlt]
  obtain ⟨l1, hl1, hh, hsg, hd, hc, ha⟩ := loop_closed (l.heap.flatMap closedFiles)
    c.withDefaults hcap l.heap ⟨l.heap.flatMap closedFiles, c.withDefaults, [], none, []⟩ rfl rfl
    (fun s hs => ⟨by rw [← hcfg]; exact hI.hSegs s hs, lookup_closedFiles l.heap hnamed hne s hs⟩)
  rw [hl1]
  simp only [List.nil_append, List.length_nil, Nat.zero_add] at hh hsg ha
  have hnil : l1.segments ≠ [] := by
    rw [hsg]
    intro e
    have := congrArg List.length e
    simp only [List.length_range', List.length_nil] at this
    exact hI.hHeap (List.length_eq_zero.1 this)
  simp only [hnil, if_false]
  congr 1
  have hact := ha hI.hHeap
  cases l1 with
  | mk d1 c1 h1 a1 s1 =>
    cases hlog : l with
    | mk d0 c0 h0 a0 s0 =>
      simp only at hh hsg hd hc hact
      have hA := hI.hActive
      rw [hlog] at hh hsg hact hcfg hseg hA hD
      simp only at hh hsg hact hcfg hseg hA
      simp only [Log.Close, Log.mk.injEq]
      have hD2 : (Log.Close ⟨d0, c0, h0, a0, s0⟩).Dir = h0.flatMap closedFiles := hD
      simp only [Log.Close] at hD2
      refine ⟨by rw [hd, hD2, hlog], by rw [hc, hcfg], hh, by rw [hact, hA], ?_⟩
      rw [hsg, hseg, List.range_eq_range']

theorem Append_result_unfold (l : Log) (init : List segment) (s : segment) (r : Record)
    (hheap : l.heap = init ++ [s]) (hact : l.activeSegment = some (l.heap.length - 1)) :
    (l.Append r).2 =
      match s.Append r with
      | (_, .error e) => .error e
      | (s1, .ok off) =>
        if s1.IsMaxed then
          match Proglog.newSegment l.Dir ((off + 1) % U64) l.Config with
          | .error e => .error e
          | .ok _ => .ok off
        else .ok off := by
  rw [Log_Append_unfold l init s r hheap hact]
  generalize s.Append r = res
  obtain ⟨s1, e⟩ := res
  cases e with
  | error e => rfl
  | ok off =>
    simp only
    split
    · unfold Log.newSegment
      simp only
      cases Proglog.newSegment l.Dir ((off + 1) % U64) l.Config with
      | error e => rfl
      | ok v => rfl
    · rfl

/-! ## A full index -/

theorem server_appendAll_spec (rs : List server.Record) (c : server.Log)
    (h : c.records.length + rs.length ≤ U64) :
    (server.appendAll c rs).2 =
      (List.range rs.length).map (fun k => (c.records.length + k, none)) ∧
    (server.appendAll c rs).1.records =
      c.records ++ (rs.enumFrom c.records.length).map (fun x => ⟨x.2.Value, x.1⟩) := by
  induction rs generalizing c with
  | nil => simp [server.appendAll]
  | cons r rs ih =>
    have hlt : c.records.length < U64 := by
      simp only [List.length_cons] at h
      omega
    have e1 : (c.Append r).1.records = c.records ++ [⟨r.Value, c.records.length⟩] := by
      simp [server.Log.Append, Nat.mod_eq_of_lt hlt]
    have e2 : (c.Append r).2 = (c.records.length, none) := by
      simp [server.Log.Append, Nat.mod_eq_of_lt hlt]
    have hl : (c.Append r).1.records.length = c.records.length + 1 := by
      rw [e1]; simp
    have h2 : (c.Append r).1.records.length + rs.length ≤ U64 := by
      simp only [List.length_cons] at h
      omega
    obtain ⟨i1, i2⟩ := ih (c.Append r).1 h2
    constructor
    · simp only [server.appendAll, i1, e2, List.length_cons, List.range_succ_eq_map,
        List.map_cons, List.map_map, hl]
      congr 1
      apply List.map_congr_left
      intro k _
      simp only [Function.comp, Nat.succ_eq_add_one]
      congr 1
      omega
    · simp only [server.appendAll]
      rw [i2, hl, e1]
      simp [List.enumFrom_cons]

/-! ## Store histories -/

theorem lookup_write_self (d : Directory) (n : FileName) (c : List Byte) :
    Directory.lookup (Directory.write d n c) n = some c := by
  induction d with
  | nil => simp [Directory.write, Directory.lookup]
  | cons f rest ih =>
    obtain ⟨m, c0⟩ := f
    by_cases h : m = n
    · simp [Directory.write, Directory.lookup, h]
    · simp [Directory.write, Directory.lookup, h, ih]

theorem frames_cons (p : List Byte) (ps : List (List Byte)) :
    frames (p :: ps) = frame p ++ frames ps := by
  simp [frames, List.flatMap_cons]

theorem frames_length (ps : List (List Byte)) :
    (frames ps).length = (ps.map (fun p => lenWidth + p.length)).sum := by
  induction ps with
  | nil => rfl
  | cons p ps ih => simp [frames_cons, frame_length, ih]

theorem store_Append_spec (s : store) (p : List Byte) :
    (s.Append p).1.buf = s.buf ++ frame p ∧ (s.Append p).1.size = s.size + (frame p).length ∧
    (s.Append p).1.name = s.name ∧ (s.Append p).2 = (lenWidth + p.length, s.size) := by
  simp [store.Append, frame, putUint_length, List.append_assoc]

theorem store_appendAll_spec (ps : List (List Byte)) (s : store) :
    (s.appendAll ps).1.buf = s.buf ++ frames ps ∧
    (s.appendAll ps).1.size = s.size + (frames ps).length ∧
    (s.appendAll ps).1.name = s.name := by
  induction ps generalizing s with
  | nil => simp [store.appendAll, frames_nil]
  | cons p ps ih =>
    obtain ⟨a1, a2, a3, _⟩ := store_Append_spec s p
    obtain ⟨b1, b2, b3⟩ := ih (s.Append p).1
    refine ⟨?_, ?_, ?_⟩
    · simp only [store.appendAll, b1, a1, frames_cons, List.append_assoc]
    · simp only [store.appendAll, b2, a2, frames_cons, List.length_append]
      omega
    · simp only [store.appendAll, b3, a3]

theorem store_appendAll_get (ps : List (List Byte)) (s : store) (k : Nat) (hk : k < ps.length) :
    (s.appendAll ps).2[k]? =
      some (lenWidth + ps[k].length, s.size + (frames (ps.take k)).length) := by
  induction ps generalizing s k with
  | nil => simp at hk
  | cons p ps ih =>
    obtain ⟨_, a2, _, a4⟩ := store_Append_spec s p
    cases k with
    | zero =>
      simp only [store.appendAll, List.getElem?_cons_zero, List.getElem_cons_zero, List.take_zero,
        frames_nil, List.length_nil, Nat.add_zero]
      rw [← a4]
    | succ k =>
      have hk1 : k < ps.length := by simpa using hk
      simp only [store.appendAll, List.getElem?_cons_succ, List.getElem_cons_succ,
        List.take_succ_cons, frames_cons, List.length_append]
      rw [ih (s.Append p).1 k hk1, a2]
      simp only [Nat.add_assoc]

theorem bufWrite_spec (file pending p : List Byte) :
    (bufWrite file pending p).1 ++ (bufWrite file pending p).2 = file ++ pending ++ p := by
  unfold bufWrite
  split
  · simp
  · split
    · next h => simp [h]
    · simp only
      split
      · simp
      · simp [List.append_assoc]

theorem bufStore_Append_view (s : bufStore) (p : List Byte) :
    (s.Append p).1.view = (s.view.Append p).1 ∧ (s.Append p).2 = (s.view.Append p).2 := by
  have h1 := bufWrite_spec s.file s.pending (putUint lenWidth p.length)
  have h2 := bufWrite_spec (bufWrite s.file s.pending (putUint lenWidth p.length)).1
    (bufWrite s.file s.pending (putUint lenWidth p.length)).2 p
  refine ⟨?_, rfl⟩
  simp only [bufStore.Append, bufStore.view, store.Append]
  rw [h2, h1]

theorem bufStore_appendAll_view (ps : List (List Byte)) (s : bufStore) :
    (s.appendAll ps).view = (s.view.appendAll ps).1 := by
  induction ps generalizing s with
  | nil => rfl
  | cons p ps ih =>
    simp only [bufStore.appendAll, store.appendAll]
    rw [ih, (bufStore_Append_view s p).1]

theorem bufStore_Read_view (s : bufStore) (pos : Nat) :
    (s.Read pos).2 = s.view.Read pos ∧ (s.Read pos).1.file = s.view.buf ∧
    (s.Read pos).1 = s.flush := by
  refine ⟨?_, rfl, rfl⟩
  simp only [bufStore.Read, bufStore.flush, bufStore.view, store.Read, store.ReadAt, newStore]

/-! ## Opening the segments of a directory -/

theorem lookup_append (d e : Directory) (n : FileName) :
    Directory.lookup (d ++ e) n =
      match Directory.lookup d n with
      | some c => some c
      | none => Directory.lookup e n := by
  induction d with
  | nil => rfl
  | cons f d ih =>
    obtain ⟨m, c0⟩ := f
    by_cases h : m = n
    · simp [Directory.lookup, h]
    · simp only [List.cons_append, Directory.lookup, if_neg h]
      exact ih

theorem closed_openCreate (d : Directory) (n : FileName) (c : Config)
    (h : indexFilesClosed d c) :
    indexFilesClosed (d.openCreate n).2 c ∧
    ((d.openCreate n).1 = [] ∨ Directory.lookup d n = some (d.openCreate n).1) := by
  unfold Directory.openCreate
  cases hl : Directory.lookup d n with
  | some c0 => exact ⟨h, Or.inr rfl⟩
  | none =>
    refine ⟨?_, Or.inl rfl⟩
    intro b content hb
    simp only at hb
    rw [lookup_append] at hb
    cases hd : Directory.lookup d (indexName b) with
    | some c1 =>
      rw [hd] at hb
      simp only [Option.some.injEq] at hb
      rw [← hb]
      exact h b c1 hd
    | none =>
      rw [hd] at hb
      simp only [Directory.lookup] at hb
      split at hb
      · simp only [Option.some.injEq] at hb
        rw [← hb]
        exact ⟨rfl, Nat.zero_le _⟩
      · exact absurd hb (by simp)

theorem index_Read_no_panic (i : index) (h1 : i.size % entWidth = 0)
    (h2 : i.mmap.length = i.size) : i.Read (-1) ≠ .error Error.panic := by
  have hw : entWidth = 12 := rfl
  unfold index.Read
  rw [hw] at h1 ⊢
  simp only [↓reduceIte]
  split_ifs with a b c
  · simp
  · simp
  · exfalso
    rcases c with c | c <;> omega
  · simp

theorem newSegment_closed (dir : Directory) (b : Nat) (c : Config)
    (h : indexFilesClosed dir c) :
    ∃ s d, newSegment dir b c = .ok (s, d) ∧ s.baseOffset = b ∧ indexFilesClosed d c := by
  obtain ⟨k1, _⟩ := closed_openCreate dir (storeName b) c h
  obtain ⟨k2, k3⟩ := closed_openCreate _ (indexName b) c k1
  have hic : ((dir.openCreate (storeName b)).2.openCreate (indexName b)).1.length % entWidth = 0 ∧
      ((dir.openCreate (storeName b)).2.openCreate (indexName b)).1.length ≤ c.MaxIndexBytes := by
    rcases k3 with k3 | k3
    · rw [k3]
      exact ⟨rfl, Nat.zero_le _⟩
    · exact k1 b _ k3
  unfold newSegment
  generalize dir.openCreate (storeName b) = r1 at k2 hic
  obtain ⟨c1, d1⟩ := r1
  simp only at k2 hic ⊢
  generalize d1.openCreate (indexName b) = r2 at k2 hic
  obtain ⟨c2, d2⟩ := r2
  simp only at k2 hic ⊢
  have hnp := index_Read_no_panic (newIndex (indexName b) c2 c) hic.1
    (by simp only [newIndex, List.length_take]; exact Nat.min_eq_right hic.2)
  cases hr : (newIndex (indexName b) c2 c).Read (-1) with
  | ok v => exact ⟨_, _, rfl, rfl, k2⟩
  | error e =>
    cases e with
    | panic => exact absurd hr hnp
    | offsetOutOfRange o => exact ⟨_, _, rfl, rfl, k2⟩
    | EOF => exact ⟨_, _, rfl, rfl, k2⟩
    | notExist => exact ⟨_, _, rfl, rfl, k2⟩

theorem Log_newSegment_closed (l : Log) (b : Nat) (h : indexFilesClosed l.Dir l.Config) :
    ∃ l1 s, l.newSegment b = .ok l1 ∧ s.baseOffset = b ∧ l1.heap = l.heap ++ [s] ∧
      l1.segments = l.segments ++ [l.heap.length] ∧
      l1.activeSegment = some l.heap.length ∧ l1.Config = l.Config ∧
      indexFilesClosed l1.Dir l1.Config := by
  obtain ⟨s, d, h1, h2, h3⟩ := newSegment_closed l.Dir b l.Config h
  refine ⟨Log.mk d l.Config (l.heap ++ [s]) (some l.heap.length) (l.segments ++ [l.heap.length]),
    s, ?_, h2, rfl, rfl, rfl, rfl, h3⟩
  simp only [Log.newSegment, h1]

theorem loop_everyOther (bs : List Nat) (l : Log) (h : indexFilesClosed l.Dir l.Config) :
    ∃ l1, NewLog.loop l bs = .ok l1 ∧ l1.Config = l.Config ∧
      indexFilesClosed l1.Dir l1.Config ∧
      l1.heap.map segment.baseOffset = l.heap.map segment.baseOffset ++ everyOther bs ∧
      l1.heap.length = l.heap.length + (everyOther bs).length ∧
      l1.segments = l.segments ++ List.range' l.heap.length (everyOther bs).length ∧
      (bs ≠ [] → l1.activeSegment = some (l1.heap.length - 1)) ∧ (bs = [] → l1 = l) := by
  induction bs using everyOther.induct generalizing l with
  | case1 =>
    exact ⟨l, rfl, rfl, h, by simp [everyOther], by simp [everyOther], by simp [everyOther],
      fun hne => absurd rfl hne, fun _ => rfl⟩
  | case2 b =>
    obtain ⟨l1, s, h1, h2, h3, h4, h5, h6, h7⟩ := Log_newSegment_closed l b h
    refine ⟨l1, h1, h6, h7, ?_, ?_, ?_, ?_, ?_⟩
    · simp [h3, h2, everyOther]
    · simp [h3, everyOther]
    · simp [h4, everyOther]
    · intro _
      rw [h5, h3]
      simp
    · intro hne
      exact absurd hne (by simp)
  | case3 b x rest ih =>
    obtain ⟨l1, s, h1, h2, h3, h4, h5, h6, h7⟩ := Log_newSegment_closed l b h
    obtain ⟨l2, k1, k2, k3, k4, k5, k6, k7, k8⟩ := ih l1 h7
    refine ⟨l2, ?_, k2.trans h6, k3, ?_, ?_, ?_, ?_, ?_⟩
    · simp only [NewLog.loop, h1, k1]
    · rw [k4, h3]
      simp [h2, everyOther]
    · rw [k5, h3]
      simp only [everyOther, List.length_append, List.length_cons, List.length_nil]
      omega
    · rw [k6, h4, h3]
      simp only [everyOther, List.length_append, List.length_cons, List.length_nil,
        List.append_assoc, List.singleton_append, List.range'_succ]
    · intro _
      by_cases hr : rest = []
      · rw [k8 hr, h5, h3]
        simp
      · exact k7 hr
    · intro hne
      exact absurd hne (by simp)

theorem everyOther_doubled (B : List Nat) : everyOther (B.flatMap (fun b => [b, b])) = B := by
  induction B with
  | nil => rfl
  | cons b B ih =>
    rw [List.flatMap_cons]
    show everyOther (b :: b :: B.flatMap (fun b => [b, b])) = b :: B
    rw [everyOther, ih]

theorem everyOther_eq_nil (bs : List Nat) : everyOther bs = [] ↔ bs = [] := by
  cases bs with
  | nil => simp [everyOther]
  | cons b rest =>
    cases rest with
    | nil => simp [everyOther]
    | cons x rest => simp [everyOther]

theorem doubled_sorted_nat (B : List Nat) (hB : B.Sorted (fun a b => a < b)) :
    (B.flatMap (fun b => [b, b])).Sorted (fun a b => a ≤ b) := by
  induction B with
  | nil => exact List.Pairwise.nil
  | cons a B ih =>
    rw [List.flatMap_cons]
    have h1 := (List.pairwise_cons.1 hB).1
    have hrest : ∀ x ∈ B.flatMap (fun b => [b, b]), a ≤ x := by
      intro x hx
      rw [List.mem_flatMap] at hx
      obtain ⟨s, hs, hxs⟩ := hx
      have := h1 s hs
      simp only [List.mem_cons, List.mem_singleton, List.not_mem_nil, or_false, or_self] at hxs
      omega
    refine List.Pairwise.cons ?_ (List.Pairwise.cons hrest (ih (List.pairwise_cons.1 hB).2))
    intro x hx
    rcases List.mem_cons.1 hx with rfl | hx
    · exact Nat.le_refl _
    · exact hrest x hx

theorem bases_paired (B : List Nat) (hlt : ∀ b ∈ B, b < U64) :
    (pairedNames B).map parseBase = B.flatMap (fun b => [b, b]) := by
  induction B with
  | nil => rfl
  | cons a B ih =>
    have hb := hlt a (List.mem_cons_self _ _)
    unfold pairedNames at ih ⊢
    rw [List.flatMap_cons, List.flatMap_cons, List.map_append,
      ih (fun x hx => hlt x (List.mem_cons_of_mem _ hx))]
    simp [parseBase_storeName _ hb, parseBase_indexName _ hb]

theorem baseOffsets_paired (dir : Directory) (B : List Nat)
    (hB : B.Sorted (fun a b => a < b)) (hlt : ∀ b ∈ B, b < U64)
    (hnames : (dir.map Prod.fst).Perm (pairedNames B)) :
    baseOffsets dir = B.flatMap (fun b => [b, b]) := by
  unfold baseOffsets
  apply sort_of_perm _ _ _ (doubled_sorted_nat B hB)
  unfold ReadDir
  rw [← bases_paired B hlt]
  exact ((List.perm_insertionSort _ _).trans hnames).map _

theorem indexFilesClosed_of_empty (dir : Directory) (c : Config) (h : ∀ f ∈ dir, f.2 = []) :
    indexFilesClosed dir c := by
  intro b content hb
  have := h _ (lookup_some_mem dir _ _ hb)
  simp only at this
  rw [this]
  exact ⟨rfl, Nat.zero_le _⟩

/-- What `NewLog` opens. On every directory whose index files are as `Close` leaves them,
`NewLog` succeeds; it opens one segment for every second entry of the sorted base offsets
read off the file names, or a single segment at `InitialOffset` when there is no file,
and the last segment opened is the active one. When the directory holds, for each base
offset of a strictly ascending list `B` of 64-bit values, exactly the files `<b>.store`
and `<b>.index`, so that every base occurs exactly twice, the segments are exactly those
of `B`, one per base in ascending order, the one with the highest base active. -/
theorem NewLog_segments (c : Config) (dir : Directory)
    (hidx : indexFilesClosed dir c.withDefaults) :
    ∃ l, NewLog dir c = .ok l ∧
      l.bases = (if baseOffsets dir = [] then [c.InitialOffset]
        else everyOther (baseOffsets dir)) ∧
      l.segments ≠ [] ∧ l.activeSegment = l.segments.getLast? ∧
      l.segments = List.range' 0 l.heap.length ∧
      (dir = [] → l.bases = [c.InitialOffset]) ∧
      ∀ B : List Nat, B.Sorted (fun a b => a < b) → (∀ b ∈ B, b < U64) →
        (dir.map Prod.fst).Perm (pairedNames B) →
        l.bases = (if B = [] then [c.InitialOffset] else B) := by
  have key : ∃ l, NewLog dir c = .ok l ∧
      l.bases = (if baseOffsets dir = [] then [c.InitialOffset]
        else everyOther (baseOffsets dir)) ∧
      l.segments ≠ [] ∧ l.activeSegment = l.segments.getLast? ∧
      l.segments = List.range' 0 l.heap.length := by
    obtain ⟨l1, k1, k2, k3, k4, k5, k6, k7, k8⟩ :=
      loop_everyOther (baseOffsets dir) ⟨dir, c.withDefaults, [], none, []⟩ hidx
    simp only [List.map_nil, List.nil_append, List.length_nil, Nat.zero_add] at k4 k5 k6
    have hun := NewLog_unfold dir c
    rw [show ((ReadDir dir).map parseBase).insertionSort (fun a b => a ≤ b) = baseOffsets dir
      from rfl, k1] at hun
    simp only at hun
    by_cases hbs : baseOffsets dir = []
    · have hl1 := k8 hbs
      rw [hl1] at hun
      simp only [↓reduceIte] at hun
      obtain ⟨l2, s, h1, h2, h3, h4, h5, h6, h7⟩ :=
        Log_newSegment_closed ⟨dir, c.withDefaults, [], none, []⟩
          c.withDefaults.InitialOffset hidx
      simp only [List.nil_append, List.length_nil] at h3 h4 h5
      rw [h1] at hun
      refine ⟨l2, hun, ?_, ?_, ?_, ?_⟩
      · rw [if_pos hbs]
        simp only [Log.bases, Log.segs, h4, List.map_cons, List.map_nil, Log.deref, h3,
          List.getD_cons_zero, h2]
        rfl
      · rw [h4]; simp
      · rw [h4, h5]; rfl
      · rw [h4, h3]; rfl
    · have hne : everyOther (baseOffsets dir) ≠ [] := fun e => hbs ((everyOther_eq_nil _).1 e)
      have hlen : 0 < (everyOther (baseOffsets dir)).length := List.length_pos.2 hne
      have hseg : l1.segments ≠ [] := by
        rw [k6]
        intro e
        have := congrArg List.length e
        simp only [List.length_range', List.length_nil] at this
        omega
      rw [if_neg hseg] at hun
      refine ⟨l1, hun, ?_, hseg, ?_, ?_⟩
      · rw [if_neg hbs]
        have hs : l1.segs = l1.heap.drop 0 := segs_eq_drop l1 0 (by rw [k6, k5]; rfl)
        rw [Log.bases, hs, List.drop_zero, k4]
      · rw [k7 hbs, k6, List.getLast?_range', if_neg (by omega), k5]
        simp
      · rw [k6, k5]
  obtain ⟨l, h1, h2, h3, h4, h5⟩ := key
  refine ⟨l, h1, h2, h3, h4, h5, ?_, ?_⟩
  · intro hd
    rw [h2, hd]
    rfl
  · intro B hB hlt hp
    rw [h2, baseOffsets_paired dir B hB hlt hp, everyOther_doubled]
    cases B with
    | nil => rfl
    | cons b B => simp

/-- An instance of `NewLog_segments`: the directory that holds `5.index` and `5.store`; the
log has the one segment 5. -/
theorem NewLog_segments_witness :
    indexFilesClosed fiveDir zeroConfig.withDefaults ∧
    ∃ l, NewLog fiveDir zeroConfig = .ok l ∧ l.bases = [5] ∧
      l.activeSegment = l.segments.getLast? := by
  have hidx : indexFilesClosed fiveDir zeroConfig.withDefaults :=
    indexFilesClosed_of_empty _ _ (by decide)
  obtain ⟨l, h1, _, _, h4, _, _, h7⟩ := NewLog_segments zeroConfig fiveDir hidx
  exact ⟨hidx, l, h1, h7 [5] (by simp) (by decide) (by decide), h4⟩

/-! ## Failed appends do not move a segment -/

theorem map_set_same {α β : Type} (f : α → β) (d : α) (L : List α) (p : Nat) (x : α)
    (hx : f x = f (L.getD p d)) : (L.set p x).map f = L.map f := by
  induction L generalizing p with
  | nil => rfl
  | cons a L ih =>
    cases p with
    | zero =>
      simp only [List.set_cons_zero, List.map_cons, List.getD_cons_zero] at hx ⊢
      rw [hx]
    | succ p =>
      simp only [List.set_cons_succ, List.map_cons, List.getD_cons_succ] at hx ⊢
      rw [ih p hx]

theorem sameShape_deref (h : sameShape l l0) (p : Nat) :
    shape (l.deref p) = shape (l0.deref p) := by
  unfold Log.deref
  have e1 : shape (l.heap.getD p default) = (l.heap.map shape).getD p (shape default) :=
    (List.getD_map l.heap default shape).symm
  have e2 : shape (l0.heap.getD p default) = (l0.heap.map shape).getD p (shape default) :=
    (List.getD_map l0.heap default shape).symm
  rw [e1, e2, h.2.2.2.2]

theorem sameShape_symm (h : sameShape l l0) : sameShape l0 l :=
  ⟨h.1.symm, h.2.1.symm, h.2.2.1.symm, h.2.2.2.1.symm, h.2.2.2.2.symm⟩

theorem sameShape_trans (h : sameShape l l0) (h0 : sameShape l0 l1) : sameShape l l1 :=
  ⟨h.1.trans h0.1, h.2.1.trans h0.2.1, h.2.2.1.trans h0.2.2.1, h.2.2.2.1.trans h0.2.2.2.1,
    h.2.2.2.2.trans h0.2.2.2.2⟩

theorem sameShape_refl (l : Log) : sameShape l l :=
  ⟨rfl, rfl, rfl, rfl, rfl⟩

theorem truncates_shape (a b : segment) (h : shape a = shape b) (u : Nat) :
    truncates u a = truncates u b := by
  have e : a.nextOffset = b.nextOffset := congrArg (fun x => x.2.2.1) h
  simp only [truncates, e]

theorem Remove_shape (a b : segment) (h : shape a = shape b) (d : Directory) :
    a.Remove d = b.Remove d := by
  have e1 : a.index = b.index := congrArg (fun x => x.1) h
  have e2 : a.store.name = b.store.name := congrArg (fun x => x.2.2.2.2) h
  rw [Remove_eq_filter, Remove_eq_filter, e1, e2]

theorem sameShape_truncate (h : sameShape l l0) (u : Nat) :
    sameShape (l.Truncate u) (l0.Truncate u) := by
  have hf : (fun (d : Directory) (p : Nat) =>
        if truncates u (l.deref p) then (l.deref p).Remove d else d) =
      (fun (d : Directory) (p : Nat) =>
        if truncates u (l0.deref p) then (l0.deref p).Remove d else d) := by
    funext d p
    rw [truncates_shape _ _ (sameShape_deref h p), Remove_shape _ _ (sameShape_deref h p)]
  have hg : (fun (p : Nat) => !truncates u (l.deref p)) =
      (fun (p : Nat) => !truncates u (l0.deref p)) := by
    funext p
    rw [truncates_shape _ _ (sameShape_deref h p)]
  refine ⟨?_, h.2.1, ?_, h.2.2.2.1, h.2.2.2.2⟩
  · show l.segments.foldl _ l.Dir = l0.segments.foldl _ l0.Dir
    rw [hf, h.1, h.2.2.1]
  · show l.segments.filter _ = l0.segments.filter _
    rw [hg, h.2.2.1]

theorem indexFull_sameShape (l : Log) (r : Record) (h : indexFull l) :
    sameShape (l.Append r).1 l := by
  obtain ⟨p, hact, hp, hfull⟩ := h
  have hw : ∀ a b, (l.deref p).index.Write a b = .error Error.EOF := by
    intro a b
    simp only [index.Write, if_pos hfull]
  have e : l.Append r =
      (Log.mk l.Dir l.Config
        (l.heap.set p (segment.mk ((l.deref p).store.Append r.Value).1 (l.deref p).index
          (l.deref p).baseOffset (l.deref p).nextOffset (l.deref p).config))
        l.activeSegment l.segments, .error Error.EOF) := by
    simp only [Log.Append, hact, segment.Append, hw]
  rw [e]
  refine ⟨rfl, rfl, rfl, rfl, ?_⟩
  exact map_set_same shape default l.heap p _ rfl

theorem indexFull_of_sameShape (h : sameShape l l0) (hf : indexFull l0) : indexFull l := by
  obtain ⟨p, hact, hp, hfull⟩ := hf
  have hlen : l.heap.length = l0.heap.length := by
    have := congrArg List.length h.2.2.2.2
    simpa using this
  have hi : (l.deref p).index = (l0.deref p).index := congrArg (fun x => x.1) (sameShape_deref h p)
  exact ⟨p, h.2.2.2.1.trans hact, by rw [hlen]; exact hp, by rw [hi]; exact hfull⟩

theorem Called.to_reach (h : Called c l) :
    ∃ l0, Reach c l0 ∧ sameShape l l0 ∧ (l = l0 ∨ indexFull l0) := by
  induction h with
  | fresh l hc hn => exact ⟨l, Reach.fresh l hc hn, sameShape_refl l, Or.inl rfl⟩
  | append l r _ hr hb ih =>
    obtain ⟨l0, hreach, hs, hcase⟩ := ih
    rcases hcase with heq | hfull
    · subst heq
      cases hres : (l.Append r).2 with
      | ok o =>
        exact ⟨(l.Append r).1,
          Reach.append l (l.Append r).1 r o hreach hr (Prod.ext rfl hres) (hb o hres),
          sameShape_refl _, Or.inl rfl⟩
      | error e =>
        have hI := hreach.inv
        obtain ⟨init, s, hheap⟩ := heap_split l.heap hI.hHeap
        have hfull : indexFull l := by
          refine ⟨l.heap.length - 1, hI.hActive, ?_, ?_⟩
          · rw [hheap]; simp
          · rw [deref_last l init s hheap]
            by_contra hroom
            have := hI.append_result r init s hheap (by omega)
            rw [hres] at this
            exact absurd this (by simp)
        exact ⟨l, hreach, indexFull_sameShape l r hfull, Or.inr hfull⟩
    · have hfl : indexFull l := indexFull_of_sameShape hs hfull
      exact ⟨l0, hreach, sameShape_trans (indexFull_sameShape l r hfl) hs, Or.inr hfull⟩
  | truncate l u _ hu ih =>
    obtain ⟨l0, hreach, hs, hcase⟩ := ih
    refine ⟨l0.Truncate u, Reach.truncate l0 u hreach hu, sameShape_truncate hs u, ?_⟩
    rcases hcase with heq | hfull
    · exact Or.inl (by rw [heq])
    · obtain ⟨p, hact, hp, hf⟩ := hfull
      exact Or.inr ⟨p, hact, hp, hf⟩

theorem Reach.to_called (h : Reach c l) : Called c l := by
  induction h with
  | fresh l hc hn => exact Called.fresh l hc hn
  | append l l1 r o _ hr happ ho ih =>
    have e : l1 = (l.Append r).1 := by rw [happ]
    rw [e]
    refine Called.append l r ih hr ?_
    intro o1 h1
    rw [happ] at h1
    simp only [Except.ok.injEq] at h1
    omega
  | truncate l u _ hu ih => exact Called.truncate l u ih hu

theorem filter_prefix {α : Type} (T : α → Bool) (R : α → α → Prop) (L : List α)
    (hmono : ∀ a b, R a b → T b = true → T a = true) (hpw : L.Pairwise R) :
    ∃ k, L.filter (fun x => !T x) = L.drop k ∧ ∀ x ∈ L.take k, T x = true := by
  induction L with
  | nil => exact ⟨0, rfl, by simp⟩
  | cons a L ih =>
    obtain ⟨ha, hL⟩ := List.pairwise_cons.1 hpw
    cases hT : T a with
    | false =>
      refine ⟨0, ?_, by simp⟩
      rw [List.drop_zero, List.filter_eq_self]
      intro x hx
      rcases List.mem_cons.1 hx with rfl | hx
      · simp [hT]
      · cases hx2 : T x with
        | false => rfl
        | true => rw [hmono a x (ha x hx) hx2] at hT; exact absurd hT (by simp)
    | true =>
      obtain ⟨k, h1, h2⟩ := ih hL
      refine ⟨k + 1, ?_, ?_⟩
      · rw [List.filter_cons_of_neg (by simp [hT]), h1]
        rfl
      · intro x hx
        simp only [List.take_succ_cons, List.mem_cons] at hx
        rcases hx with rfl | hx
        · exact hT
        · exact h2 x hx

/-! ## More than `2 ^ 32` entries in one index -/

theorem newSegment_truncated (D : Directory) (c : Config) (s : segment)
    (ps : List (List Byte)) (hs : SegOK c s ps) (hne : 0 < ps.length)
    (h1 : D.lookup (storeName s.baseOffset) = some s.store.buf)
    (h2 : D.lookup (indexName s.baseOffset) = some s.index.mmap) :
    ∃ s1, newSegment D s.baseOffset c = .ok (s1, D) ∧
      s1.nextOffset = (s.baseOffset + (ps.length - 1) % 256 ^ offWidth + 1) % U64 := by
  have hmlen : s.index.mmap.length = s.index.size := by
    rw [hs.hMmap, entries_length, hs.hISize]
  have htake : s.index.mmap.take c.MaxIndexBytes = s.index.mmap := by
    apply List.take_of_length_le
    rw [hmlen, ← hs.hCap]
    exact hs.hFits
  have hread := index_Read_last (newIndex (indexName s.baseOffset) s.index.mmap c) ps
    (by simp only [newIndex, htake]; exact hs.hMmap)
    (by simp only [newIndex, hmlen]; exact hs.hISize) hne
  unfold newSegment Directory.openCreate
  simp only [h1, h2, hread]
  exact ⟨_, rfl, rfl⟩

theorem reopen_single (c : Config) (l : Log) (s : segment) (ps : List (List Byte))
    (hI : Inv l) (hheap : l.heap = [s]) (hsegs : l.segments = [0])
    (hs : SegOK c.withDefaults s ps) (hne : 0 < ps.length) :
    ∃ l1 s1, NewLog l.Close.Dir c = .ok l1 ∧ l1.segs = [s1] ∧
      s1.nextOffset = (s.baseOffset + (ps.length - 1) % 256 ^ offWidth + 1) % U64 := by
  have hseg1 : l.segs = [s] := by
    simp [Log.segs, hsegs, Log.deref, hheap]
  have hD : l.Close.Dir = [s].flatMap closedFiles := by rw [hI.Close_dir, hseg1]
  have hnamed : Named [s] := by rw [← hseg1]; exact hI.named
  have hpw : [s].Pairwise (fun a b => a.baseOffset ≠ b.baseOffset) := List.pairwise_singleton _ _
  have hpw2 : [s].Pairwise (fun a b => a.baseOffset < b.baseOffset) := List.pairwise_singleton _ _
  obtain ⟨k1, k2⟩ := lookup_closedFiles [s] hnamed hpw s (List.mem_singleton.2 rfl)
  obtain ⟨s1, hn, hnext⟩ := newSegment_truncated ([s].flatMap closedFiles) c.withDefaults s ps
    hs hne k1 k2
  have hb : ([s].flatMap (fun s => [s.baseOffset, s.baseOffset])) =
      [s.baseOffset, s.baseOffset] := by simp
  rw [NewLog_unfold, hD, baseOffsets_closed [s] hnamed hpw2, hb]
  refine ⟨Log.mk ([s].flatMap closedFiles) c.withDefaults [s1] (some 0) [0], s1, ?_, ?_, hnext⟩
  · simp only [NewLog.loop, Log.newSegment, hn, List.nil_append, List.length_nil]
    simp
  · simp [Log.segs, Log.deref]

theorem frames_replicate_nil (k : Nat) : (frames (List.replicate k [])).length = 8 * k := by
  rw [frames_length]
  induction k with
  | zero => rfl
  | succ k ih =>
    rw [List.replicate_succ, List.map_cons, List.sum_cons, ih]
    simp only [lenWidth, List.length_nil]
    omega

theorem big_appends (m k : Nat) (l : Log) (s : segment) (hl : Appended bigIndexConfig l)
    (hheap : l.heap = [s]) (hs : SegOK bigIndexConfig s (List.replicate k []))
    (hb : s.baseOffset = 0) (hkm : k + m ≤ 4294967297) :
    ∃ s1, (appendAll l (List.replicate m emptyRecord)).1.heap = [s1] ∧
      SegOK bigIndexConfig s1 (List.replicate (k + m) []) ∧ s1.baseOffset = 0 ∧
      Appended bigIndexConfig (appendAll l (List.replicate m emptyRecord)).1 := by
  induction m generalizing k l s with
  | zero => exact ⟨s, hheap, hs, hb, hl⟩
  | succ m ih =>
    have hI := hl.reach.inv
    have hw : entWidth = 12 := rfl
    have hU : U64 = 18446744073709551616 := by decide
    have hnext : s.nextOffset = k := by
      rw [hs.hNext, hb, List.length_replicate, Nat.zero_add]
    have hisz : s.index.size = 12 * k := by
      rw [hs.hISize, List.length_replicate, hw]
    have hcap : s.index.cap = 12 * 4294967298 := by
      rw [hs.hCap]; rfl
    have hroom : s.index.size + entWidth ≤ s.index.cap := by
      rw [hisz, hcap, hw]; omega
    have hn1 : s.nextOffset + 1 < U64 := by rw [hnext, hU]; omega
    have hr : emptyRecord.Value.length < U64 := by decide
    have hpos : s.store.size < U64 := by
      rw [hs.hSize, frames_replicate_nil, hU]; omega
    obtain ⟨a1, _, a3, _⟩ := hI.append emptyRecord hr [] s hheap hn1 hroom
    obtain ⟨b1, b2, _⟩ := segment_Append_ok bigIndexConfig s _ hs emptyRecord hr hpos hn1 hroom
    have hrep : List.replicate k ([] : List Byte) ++ [emptyRecord.Value] =
        List.replicate (k + 1) [] := (List.replicate_succ' k []).symm
    rw [hrep] at b1
    have hnm : (s.Append emptyRecord).1.IsMaxed = false := by
      have e1 : (s.Append emptyRecord).1.store.size = 8 * (k + 1) := by
        rw [b1.hSize, frames_replicate_nil]
      have e2 : (s.Append emptyRecord).1.index.size = 12 * (k + 1) := by
        rw [b1.hISize, List.length_replicate, hw]
      have e3 : (s.Append emptyRecord).1.config = bigIndexConfig := b1.hConfig
      simp only [segment.IsMaxed, e1, e2, e3, bigIndexConfig, Bool.or_eq_false_iff,
        decide_eq_false_iff_not]
      constructor <;> omega
    have hstate := a3 hnm
    have happ : l.Append emptyRecord = ((l.Append emptyRecord).1, .ok s.nextOffset) :=
      Prod.ext rfl a1
    have hl1 : Appended bigIndexConfig (l.Append emptyRecord).1 :=
      Appended.append l _ emptyRecord s.nextOffset hl hr happ hn1
    have hheap1 : (l.Append emptyRecord).1.heap = [(s.Append emptyRecord).1] := by
      rw [hstate]; rfl
    obtain ⟨s1, c1, c2, c3, c4⟩ := ih (k + 1) (l.Append emptyRecord).1 _ hl1 hheap1 b1
      (b2.trans hb) (by omega)
    refine ⟨s1, c1, ?_, c3, c4⟩
    have e : k + (m + 1) = k + 1 + m := by omega
    rw [e]
    exact c2

theorem Appended.next_zero (h : Appended c l) (init : List segment) (s : segment)
    (hheap : l.heap = init ++ [s]) (hz : s.nextOffset = 0) :
    l = freshLog c ∧ c.InitialOffset = 0 := by
  cases h with
  | fresh _ hv hn =>
    rw [NewLog_empty] at hn
    simp only [Except.ok.injEq] at hn
    subst hn
    refine ⟨rfl, ?_⟩
    have h2 : [] ++ [emptySegment c.InitialOffset c.withDefaults] = init ++ [s] := hheap
    have h3 := (List.append_inj' h2 rfl).2
    simp only [List.cons.injEq, and_true] at h3
    rw [← h3] at hz
    exact hz
  | append l0 _ r o h0 hr happ ho =>
    exfalso
    have hI0 := h0.reach.inv
    obtain ⟨_, init0, s0, hheap0, ho2, hroom⟩ := hI0.append_ok r hr l o happ ho
    obtain ⟨init1, s1, hh1, hn1⟩ := hI0.last_next_append r hr init0 s0 hheap0
      (by rw [← ho2]; exact ho) hroom
    rw [happ] at hh1
    simp only at hh1
    rw [hheap] at hh1
    have h3 := (List.append_inj' hh1 rfl).2
    simp only [List.cons.injEq, and_true] at h3
    rw [h3, hn1] at hz
    omega

theorem emptyAppended_spec (N : Nat) (hpos : 0 < N) (hle : N ≤ 4294967297) :
    Appended bigIndexConfig (emptyAppended N) ∧
    (emptyAppended N).HighestOffset = .ok (N - 1) ∧
    ∃ l1, NewLog (emptyAppended N).Close.Dir bigIndexConfig = .ok l1 ∧
      l1.HighestOffset = .ok ((N - 1) % 256 ^ offWidth) := by
  have hcfg : bigIndexConfig.withDefaults = bigIndexConfig := by decide
  have h0 : Appended bigIndexConfig (freshLog bigIndexConfig) :=
    Appended.fresh _ (by decide) (NewLog_empty _)
  have hs0 : SegOK bigIndexConfig (emptySegment 0 bigIndexConfig) (List.replicate 0 []) :=
    SegOK_empty 0 bigIndexConfig (by decide)
  have hh0 : (freshLog bigIndexConfig).heap = [emptySegment 0 bigIndexConfig] := by
    rw [freshLog, hcfg]
    rfl
  obtain ⟨s1, c1, c2, c3, c4⟩ := big_appends N 0 (freshLog bigIndexConfig)
    (emptySegment 0 bigIndexConfig) h0 hh0 hs0 rfl (by omega)
  have hb : emptyAppended N =
      (appendAll (freshLog bigIndexConfig) (List.replicate N emptyRecord)).1 := rfl
  rw [← hb] at c1 c4
  rw [Nat.zero_add] at c2
  have hI := c4.reach.inv
  have hsegs : (emptyAppended N).segments = [0] := by
    rw [c4.segments_eq, c1]
    rfl
  have hS : (emptyAppended N).segs = [s1] := by
    rw [segs_of_range _ c4.segments_eq, c1]
  have hnext : s1.nextOffset = N := by
    rw [c2.hNext, c3, List.length_replicate, Nat.zero_add]
  refine ⟨c4, ?_, ?_⟩
  · rw [HighestOffset_segs, hS]
    simp only [List.getLast?_singleton, hnext]
    rw [if_neg (by omega)]
  · obtain ⟨l1, s2, k1, k2, k3⟩ := reopen_single bigIndexConfig (emptyAppended N) s1
      (List.replicate N []) hI c1 hsegs (by rw [hcfg]; exact c2)
      (by rw [List.length_replicate]; exact hpos)
    refine ⟨l1, k1, ?_⟩
    rw [c3, List.length_replicate, Nat.zero_add] at k3
    have hw : (256 : Nat) ^ offWidth = 4294967296 := by decide
    have hU : U64 = 18446744073709551616 := by decide
    have hlt : (N - 1) % 256 ^ offWidth < 4294967296 := by
      rw [hw]
      exact Nat.mod_lt _ (by omega)
    have k4 : s2.nextOffset = (N - 1) % 256 ^ offWidth + 1 := by
      rw [k3, hU]
      exact Nat.mod_eq_of_lt (by omega)
    rw [HighestOffset_segs, k2]
    simp only [List.getLast?_singleton, k4]
    rw [if_neg (by omega)]
    rfl

/-! ## The claims -/

/-- C1 fails as stated at the last 64-bit offset: on a log opened with
`InitialOffset = 2 ^ 64 - 1` the first `Append` succeeds and returns `2 ^ 64 - 1`, the
segment's `nextOffset` wraps to 0, and `Read(2 ^ 64 - 1)` fails with "offset out of range"
although nothing was truncated. -/
theorem Append_Read_wraps :
    NewLog [] wrapConfig = .ok (freshLog wrapConfig) ∧
    ((freshLog wrapConfig).Append tenBytes).2 = .ok (2 ^ 64 - 1) ∧
    ((freshLog wrapConfig).Append tenBytes).1.segments = [0] ∧
    ((freshLog wrapConfig).Append tenBytes).1.Read (2 ^ 64 - 1) =
      .error (Error.offsetOutOfRange (2 ^ 64 - 1)) := by
  decide

/-- C1 as amended: in a log opened on an empty directory, as long as the offsets assigned
stay below `2 ^ 64 - 1`: if `Append(r)` succeeds and returns `o`, then after any further
successful appends (rotating or not) and truncations that have not removed the segment
into which `r` was appended, `Read(o)` succeeds and returns the value of `r` at offset
`o`. -/
theorem Append_Read_round_trip (c : Config) (l l1 l2 : Log) (r : Record) (o p : Nat)
    (hl : Reach c l) (hr : r.Value.length < U64) (happ : l.Append r = (l1, .ok o))
    (ho : o + 1 < U64) (hsteps : Steps l1 l2) (hp : l.activeSegment = some p)
    (hkept : p ∈ l2.segments) :
    l2.Read o = .ok { Value := r.Value, Offset := o } := by
  have hI := hl.inv
  have hl1 : Reach c l1 := Reach.append l l1 r o hl hr happ ho
  have hI2 := (hl1.steps hsteps).inv
  obtain ⟨_, init, s, hheap, ho2, hroom⟩ := hI.append_ok r hr l1 o happ ho
  subst ho2
  obtain ⟨ps, hs⟩ := hI.hSegs s (by rw [hheap]; simp)
  have hpos := hI.store_size_lt init s hheap
  obtain ⟨hok, hbase, _⟩ := segment_Append_ok l.Config s ps hs r hr hpos ho hroom
  have hd := Append_deref_last l init s r hheap hI.hActive
  rw [happ] at hd
  simp only at hd
  have hlen : l.heap.length = init.length + 1 := by rw [hheap]; simp
  have hpe : p = init.length := by
    rw [hI.hActive, hlen] at hp
    simpa using hp.symm
  subst hpe
  have hk1 : ps.length < (ps ++ [r.Value]).length := by simp
  have hc1 : covers s.nextOffset (l1.deref init.length) := by
    rw [hd]
    exact (hok.covers_iff _).2 ⟨ps.length, hk1, by rw [hbase, hs.hNext]⟩
  have hr1 : (l1.deref init.length).Read s.nextOffset =
      .ok { Value := r.Value, Offset := s.nextOffset } := by
    rw [hd]
    have := segment_Read_ok l.Config _ _ hok ps.length hk1
    rw [hbase, ← hs.hNext] at this
    rw [this]
    simp
  have hp1 : init.length < l1.heap.length := by
    have := hl1.inv.hHeap
    by_contra hcon
    have hnone : l1.deref init.length = default := by
      unfold Log.deref
      rw [List.getD_eq_getElem?_getD, List.getElem?_eq_none (by omega)]
      rfl
    rw [hnone] at hc1
    have h1 := hc1.1; have h2 := hc1.2
    have h3 : (default : segment).nextOffset = 0 := rfl
    omega
  obtain ⟨_, hc2, hr2⟩ := Steps.keeps_all hl1 hsteps init.length s.nextOffset hp1 hc1
  rw [hI2.Read_of_ptr s.nextOffset init.length hkept hc2, hr2, hr1]

/-- Witness of `Append_Read_round_trip`: the first record of the rotation scenario is
still read back after the second append has rotated the segment. -/
theorem Append_Read_round_trip_witness :
    twoTenBytes.Read 0 = .ok { Value := tenBytes.Value, Offset := 0 } :=
  Append_Read_round_trip rotatingConfig (freshLog rotatingConfig) oneTenBytes twoTenBytes
    tenBytes 0 0 (Reach.fresh (freshLog rotatingConfig) (by decide) (by decide)) (by decide)
    (by decide) (by decide)
    (Steps.tail oneTenBytes oneTenBytes twoTenBytes (Steps.refl oneTenBytes)
      (Step.append oneTenBytes twoTenBytes tenBytes 1 (by decide) (by decide) (by decide)))
    (by decide) (by decide)

/-- C2: on a log freshly opened on an empty directory with `InitialOffset = i`, the
successful calls of `Append`, counted from 0, return `i + k` for the `k`-th of them as
long as `i + k < 2 ^ 64`; hence consecutive successful calls return offsets that differ by
exactly 1, whether or not a call in between rotated the active segment. -/
theorem Append_offsets_consecutive (c : Config) (hc : c.valid) (l : Log)
    (hl : NewLog [] c = .ok l) (rs : List Record) (hrs : ∀ r ∈ rs, r.Value.length < U64)
    (k : Nat) (hk : k < (okOffsets (appendAll l rs).2).length)
    (hlt : c.InitialOffset + k < U64) :
    (okOffsets (appendAll l rs).2)[k] = c.InitialOffset + k ∧
    ∀ (hk1 : k + 1 < (okOffsets (appendAll l rs).2).length), c.InitialOffset + (k + 1) < U64 →
      (okOffsets (appendAll l rs).2)[k + 1] = (okOffsets (appendAll l rs).2)[k] + 1 := by
  rw [NewLog_empty] at hl
  simp only [Except.ok.injEq] at hl
  subst hl
  have hI := Inv_fresh c hc
  have hb : ∀ init s, (freshLog c).heap = init ++ [s] → s.nextOffset = c.InitialOffset := by
    intro init s h
    have h2 : [] ++ [emptySegment c.InitialOffset c.withDefaults] = init ++ [s] := h
    have := List.append_inj_right' h2 rfl
    simp only [List.cons.injEq, and_true] at this
    rw [← this]; rfl
  have h0 := okOffsets_from rs (freshLog c) c.InitialOffset hI hrs hb k hk hlt
  refine ⟨h0, ?_⟩
  intro hk1 hlt1
  rw [okOffsets_from rs (freshLog c) c.InitialOffset hI hrs hb (k + 1) hk1 hlt1, h0]
  omega

/-- Witness of `Append_offsets_consecutive`: three appends of ten bytes with stores of at
most 32 bytes; the second append rotates the segment, the offsets are 0, 1, 2. -/
theorem Append_offsets_consecutive_witness :
    okOffsets (appendAll (freshLog rotatingConfig) [tenBytes, tenBytes, tenBytes]).2 = [0, 1, 2] ∧
    (appendAll (freshLog rotatingConfig) [tenBytes, tenBytes, tenBytes]).1.segments = [0, 1] ∧
    (okOffsets (appendAll (freshLog rotatingConfig) [tenBytes, tenBytes, tenBytes]).2)[2]
      = rotatingConfig.InitialOffset + 2 :=
  ⟨by decide, by decide,
   (Append_offsets_consecutive rotatingConfig (by decide) (freshLog rotatingConfig) (by decide)
      [tenBytes, tenBytes, tenBytes] (by decide) 2 (by decide) (by decide)).1⟩

/-- C3: `Log.Read(off)` fails with "offset out of range" exactly when no segment of the
log satisfies `baseOffset ≤ off < nextOffset`; when a segment covers `off` the result is
the result of reading `off` from a segment that covers it. On a log freshly opened with
`InitialOffset = 0`, `Read(0)` fails with "offset out of range". -/
theorem Log_Read_out_of_range_iff (l : Log) (off : Nat) :
    (l.Read off = .error (Error.offsetOutOfRange off) ↔ ∀ s ∈ l.segs, ¬ covers off s) ∧
    ((∃ s ∈ l.segs, covers off s) → ∃ s ∈ l.segs, covers off s ∧ l.Read off = s.Read off) ∧
    (∀ c : Config, c.InitialOffset = 0 →
      ∃ l0, NewLog [] c = .ok l0 ∧ l0.Read 0 = .error (Error.offsetOutOfRange 0)) := by
  have hR := Log_Read_segs l off
  refine ⟨⟨?_, ?_⟩, ?_, ?_⟩
  · intro h s hs hc
    cases hf : l.segs.find? (fun s => decide (covers off s)) with
    | none =>
      rw [List.find?_eq_none] at hf
      exact hf s hs (by simpa using hc)
    | some s0 =>
      rw [hf] at hR
      simp only at hR
      rw [hR] at h
      exact segment_Read_ne_range s0 off off h
  · intro h
    have hf : l.segs.find? (fun s => decide (covers off s)) = none := by
      rw [List.find?_eq_none]
      intro s hs
      simpa using h s hs
    rw [hR, hf]
  · rintro ⟨s, hs, hc⟩
    cases hf : l.segs.find? (fun s => decide (covers off s)) with
    | none =>
      rw [List.find?_eq_none] at hf
      exact absurd (by simpa using hc) (hf s hs)
    | some s0 =>
      rw [hf] at hR
      exact ⟨s0, List.mem_of_find?_eq_some hf, by simpa using List.find?_some hf, hR⟩
  · intro c hc
    refine ⟨freshLog c, NewLog_empty c, ?_⟩
    rw [Log_Read_segs, segs_fresh]
    simp [covers, emptySegment, hc]

/-- C4 fails as stated at the last 64-bit offset: with `InitialOffset = 2 ^ 64 - 1` the
first `Append` returns `o = 2 ^ 64 - 1` and leaves the segment maxed, the new segment has
base offset 0 and the next `Append` returns 0, not `o + 1`. -/
theorem Append_rotation_wraps :
    NewLog [] lastOffsetConfig = .ok (freshLog lastOffsetConfig) ∧
    ((freshLog lastOffsetConfig).Append tenBytes).2 = .ok (2 ^ 64 - 1) ∧
    (((freshLog lastOffsetConfig).Append tenBytes).1.deref 0).IsMaxed = true ∧
    ((freshLog lastOffsetConfig).Append tenBytes).1.segments = [0, 1] ∧
    (((freshLog lastOffsetConfig).Append tenBytes).1.deref 1).baseOffset = 0 ∧
    (((freshLog lastOffsetConfig).Append tenBytes).1.Append tenBytes).2 = .ok 0 ∧
    (0 : Nat) ≠ (2 ^ 64 - 1) + 1 := by
  decide

/-- C4 as amended: in a log opened on an empty directory whose offsets have stayed below
`2 ^ 64 - 1`, let a successful `Append` return `o < 2 ^ 64 - 1`. If it leaves the active
segment maxed, exactly one segment is added at the end of the segment list; it is empty,
has base offset `o + 1` and is the active segment, so the next `Append` returns `o + 1`
and its record is the first frame of that segment's store. If the active segment is not
maxed, the segment list and the active segment are unchanged. -/
theorem Append_rotation (c : Config) (l l1 : Log) (r : Record) (o : Nat)
    (hl : Reach c l) (hr : r.Value.length < U64) (happ : l.Append r = (l1, .ok o))
    (ho : o + 1 < U64) :
    ∃ p, l.activeSegment = some p ∧
      ((l1.deref p).IsMaxed = true →
        l1.segments = l.segments ++ [l.heap.length] ∧
        l1.activeSegment = some l.heap.length ∧
        l1.deref l.heap.length = emptySegment (o + 1) l.Config ∧
        ∀ r2 : Record, (l1.Append r2).2 = .ok (o + 1) ∧
          ((l1.Append r2).1.deref l.heap.length).baseOffset = o + 1 ∧
          ((l1.Append r2).1.deref l.heap.length).store.buf = frame r2.Value) ∧
      ((l1.deref p).IsMaxed = false →
        l1.segments = l.segments ∧ l1.activeSegment = l.activeSegment) := by
  have hI := hl.inv
  obtain ⟨hI1, init, s, hheap, ho2, hroom⟩ := hI.append_ok r hr l1 o happ ho
  subst ho2
  obtain ⟨_, _, h3, h4⟩ := hI.append r hr init s hheap ho hroom
  have hd := Append_deref_last l init s r hheap hI.hActive
  rw [happ] at h3 h4 hd
  simp only at h3 h4 hd
  have hlen : l.heap.length = init.length + 1 := by rw [hheap]; simp
  refine ⟨init.length, by rw [hI.hActive, hlen]; rfl, ?_, ?_⟩
  · intro hm
    rw [hd] at hm
    have e := h4 hm
    have hh1 : l1.heap = (init ++ [(s.Append r).1]) ++ [emptySegment (s.nextOffset + 1) l.Config] := by
      rw [e]
    have hact1 : l1.activeSegment = some (l1.heap.length - 1) := hI1.hActive
    refine ⟨by rw [e, hlen], by rw [e, hlen], ?_, ?_⟩
    · rw [hlen]
      have := getD_append_mid (init ++ [(s.Append r).1])
        (emptySegment (s.nextOffset + 1) l.Config) []
      rw [List.append_nil] at this
      simp only [List.length_append, List.length_singleton] at this
      unfold Log.deref
      rw [hh1]
      exact this
    · intro r2
      obtain ⟨ps, hs⟩ := hI.hSegs s (by rw [hheap]; simp)
      have hcap : l.Config.MaxIndexBytes ≥ entWidth := by
        have := hs.hCap
        omega
      have hroom2 : (emptySegment (s.nextOffset + 1) l.Config).index.size + entWidth ≤
          (emptySegment (s.nextOffset + 1) l.Config).index.cap := by
        show 0 + entWidth ≤ l.Config.MaxIndexBytes
        omega
      have hres := hI1.append_result r2 _ _ hh1 hroom2
      have hd2 := Append_deref_last l1 _ _ r2 hh1 hact1
      simp only [List.length_append, List.length_singleton] at hd2
      rw [hlen, hd2, segment_Append_eq _ r2 hroom2]
      refine ⟨hres, rfl, ?_⟩
      show ([] : List Byte) ++ putUint lenWidth r2.Value.length ++ r2.Value = frame r2.Value
      simp [frame]
  · intro hm
    rw [hd] at hm
    have e := h3 hm
    rw [e]
    exact ⟨rfl, rfl⟩

/-- Witness of `Append_rotation`: the second append of the rotation scenario returns 1
and fills the first segment. -/
theorem Append_rotation_witness :
    ∃ p, oneTenBytes.activeSegment = some p ∧
      ((twoTenBytes.deref p).IsMaxed = true →
        twoTenBytes.segments = oneTenBytes.segments ++ [oneTenBytes.heap.length] ∧
        twoTenBytes.activeSegment = some oneTenBytes.heap.length ∧
        twoTenBytes.deref oneTenBytes.heap.length = emptySegment (1 + 1) oneTenBytes.Config ∧
        ∀ r2 : Record, (twoTenBytes.Append r2).2 = .ok (1 + 1) ∧
          ((twoTenBytes.Append r2).1.deref oneTenBytes.heap.length).baseOffset = 1 + 1 ∧
          ((twoTenBytes.Append r2).1.deref oneTenBytes.heap.length).store.buf = frame r2.Value) ∧
      ((twoTenBytes.deref p).IsMaxed = false →
        twoTenBytes.segments = oneTenBytes.segments ∧
          twoTenBytes.activeSegment = oneTenBytes.activeSegment) :=
  Append_rotation rotatingConfig oneTenBytes twoTenBytes tenBytes 1
    (Reach.append (freshLog rotatingConfig) oneTenBytes tenBytes 0
      (Reach.fresh (freshLog rotatingConfig) (by decide) (by decide)) (by decide) (by decide)
      (by decide))
    (by decide) (by decide) (by decide)

/-- C5 fails as stated in three places. On the log that is still empty with
`InitialOffset = 0`, reached by zero appends, `HighestOffset` is 0 and after `Close` and
`NewLog` the next `Append` returns 0, not `HighestOffset + 1`. On the log opened with
`InitialOffset = 2 ^ 64 - 1` that holds the one record of offset `2 ^ 64 - 1`, the next
offset has wrapped to 0: `HighestOffset` is 0 and the next `Append` after the reopen
returns 0. On the log that holds `2 ^ 32 + 1` records in one segment, the relative offset
of the last index entry does not fit its four bytes: `HighestOffset` is `2 ^ 32` before
the close and 0 after the reopen. -/
theorem reopen_not_persistent :
    NewLog [] zeroConfig = .ok (freshLog zeroConfig) ∧
    NewLog (freshLog zeroConfig).Close.Dir zeroConfig = .ok (freshLog zeroConfig).Close ∧
    (freshLog zeroConfig).HighestOffset = .ok 0 ∧
    ((freshLog zeroConfig).Close.Append hello).2 = .ok 0 ∧
    (0 : Nat) ≠ 0 + 1 ∧
    NewLog [] wrapConfig = .ok (freshLog wrapConfig) ∧
    ((freshLog wrapConfig).Append tenBytes).2 = .ok (2 ^ 64 - 1) ∧
    ((freshLog wrapConfig).Append tenBytes).1.HighestOffset = .ok 0 ∧
    (NewLog ((freshLog wrapConfig).Append tenBytes).1.Close.Dir wrapConfig).map
      (fun l1 => (l1.Append hello).2) = .ok (.ok 0) ∧
    Appended bigIndexConfig (emptyAppended (2 ^ 32 + 1)) ∧
    (emptyAppended (2 ^ 32 + 1)).HighestOffset = .ok (2 ^ 32) ∧
    (∃ l1, NewLog (emptyAppended (2 ^ 32 + 1)).Close.Dir bigIndexConfig = .ok l1 ∧
      l1.HighestOffset = .ok 0) := by
  have hN : (2 : Nat) ^ 32 + 1 ≤ 4294967297 := by norm_num
  have e1 : (2 : Nat) ^ 32 + 1 - 1 = 2 ^ 32 := by norm_num
  have e2 : ((2 : Nat) ^ 32 + 1 - 1) % 256 ^ offWidth = 0 := by
    rw [e1]
    decide
  obtain ⟨b1, b2, l1, b3, b4⟩ := emptyAppended_spec (2 ^ 32 + 1) (by omega) hN
  rw [e1] at b2
  rw [e2] at b4
  exact ⟨by decide, by decide, by decide, by decide, by decide, by decide, by decide,
    by decide, by decide, b1, b2, l1, b3, b4⟩

/-- C5 as amended: for every state of a log opened on an empty directory that is reached
by successful appends (with any rotations) assigning offsets below `2 ^ 64 - 1`, with at
most `2 ^ 32` entries per index (`MaxIndexBytes ≤ 12 * 2 ^ 32`): `Close` followed by
`NewLog` on the same directory with the same config succeeds and yields a log with the
same `LowestOffset`, the same `HighestOffset` and the same result of every `Read(o)`; an
`Append` that would have succeeded before the close with an offset below `2 ^ 64 - 1`
succeeds with the same offset, and the offset of a successful next `Append` is the
pre-close `HighestOffset + 1`, except on the log that is still empty with
`InitialOffset = 0`, and only there: on it `HighestOffset` is 0 and the next offset
is 0. -/
theorem reopen_persistence (c : Config) (l : Log) (hl : Appended c l)
    (hcap : c.withDefaults.MaxIndexBytes ≤ entWidth * 2 ^ 32) :
    ∃ l1, NewLog l.Close.Dir c = .ok l1 ∧
      l1.LowestOffset = l.LowestOffset ∧ l1.HighestOffset = l.HighestOffset ∧
      (∀ o, l1.Read o = l.Read o) ∧
      (∀ r o, (l.Append r).2 = .ok o → o + 1 < U64 → (l1.Append r).2 = .ok o) ∧
      (∀ r o h, (l1.Append r).2 = .ok o → l.HighestOffset = .ok h →
        (l ≠ freshLog c ∨ c.InitialOffset ≠ 0) → o = h + 1) ∧
      (l = freshLog c → c.InitialOffset = 0 →
        l.HighestOffset = .ok 0 ∧ ∀ r o, (l1.Append r).2 = .ok o → o = 0) := by
  have hI := hl.reach.inv
  have hsegs := segs_of_range l hl.segments_eq
  obtain ⟨init, s, hheap⟩ := heap_split l.heap hI.hHeap
  have hactC : l.Close.activeSegment = some (l.Close.heap.length - 1) := hI.hActive
  refine ⟨l.Close, hl.reopen hcap, rfl, rfl, fun _ => rfl, ?_, ?_, ?_⟩
  · intro r o hres ho
    obtain ⟨ho2, hroom⟩ := Append_ok_offset l init s r o hheap hI.hActive hres
    subst ho2
    have hnames : storeName (s.nextOffset + 1) ∉ l.Close.Dir.map Prod.fst ∧
        indexName (s.nextOffset + 1) ∉ l.Close.Dir.map Prod.fst := by
      have := hI.fresh_names (s.nextOffset + 1) ho (hI.heap_bases_lt init s hheap)
      rw [hI.Close_dir, names_closed, ← hI.hDir]
      exact this
    rw [Append_result_unfold l.Close init s r hheap hactC, segment_Append_eq s r hroom]
    simp only [Nat.mod_eq_of_lt ho,
      newSegment_absent l.Close.Dir (s.nextOffset + 1) l.Close.Config hnames.1 hnames.2]
    split <;> rfl
  · intro r o h hres hh hne
    obtain ⟨ho2, _⟩ := Append_ok_offset l.Close init s r o hheap hactC hres
    rw [HighestOffset_segs, hsegs, hheap, List.getLast?_concat] at hh
    simp only at hh
    split at hh
    · next hz =>
      obtain ⟨e1, e2⟩ := hl.next_zero init s hheap hz
      rcases hne with hne | hne
      · exact absurd e1 hne
      · exact absurd e2 hne
    · simp only [Except.ok.injEq] at hh
      omega
  · intro hfr hi0
    have hs0 : s = emptySegment c.InitialOffset c.withDefaults := by
      have h2 : init ++ [s] = [] ++ [emptySegment c.InitialOffset c.withDefaults] := by
        rw [← hheap, hfr]
        rfl
      have h3 := (List.append_inj' h2 rfl).2
      simpa using h3
    have hz : s.nextOffset = 0 := by rw [hs0]; exact hi0
    refine ⟨?_, ?_⟩
    · rw [HighestOffset_segs, hsegs, hheap, List.getLast?_concat]
      simp only [hz, if_true]
    · intro r o hres
      obtain ⟨ho2, _⟩ := Append_ok_offset l.Close init s r o hheap hactC hres
      rw [ho2, hz]

/-- Witness of `reopen_persistence`, the persistence scenario: after `Append("hello")` and
`Append("world")`, `Close` and reopen; the highest offset is 1, `Read(1)` is "world" and
the next `Append` returns 2. -/
theorem reopen_persistence_witness :
    (∃ l1, NewLog helloWorldLog.Close.Dir zeroConfig = .ok l1 ∧
      l1.LowestOffset = helloWorldLog.LowestOffset ∧
      l1.HighestOffset = helloWorldLog.HighestOffset ∧
      (∀ o, l1.Read o = helloWorldLog.Read o) ∧
      (∀ r o, (helloWorldLog.Append r).2 = .ok o → o + 1 < U64 → (l1.Append r).2 = .ok o) ∧
      (∀ r o h, (l1.Append r).2 = .ok o → helloWorldLog.HighestOffset = .ok h →
        (helloWorldLog ≠ freshLog zeroConfig ∨ zeroConfig.InitialOffset ≠ 0) → o = h + 1) ∧
      (helloWorldLog = freshLog zeroConfig → zeroConfig.InitialOffset = 0 →
        helloWorldLog.HighestOffset = .ok 0 ∧ ∀ r o, (l1.Append r).2 = .ok o → o = 0)) ∧
    helloWorldLog.HighestOffset = .ok 1 ∧
    helloWorldLog.Read 1 = .ok { Value := world.Value, Offset := 1 } ∧
    (helloWorldLog.Append hello).2 = .ok 2 :=
  ⟨reopen_persistence zeroConfig helloWorldLog
    (Appended.append helloLog helloWorldLog world 1
      (Appended.append (freshLog zeroConfig) helloLog hello 0
        (Appended.fresh (freshLog zeroConfig) (by decide) (by decide))
        (by decide) (by decide) (by decide))
      (by decide) (by decide) (by decide))
    (by decide), by decide, by decide, by decide⟩

/-- C6 fails as stated once the offsets have wrapped: after four appends on a log opened
with `InitialOffset = 2 ^ 64 - 2` the only segment holds the offsets `2 ^ 64 - 2`,
`2 ^ 64 - 1`, 0 and 1; `Truncate(0)` retains it, yet `Read(0)` and `Read(1)`, offsets
stored in the retained segment, fail with "offset out of range". -/
theorem Truncate_retained_unreadable :
    okOffsets (appendAll (freshLog wrapTwoConfig) (List.replicate 4 tenBytes)).2 =
      [2 ^ 64 - 2, 2 ^ 64 - 1, 0, 1] ∧
    wrapFour.segments = [0] ∧
    (wrapFour.Truncate 0).segments = [0] ∧
    (wrapFour.Truncate 0).Read 0 = .error (Error.offsetOutOfRange 0) ∧
    (wrapFour.Truncate 0).Read 1 = .error (Error.offsetOutOfRange 1) := by
  decide

/-- C6 as amended: in a log opened on an empty directory whose offsets have stayed below
`2 ^ 64 - 1`, after `Truncate(u)` with `u < 2 ^ 64 - 1`: (1) `Read(o)` with `o ≤ u` fails
with "offset out of range" when every segment that covered `o` lay at or below `u`;
(2) `Read(o)` with `o` above the `HighestOffset` before the truncate fails with "offset out
of range"; (3) `Read(o)` for an offset covered by a retained segment succeeds and returns
the same record as before the truncate. -/
theorem Truncate_read_semantics (c : Config) (l : Log) (u : Nat) (hl : Reach c l)
    (hu : u + 1 < U64) :
    (∀ o, o ≤ u → (∀ s ∈ l.segs, covers o s → s.nextOffset ≤ u + 1) →
      (l.Truncate u).Read o = .error (Error.offsetOutOfRange o)) ∧
    (∀ o h, l.HighestOffset = .ok h → h < o →
      (l.Truncate u).Read o = .error (Error.offsetOutOfRange o)) ∧
    (∀ o, (∃ s ∈ (l.Truncate u).segs, covers o s) →
      (l.Truncate u).Read o = l.Read o ∧ ∃ v, l.Read o = .ok { Value := v, Offset := o }) := by
  have hI := hl.inv
  have hI2 := hI.truncate u
  have hmod : (u + 1) % U64 = u + 1 := Nat.mod_eq_of_lt hu
  refine ⟨?_, ?_, ?_⟩
  · intro o _ h
    rw [Log_Read_segs, segs_Truncate, find_filter_none]
    intro s hs hc
    have := h s hs (by simpa using hc)
    simp [truncates, hmod, this]
  · intro o h hh ho
    rw [HighestOffset_segs] at hh
    rw [Log_Read_segs, segs_Truncate]
    have hnone : (l.segs.filter (fun s => !truncates u s)).find?
        (fun s => decide (covers o s)) = none := by
      rw [List.find?_eq_none]
      intro s hs
      have hs1 : s ∈ l.segs := (List.mem_filter.1 hs).1
      cases hz : l.segs.getLast? with
      | none => rw [hz] at hh; simp at hh
      | some z =>
        rw [hz] at hh
        have hle := hI.last_next_max z hz s hs1
        simp only [decide_eq_true_eq, covers, not_and, not_lt]
        intro _
        simp only at hh
        split at hh
        · simp only [Except.ok.injEq] at hh
          omega
        · simp only [Except.ok.injEq] at hh
          omega
    rw [hnone]
  · rintro o ⟨s, hs, hc⟩
    have hs1 : s ∈ l.segs := by
      rw [segs_Truncate] at hs
      exact (List.mem_filter.1 hs).1
    obtain ⟨h1, v, hv⟩ := hI.Read_of_seg o s hs1 hc
    obtain ⟨h2, _⟩ := hI2.Read_of_seg o s hs hc
    exact ⟨by rw [h1, h2], v, by rw [h1, hv]⟩

/-- Witness of `Truncate_read_semantics`, the truncate scenario: offsets 0 to 9 in segments
of two records, `Truncate(4)`: `Read(0)` fails, the lowest offset is 4 and is read back,
the highest offset is still 9, and `Read(10)` fails. -/
theorem Truncate_read_semantics_witness :
    (tenAppended.Truncate 4).Read 0 = .error (Error.offsetOutOfRange 0) ∧
    (tenAppended.Truncate 4).Read 10 = .error (Error.offsetOutOfRange 10) ∧
    ((tenAppended.Truncate 4).Read 4 = tenAppended.Read 4 ∧
      ∃ v, tenAppended.Read 4 = .ok { Value := v, Offset := 4 }) ∧
    (tenAppended.Truncate 4).LowestOffset = .ok 4 ∧
    (tenAppended.Truncate 4).HighestOffset = .ok 9 :=
  have h := Truncate_read_semantics rotatingConfig tenAppended 4
    (Reach.of_appendAll (Reach.fresh (freshLog rotatingConfig) (by decide) (by decide))
      (List.replicate 10 tenBytes) (by decide) (by decide)) (by decide)
  ⟨h.1 0 (by decide) (by decide), h.2.1 10 9 (by decide) (by decide),
   h.2.2 4 ⟨tenAppended.deref 2, by decide, by decide⟩, by decide, by decide⟩

/-- C7, evaluated at `upTo = 2 ^ 64 - 1`: the log holds the offsets 0 and 1 in one segment,
which lies entirely at or below `upTo`, but `lowerst + 1` wraps to 0, the test
`nextOffset ≤ 0` fails, and `Truncate` keeps the segment: both records stay readable. -/
theorem Truncate_max_keeps_segment :
    twoRecords.segs.map (fun s => (s.baseOffset, s.nextOffset)) = [(0, 2)] ∧
    (twoRecords.Truncate (2 ^ 64 - 1)).segments = twoRecords.segments ∧
    (twoRecords.Truncate (2 ^ 64 - 1)).Read 0 = .ok ⟨[104], 0⟩ ∧
    (twoRecords.Truncate (2 ^ 64 - 1)).Read 1 = .ok ⟨[119], 1⟩ := by
  decide

/-- C8 fails as stated in both halves. After `Truncate(0)` on the log holding the offsets
0 and 1 in one segment, `Read(0)` still succeeds although `0 ≤ upTo`. On the log opened
with `InitialOffset = 2 ^ 64 - 2`, four appends return the offsets `2 ^ 64 - 2`,
`2 ^ 64 - 1`, 0 and 1; after `Truncate(0)`, `Read(1)` fails although `1 > upTo` and the
offset 1 had been appended. -/
theorem Truncate_keeps_low_offset :
    NewLog [] zeroConfig = .ok (freshLog zeroConfig) ∧
    ((freshLog zeroConfig).Append ⟨[104], 0⟩).2 = .ok 0 ∧
    (((freshLog zeroConfig).Append ⟨[104], 0⟩).1.Append ⟨[119], 0⟩).2 = .ok 1 ∧
    (0 : Nat) ≤ 0 ∧ (twoRecords.Truncate 0).Read 0 = .ok ⟨[104], 0⟩ ∧
    NewLog [] wrapTwoConfig = .ok (freshLog wrapTwoConfig) ∧
    okOffsets (appendAll (freshLog wrapTwoConfig) (List.replicate 4 tenBytes)).2 =
      [2 ^ 64 - 2, 2 ^ 64 - 1, 0, 1] ∧
    (0 : Nat) < 1 ∧ (wrapFour.Truncate 0).Read 1 = .error (Error.offsetOutOfRange 1) := by
  decide

/-- C8 as amended: in a log opened on an empty directory whose offsets have stayed below
`2 ^ 64 - 1`, after `Truncate(upTo)` with `upTo < 2 ^ 64 - 1`: `Read(o)` with `o ≤ upTo`
fails with "offset out of range" when every segment that held `o` ended at or below `upTo`
(`nextOffset ≤ upTo + 1`), and succeeds, with the record it returned before, when the
segment that holds `o` reaches above `upTo`; `Read(o)` with `o > upTo` succeeds, with the
record it returned before, for every offset the log held before the `Truncate`. -/
theorem Truncate_read_by_segment (c : Config) (l : Log) (upTo o : Nat) (hl : Reach c l)
    (hu : upTo + 1 < U64) :
    (o ≤ upTo → (∀ s ∈ l.segs, covers o s → s.nextOffset ≤ upTo + 1) →
      (l.Truncate upTo).Read o = .error (Error.offsetOutOfRange o)) ∧
    (o ≤ upTo → (∃ s ∈ l.segs, covers o s ∧ upTo + 1 < s.nextOffset) →
      ∃ v, (l.Truncate upTo).Read o = .ok { Value := v, Offset := o } ∧
        l.Read o = .ok { Value := v, Offset := o }) ∧
    (upTo < o → (∃ s ∈ l.segs, covers o s) →
      ∃ v, (l.Truncate upTo).Read o = .ok { Value := v, Offset := o } ∧
        l.Read o = .ok { Value := v, Offset := o }) := by
  have hmod : (upTo + 1) % U64 = upTo + 1 := Nat.mod_eq_of_lt hu
  have hI := hl.inv
  have hIT := hI.truncate upTo
  have hkept : ∀ s ∈ l.segs, covers o s → upTo + 1 < s.nextOffset →
      ∃ v, (l.Truncate upTo).Read o = .ok { Value := v, Offset := o } ∧
        l.Read o = .ok { Value := v, Offset := o } := by
    intro s hs hc hn
    have hmem : s ∈ (l.Truncate upTo).segs := by
      rw [segs_Truncate, List.mem_filter]
      refine ⟨hs, ?_⟩
      simp only [truncates, hmod, Bool.not_eq_true', decide_eq_false_iff_not]
      omega
    obtain ⟨e1, v, hv⟩ := hI.Read_of_seg o s hs hc
    obtain ⟨e2, _⟩ := hIT.Read_of_seg o s hmem hc
    exact ⟨v, by rw [e2, hv], by rw [e1, hv]⟩
  refine ⟨?_, ?_, ?_⟩
  · intro _ h
    rw [Log_Read_segs, segs_Truncate, find_filter_none]
    intro s hs hc
    have := h s hs (by simpa using hc)
    simp [truncates, hmod, this]
  · intro _ h
    obtain ⟨s, hs, hc, hn⟩ := h
    exact hkept s hs hc hn
  · intro ho h
    obtain ⟨s, hs, hc⟩ := h
    exact hkept s hs hc (by have := hc.2; omega)

/-- Witness of `Truncate_read_by_segment`, the truncate scenario: offsets 0 to 9 in
segments of two records, `Truncate(4)`. `Read(0)` fails, its segment ended at offset 1;
`Read(4)` succeeds, its segment holds the offsets 4 and 5; `Read(7)` succeeds. -/
theorem Truncate_read_by_segment_witness :
    (tenAppended.Truncate 4).Read 0 = .error (Error.offsetOutOfRange 0) ∧
    (∃ v, (tenAppended.Truncate 4).Read 4 = .ok { Value := v, Offset := 4 } ∧
      tenAppended.Read 4 = .ok { Value := v, Offset := 4 }) ∧
    (∃ v, (tenAppended.Truncate 4).Read 7 = .ok { Value := v, Offset := 7 } ∧
      tenAppended.Read 7 = .ok { Value := v, Offset := 7 }) :=
  have hr : Reach rotatingConfig tenAppended :=
    Reach.of_appendAll (Reach.fresh (freshLog rotatingConfig) (by decide) (by decide))
      (List.replicate 10 tenBytes) (by decide) (by decide)
  ⟨(Truncate_read_by_segment rotatingConfig tenAppended 4 0 hr (by decide)).1 (by decide)
      (by decide),
    (Truncate_read_by_segment rotatingConfig tenAppended 4 4 hr (by decide)).2.1 (by decide)
      ⟨tenAppended.deref 2, by decide, by decide, by decide⟩,
    (Truncate_read_by_segment rotatingConfig tenAppended 4 7 hr (by decide)).2.2 (by decide)
      ⟨tenAppended.deref 3, by decide, by decide⟩⟩

/-- C9 fails as stated on the freshly opened, still empty log with `InitialOffset = 0`:
`LowestOffset` and `HighestOffset` both return 0, but no segment covers the offset 0 and
`Read(0)` fails with "offset out of range". -/
theorem empty_log_offset_uncovered :
    NewLog [] zeroConfig = .ok (freshLog zeroConfig) ∧
    (freshLog zeroConfig).LowestOffset = .ok 0 ∧
    (freshLog zeroConfig).HighestOffset = .ok 0 ∧
    (∀ s ∈ (freshLog zeroConfig).segs, ¬ covers 0 s) ∧
    (freshLog zeroConfig).Read 0 = .error (Error.offsetOutOfRange 0) := by
  decide

/-- C9 as amended: in every state of a log opened on an empty directory that is reached by
successful appends and truncations while the offsets stay below `2 ^ 64 - 1`, unless the
last segment's `nextOffset` is 0 (the log is still empty with `InitialOffset = 0`): for
every offset `o` with `LowestOffset() ≤ o ≤ HighestOffset()` exactly one segment of the
segment list covers `o`, and `Read(o)` succeeds. -/
theorem segment_coverage (c : Config) (l : Log) (lo hi o : Nat) (hl : Reach c l)
    (hlo : l.LowestOffset = .ok lo) (hhi : l.HighestOffset = .ok hi)
    (hne : ∀ z, l.segs.getLast? = some z → z.nextOffset ≠ 0)
    (h1 : lo ≤ o) (h2 : o ≤ hi) :
    (∃ p, p ∈ l.segments ∧ covers o (l.deref p) ∧
      ∀ q, q ∈ l.segments → covers o (l.deref q) → q = p) ∧
    ∃ v, l.Read o = .ok { Value := v, Offset := o } := by
  have hI := hl.inv
  rw [LowestOffset_segs] at hlo
  rw [HighestOffset_segs] at hhi
  cases ha : l.segs.head? with
  | none => rw [ha] at hlo; simp at hlo
  | some a =>
    cases hz : l.segs.getLast? with
    | none => rw [hz] at hhi; simp at hhi
    | some z =>
      rw [ha] at hlo
      rw [hz] at hhi
      simp only [Except.ok.injEq] at hlo
      have hz0 := hne z hz
      simp only [hz0, if_false, Except.ok.injEq] at hhi
      obtain ⟨s, hs, hc⟩ := chain_covers l.segs o hI.segs_chain a z ha hz (by omega) (by omega)
      have hs2 := hs
      unfold Log.segs at hs2
      obtain ⟨p, hp, hpe⟩ := List.mem_map.1 hs2
      subst hpe
      obtain ⟨hr, v, hv⟩ := hI.Read_of_seg o _ hs hc
      refine ⟨⟨p, hp, hc, ?_⟩, v, by rw [hr, hv]⟩
      intro q hq hcq
      exact hI.unique_cover o q p (hI.mem_segments_lt q hq) (hI.mem_segments_lt p hp) hcq hc

/-- Witness of `segment_coverage`: the truncate scenario after `Truncate(4)`, whose offsets
run from 4 to 9; the offset 7 is covered by one segment and read back. -/
theorem segment_coverage_witness :
    (∃ p, p ∈ (tenAppended.Truncate 4).segments ∧ covers 7 ((tenAppended.Truncate 4).deref p) ∧
      ∀ q, q ∈ (tenAppended.Truncate 4).segments →
        covers 7 ((tenAppended.Truncate 4).deref q) → q = p) ∧
    ∃ v, (tenAppended.Truncate 4).Read 7 = .ok { Value := v, Offset := 7 } :=
  segment_coverage rotatingConfig (tenAppended.Truncate 4) 4 9 7
    (Reach.truncate tenAppended 4
      (Reach.of_appendAll (Reach.fresh (freshLog rotatingConfig) (by decide) (by decide))
        (List.replicate 10 tenBytes) (by decide) (by decide)) (by decide))
    (by decide) (by decide) (by decide) (by decide) (by decide)

/-- C10 fails as stated once the offsets have wrapped: after `Append("a")` and
`Append("b")` on a log opened with `InitialOffset = 2 ^ 64 - 1` and rotating on every
record, the segments have the base offsets `2 ^ 64 - 1`, 0 and 1; the reader yields the
frame of "a" and then the frame of "b" (append order), while the store contents in
base-offset order are the frame of "b" and then the frame of "a". -/
theorem Reader_not_in_base_order :
    okOffsets (appendAll (freshLog lastOffsetConfig) [⟨[97], 0⟩, ⟨[98], 0⟩]).2 = [2 ^ 64 - 1, 0] ∧
    wrapAB.segs.map segment.baseOffset = [2 ^ 64 - 1, 0, 1] ∧
    readAll 8 wrapAB.Reader 64 = some (frame [97] ++ frame [98], Error.EOF) ∧
    storesByBase wrapAB = frame [98] ++ frame [97] ∧
    frame [97] ++ frame [98] ≠ storesByBase wrapAB := by
  decide

/-- C10 as amended: on a log opened on an empty directory, after N successful appends of
the payloads `p1..pN` (with any rotations) that assigned offsets below `2 ^ 64 - 1`,
reading `Reader()` to end-of-stream, with a buffer of any positive size, yields exactly the
frames `[8-byte big-endian len(p_k)][p_k]` for `k = 1..N` in append order; this is the
concatenation of the segments' store contents in base-offset order, and length-framed
decoding of the stream recovers `p1..pN` in order. -/
theorem Reader_stream (c : Config) (hc : c.valid) (l : Log) (hl : NewLog [] c = .ok l)
    (rs : List Record) (hrs : ∀ r ∈ rs, r.Value.length < U64)
    (hok : (appendAll l rs).2.all okBelowMax = true) (n : Nat) (hn : 0 < n) :
    (∃ fuel0, ∀ fuel, fuel0 ≤ fuel →
      readAll fuel (appendAll l rs).1.Reader n =
        some (frames (rs.map Record.Value), Error.EOF)) ∧
    frames (rs.map Record.Value) = storesByBase (appendAll l rs).1 ∧
    (∃ fuel1, ∀ fuel, fuel1 ≤ fuel →
      decodeFrames fuel (frames (rs.map Record.Value)) = some (rs.map Record.Value)) := by
  rw [NewLog_empty] at hl
  simp only [Except.ok.injEq] at hl
  subst hl
  have hT0 : Tracks (freshLog c) [[]] :=
    List.Forall₂.cons (SegOK_empty _ _ hc.2.2) List.Forall₂.nil
  obtain ⟨pss, hT, hfl, hseg, hI⟩ := Tracks.append_all rs (freshLog c) (Inv_fresh c hc) [[]] hT0
    rfl hrs hok
  have hfl2 : pss.flatten = rs.map Record.Value := by simpa using hfl
  have hsegs := segs_of_range _ hseg
  have hbuf := Tracks.buf _ pss _ hT
  rw [hfl2] at hbuf
  have hrem : remaining (appendAll (freshLog c) rs).1.Reader = frames (rs.map Record.Value) := by
    rw [remaining_Reader, hsegs, hbuf]
  refine ⟨⟨(frames (rs.map Record.Value)).length + 1, ?_⟩, ?_, ⟨rs.length + 1, ?_⟩⟩
  · intro fuel hf
    rw [readAll_spec fuel _ n hn (by rw [hrem]; omega), hrem]
  · unfold storesByBase
    have hsorted : List.Sorted (fun a b : segment => a.baseOffset ≤ b.baseOffset)
        (appendAll (freshLog c) rs).1.segs := by
      refine hI.segs_pairwise.imp ?_
      intro a b hab
      have := hab.1; have := hab.2.1
      omega
    rw [hsorted.insertionSort_eq, hsegs, hbuf]
  · intro fuel hf
    apply decodeFrames_frames
    · rw [List.length_map]; omega
    · intro p hp
      obtain ⟨r, hr, rfl⟩ := List.mem_map.1 hp
      exact hrs r hr

/-- Witness of `Reader_stream`: three appends of ten bytes in the rotation scenario, read
with a buffer of 7 bytes. -/
theorem Reader_stream_witness :
    (∃ fuel0, ∀ fuel, fuel0 ≤ fuel →
      readAll fuel (appendAll (freshLog rotatingConfig) [tenBytes, tenBytes, tenBytes]).1.Reader 7 =
        some (frames ([tenBytes, tenBytes, tenBytes].map Record.Value), Error.EOF)) ∧
    frames ([tenBytes, tenBytes, tenBytes].map Record.Value) =
      storesByBase (appendAll (freshLog rotatingConfig) [tenBytes, tenBytes, tenBytes]).1 ∧
    (∃ fuel1, ∀ fuel, fuel1 ≤ fuel →
      decodeFrames fuel (frames ([tenBytes, tenBytes, tenBytes].map Record.Value)) =
        some ([tenBytes, tenBytes, tenBytes].map Record.Value)) :=
  Reader_stream rotatingConfig (by decide) (freshLog rotatingConfig) (by decide)
    [tenBytes, tenBytes, tenBytes] (by decide) (by decide) 7 (by decide)

/-- C11, evaluated: `Reset` fails on every log. `Remove` deletes the directory itself, so
the `ioutil.ReadDir` of `NewLog` finds nothing at the path, and `Reset` returns that error
before it reaches `*l = *newLog`: the log object is left as `Close` left it. On the log
that holds "hello" and "world" the only segment still spans the offsets 0 and 1, where a
log freshly opened on an empty directory has one empty segment at offset 0. -/
theorem Reset_fails :
    (∀ l : Log, l.Reset = (l.Close, .error Error.notExist)) ∧
    helloWorldLog.Reset.2 = .error Error.notExist ∧
    helloWorldLog.Reset.1.segs.map (fun s => (s.baseOffset, s.nextOffset)) = [(0, 2)] ∧
    (NewLog [] zeroConfig).map (fun l => l.segs.map (fun s => (s.baseOffset, s.nextOffset))) =
      .ok [(0, 0)] := by
  refine ⟨fun l => rfl, ?_, ?_, ?_⟩ <;> decide

/-- C13, evaluated: the directory holds `0.store` and `1.store` and no index file. The
sorted base offsets are `[0, 1]`; the loop of `NewLog`, which advances by two to pass over
the second file of a pair, opens the segment 0 and skips the base 1: no segment is created
for it, and the segment 0 is the active one. -/
theorem NewLog_skips_unpaired_base :
    baseOffsets storesOnlyDir = [0, 1] ∧
    (NewLog storesOnlyDir zeroConfig).map Log.bases = .ok [0] ∧
    (NewLog storesOnlyDir zeroConfig).map (fun l => l.activeSegment.map (fun p => (l.deref p).baseOffset)) =
      .ok (some 0) := by
  decide

/-- C14, evaluated: the directory holds `5.index`, `5.store` and `notes.txt`. `ParseUint`
rejects the stem "notes" and returns 0, `NewLog` drops the error and takes 0 for a base
offset: it returns no error and opens the segments 0 and 5, creating the files `0.store`
and `0.index`, where the same directory without `notes.txt` gives the segment 5 alone. -/
theorem NewLog_unrecognised_name :
    ParseUint "notes".toList = (0, some NumError.ErrSyntax) ∧
    (NewLog fiveDir zeroConfig).map Log.bases = .ok [5] ∧
    (NewLog notesDir zeroConfig).map Log.bases = .ok [0, 5] ∧
    (NewLog notesDir zeroConfig).map (fun l => l.Dir.map Prod.fst) =
      .ok ["5.index".toList, "5.store".toList, "notes.txt".toList, "0.store".toList,
        "0.index".toList] := by
  decide

/-- C15 fails as stated for a new store opened on the same file: the three appends of
"hello world" of the store test stay in the buffered writer, the file is still empty, and
a new store opened on it before the first store has flushed finds no record: `Read` fails
with end-of-file at the positions at which the first store reads all three back. -/
theorem store_reopen_unflushed :
    (((bufStore.newStore "store_test".toList []).appendAll [helloWorld, helloWorld]).Append
      helloWorld).2 = (width, 2 * width) ∧
    testStore.file = [] ∧ testStore.pending.length = 3 * width ∧
    (testStore.Read (2 * width)).2 = .ok helloWorld ∧
    ((bufStore.newStore "store_test".toList testStore.file).Read (2 * width)).2 =
      .error Error.EOF ∧
    ((bufStore.newStore "store_test".toList testStore.file).Read 0).2 = .error Error.EOF := by
  decide

/-- C15 as amended: for every store whose recorded size is the length of its logical
content and every payload `p` (a Go slice, shorter than `2 ^ 64`): when `Append(p)` returns
the position `pos`, `Read(pos)` returns exactly `p`, also after any further appends, and
also in a new store opened on the same file once the first store has flushed its buffered
writer, as every `Read` of it does. -/
theorem store_round_trip (s : bufStore) (hs : s.size = s.file.length + s.pending.length)
    (p : List Byte) (hp : p.length < U64) (qs : List (List Byte)) :
    ((s.Append p).1.Read (s.Append p).2.2).2 = .ok p ∧
    (((s.Append p).1.appendAll qs).Read (s.Append p).2.2).2 = .ok p ∧
    (∀ pos0, ((bufStore.newStore s.name
        (((s.Append p).1.appendAll qs).Read pos0).1.file).Read (s.Append p).2.2).2 = .ok p) ∧
    ((bufStore.newStore s.name ((s.Append p).1.appendAll qs).flush.file).Read
      (s.Append p).2.2).2 = .ok p := by
  obtain ⟨v1, v2⟩ := bufStore_Append_view s p
  obtain ⟨a1, _, _, a4⟩ := store_Append_spec s.view p
  obtain ⟨b1, _, _⟩ := store_appendAll_spec qs (s.view.Append p).1
  have hpos : (s.Append p).2.2 = s.view.buf.length := by
    rw [v2, a4]
    simp only [bufStore.view, List.length_append]
    exact hs
  have hview : ((s.Append p).1.appendAll qs).view.buf = s.view.buf ++ (frame p ++ frames qs) := by
    rw [bufStore_appendAll_view, v1, b1, a1, List.append_assoc]
  have hnew : ∀ f, f = s.view.buf ++ (frame p ++ frames qs) →
      ((bufStore.newStore s.name f).Read s.view.buf.length).2 = .ok p := by
    intro f hf
    rw [(bufStore_Read_view _ _).1]
    exact store_Read_frame _ s.view.buf (frames qs) p
      (by simp only [bufStore.view, bufStore.newStore, List.append_nil]; exact hf) hp
  rw [hpos]
  refine ⟨?_, ?_, ?_, ?_⟩
  · rw [(bufStore_Read_view _ _).1, v1]
    exact store_Read_frame _ s.view.buf [] p (by rw [a1, List.append_nil]) hp
  · rw [(bufStore_Read_view _ _).1]
    exact store_Read_frame _ s.view.buf (frames qs) p hview hp
  · intro pos0
    exact hnew _ (by rw [(bufStore_Read_view _ pos0).2.1, hview])
  · exact hnew _ hview

/-- Witness of `store_round_trip`, the store test: the third append of "hello world"
returns the position `2 * width`; the record is read back there, and again from a new
store opened on the file after the first store has read, as are the records at `0` and
at `width`. -/
theorem store_round_trip_witness :
    (testStore.Read (2 * width)).2 = .ok helloWorld ∧
    ((bufStore.newStore "store_test".toList (testStore.Read 0).1.file).Read (2 * width)).2 =
      .ok helloWorld ∧
    ((bufStore.newStore "store_test".toList (testStore.Read 0).1.file).Read 0).2 =
      .ok helloWorld ∧
    ((bufStore.newStore "store_test".toList (testStore.Read 0).1.file).Read width).2 =
      .ok helloWorld :=
  ⟨(store_round_trip ((bufStore.newStore "store_test".toList []).appendAll
      [helloWorld, helloWorld]) (by decide) helloWorld (by decide) []).1,
    (store_round_trip ((bufStore.newStore "store_test".toList []).appendAll
      [helloWorld, helloWorld]) (by decide) helloWorld (by decide) []).2.2.1 0,
    by decide, by decide⟩

/-- C16: when the payloads `ps` are appended in order to a store opened on an empty file,
the `k`-th `Append` (counting from 0) returns `n = 8 + len(p_k)` and
`pos = sum over j < k of (8 + len(p_j))`, and `pos + n` is the size and the length of the
store after that append; for payloads of one length `m` it is `(k + 1) * (8 + m)`. -/
theorem store_positions (name : FileName) (ps : List (List Byte)) (k : Nat)
    (hk : k < ps.length) :
    (store.appendAll (newStore name []) ps).2[k]? =
      some (lenWidth + ps[k].length, ((ps.take k).map (fun p => lenWidth + p.length)).sum) ∧
    ((ps.take k).map (fun p => lenWidth + p.length)).sum + (lenWidth + ps[k].length) =
      (store.appendAll (newStore name []) (ps.take (k + 1))).1.size ∧
    (store.appendAll (newStore name []) (ps.take (k + 1))).1.size =
      (store.appendAll (newStore name []) (ps.take (k + 1))).1.buf.length ∧
    ∀ m, (∀ p ∈ ps, p.length = m) →
      ((ps.take k).map (fun p => lenWidth + p.length)).sum + (lenWidth + ps[k].length) =
        (k + 1) * (lenWidth + m) := by
  have h0 : (newStore name []).size = 0 := rfl
  have hb0 : (newStore name []).buf = [] := rfl
  obtain ⟨b1, b2, _⟩ := store_appendAll_spec (ps.take (k + 1)) (newStore name [])
  have hsplit : ps.take (k + 1) = ps.take k ++ [ps[k]] := by
    rw [List.take_succ, List.getElem?_eq_getElem hk]
    rfl
  have hlen : (frames (ps.take (k + 1))).length =
      ((ps.take k).map (fun p => lenWidth + p.length)).sum + (lenWidth + ps[k].length) := by
    rw [hsplit, frames_append, List.length_append, frames_singleton, frame_length,
      frames_length]
  refine ⟨?_, ?_, ?_, ?_⟩
  · rw [store_appendAll_get ps _ k hk, h0, Nat.zero_add, frames_length]
  · rw [b2, h0, Nat.zero_add, hlen]
  · rw [b2, b1, h0, hb0, Nat.zero_add, List.nil_append]
  · intro m hm
    have hsum : ∀ (qs : List (List Byte)), (∀ q ∈ qs, q.length = m) →
        (qs.map (fun p => lenWidth + p.length)).sum = qs.length * (lenWidth + m) := by
      intro qs
      induction qs with
      | nil => intro _; simp
      | cons q qs ih =>
        intro hq
        simp only [List.map_cons, List.sum_cons, List.length_cons]
        rw [ih (fun x hx => hq x (List.mem_cons_of_mem _ hx)), hq q (List.mem_cons_self _ _)]
        rw [Nat.add_mul, Nat.one_mul, Nat.add_comm]
    rw [hsum (ps.take k) (fun q hq => hm q (List.mem_of_mem_take hq)),
      hm ps[k] (List.getElem_mem hk), List.length_take, Nat.min_eq_left (Nat.le_of_lt hk),
      Nat.add_mul, Nat.one_mul]

/-- Witness of `store_positions`: the third append of the store test returns
`n = width` at `pos = 2 * width`, so that `pos + n = 3 * width`. -/
theorem store_positions_witness :
    (store.appendAll (newStore "store_test".toList []) [helloWorld, helloWorld, helloWorld]).2[2]? =
      some (width, 2 * width) ∧ 2 * width + width = 3 * width :=
  ⟨(store_positions "store_test".toList [helloWorld, helloWorld, helloWorld] 2
      (by decide)).1, by decide⟩

/-- C17, evaluated: the log holds the offsets 0 and 1 in its only segment, which is the
active one. `Truncate(1)` removes that segment and leaves `activeSegment` pointing at it:
the segment list is empty, `LowestOffset` and `HighestOffset` index an empty list, and the
next `Append` returns offset 2 for a record that was written to the removed segment and
cannot be read. `Truncate(0)` on a freshly opened log empties the list in the same way. -/
theorem Truncate_removes_active_segment :
    twoRecords.segments = [0] ∧ twoRecords.activeSegment = some 0 ∧
    twoRecords.HighestOffset = .ok 1 ∧
    (twoRecords.Truncate 1).segments = [] ∧
    (twoRecords.Truncate 1).activeSegment = some 0 ∧
    (twoRecords.Truncate 1).LowestOffset = .error Error.panic ∧
    (twoRecords.Truncate 1).HighestOffset = .error Error.panic ∧
    (twoRecords.Truncate 1).Dir = [] ∧
    ((twoRecords.Truncate 1).Append tenBytes).2 = .ok 2 ∧
    ((twoRecords.Truncate 1).Append tenBytes).1.segments = [] ∧
    ((twoRecords.Truncate 1).Append tenBytes).1.Read 2 = .error (Error.offsetOutOfRange 2) ∧
    ((freshLog zeroConfig).Truncate 0).segments = [] := by
  decide

/-- C18: in every state of a log opened on an empty directory that is reached by calls of
`Append`, failed ones included, assigning offsets below `2 ^ 64 - 1`, and by calls of
`Truncate`: the base offsets of the segments are strictly increasing, every segment has
`baseOffset ≤ nextOffset`, each segment starts where the one before it ends, and the
segments a `Truncate` removes are a prefix of the segment list. -/
theorem segments_ordered (c : Config) (l : Log) (hl : Called c l) :
    l.segs.Pairwise (fun a b => a.baseOffset < b.baseOffset) ∧
    (∀ s ∈ l.segs, s.baseOffset ≤ s.nextOffset) ∧
    l.segs.Chain' (fun a b => b.baseOffset = a.nextOffset) ∧
    ∀ upTo, ∃ k, (l.Truncate upTo).segments = l.segments.drop k ∧
      ∀ p ∈ l.segments.take k, truncates upTo (l.deref p) = true := by
  obtain ⟨l0, hreach, hs, _⟩ := hl.to_reach
  have hI := hreach.inv
  have hspan : l.segs.map shape = l0.segs.map shape := by
    unfold Log.segs
    rw [List.map_map, List.map_map, hs.2.2.1]
    apply List.map_congr_left
    intro p _
    exact sameShape_deref hs p
  have hB : l.segs.Pairwise Before := by
    have h0 : (l0.segs.map shape).Pairwise
        (fun x y => x.2.1 < x.2.2.1 ∧ x.2.2.1 ≤ y.2.1 ∧ y.2.1 ≤ y.2.2.1) :=
      List.pairwise_map.2 hI.segs_pairwise
    rw [← hspan] at h0
    have h1 : l.segs.Pairwise (fun a b => (shape a).2.1 < (shape a).2.2.1 ∧
        (shape a).2.2.1 ≤ (shape b).2.1 ∧ (shape b).2.1 ≤ (shape b).2.2.1) :=
      List.pairwise_map.1 h0
    exact h1
  have hC : l.segs.Chain' Follows := by
    have h0 : (l0.segs.map shape).Chain' (fun x y => x.2.1 < x.2.2.1 ∧ y.2.1 = x.2.2.1) :=
      (List.chain'_map shape).2 hI.segs_chain
    rw [← hspan] at h0
    have h1 : l.segs.Chain' (fun a b => (shape a).2.1 < (shape a).2.2.1 ∧
        (shape b).2.1 = (shape a).2.2.1) :=
      (List.chain'_map shape).1 h0
    exact h1
  have hle : ∀ s ∈ l.segs, s.baseOffset ≤ s.nextOffset := by
    have h0 : ∀ x ∈ l0.segs.map shape, x.2.1 ≤ x.2.2.1 := by
      intro x hx
      obtain ⟨s, hs0, rfl⟩ := List.mem_map.1 hx
      exact (hI.lt_U64 s (hI.segs_sub s hs0)).1
    rw [← hspan] at h0
    intro s hs1
    exact h0 (shape s) (List.mem_map_of_mem shape hs1)
  refine ⟨hB.imp ?_, hle, hC.imp ?_, ?_⟩
  · intro a b hab
    obtain ⟨h1, h2, _⟩ := hab
    omega
  · intro a b hab
    exact hab.2
  · intro upTo
    have hpw : l.segments.Pairwise (fun p q => Before (l.deref p) (l.deref q)) :=
      List.pairwise_map.1 hB
    exact filter_prefix (fun p => truncates upTo (l.deref p))
      (fun p q => Before (l.deref p) (l.deref q)) l.segments
      (by
        intro p q hpq hq
        obtain ⟨_, h2, h3⟩ := hpq
        simp only [truncates, decide_eq_true_eq] at hq ⊢
        omega)
      hpw

/-- Witness of `segments_ordered`, the truncate scenario: offsets 0 to 9 in segments of two
records and the empty active segment at 10; `Truncate(4)` removes the first two of the
six segments. -/
theorem segments_ordered_witness :
    tenAppended.bases = [0, 2, 4, 6, 8, 10] ∧
    tenAppended.segs.Pairwise (fun a b => a.baseOffset < b.baseOffset) ∧
    tenAppended.segs.Chain' (fun a b => b.baseOffset = a.nextOffset) ∧
    (tenAppended.Truncate 4).segments = tenAppended.segments.drop 2 :=
  have h := segments_ordered rotatingConfig tenAppended
    (Reach.to_called
      (Reach.of_appendAll (Reach.fresh (freshLog rotatingConfig) (by decide) (by decide))
        (List.replicate 10 tenBytes) (by decide) (by decide)))
  ⟨by decide, h.1, h.2.2.1, by decide⟩

/-- C19: on a new `server.Log`, the `k`-th of `n` calls of `Append` (counting from 0)
returns the offset `k` and no error; afterwards `Read(o)` returns, for `o < n`, the value
of the `o`-th appended record with `Offset = o`, fails with `ErrOffsetNotFound` exactly
when `o >= n`, and leaves the log as it was. -/
theorem server_Log_append_read (rs : List server.Record) (hn : rs.length < U64) :
    (server.appendAll server.NewLog rs).2.length = rs.length ∧
    (∀ k, k < rs.length → (server.appendAll server.NewLog rs).2[k]? = some (k, none)) ∧
    (∀ o (ho : o < rs.length),
      ((server.appendAll server.NewLog rs).1.Read o).2 = .ok ⟨rs[o].Value, o⟩) ∧
    (∀ o, ((server.appendAll server.NewLog rs).1.Read o).2 = .error server.Err.ErrOffsetNotFound ↔
      rs.length ≤ o) ∧
    (∀ o, ((server.appendAll server.NewLog rs).1.Read o).1 = (server.appendAll server.NewLog rs).1) := by
  obtain ⟨h1, h2⟩ := server_appendAll_spec rs server.NewLog
    (by simp only [server.NewLog, List.length_nil]; omega)
  have e0 : server.NewLog.records = [] := rfl
  rw [e0] at h1 h2
  simp only [List.length_nil, Nat.zero_add, List.nil_append] at h1 h2
  have hlen : (server.appendAll server.NewLog rs).1.records.length = rs.length := by
    simp [h2]
  refine ⟨by simp [h1], ?_, ?_, ?_, ?_⟩
  · intro k hk
    simp [h1, hk]
  · intro o ho
    have hget : (server.appendAll server.NewLog rs).1.records.getD o default =
        ⟨rs[o].Value, o⟩ := by
      simp [h2, List.getD_eq_getElem?_getD, List.getElem?_enumFrom, ho]
    simp only [server.Log.Read, hlen, Nat.mod_eq_of_lt hn, hget]
    rw [if_neg (by omega)]
  · intro o
    simp only [server.Log.Read, hlen, Nat.mod_eq_of_lt hn]
    split <;> simp_all
  · intro o
    simp only [server.Log.Read]
    split <;> rfl

/-- Witness of `server_Log_append_read`: two appends, then the reads of the offsets 1
and 2. -/
theorem server_Log_append_read_witness :
    (server.appendAll server.NewLog [⟨[104], 7⟩, ⟨[119], 9⟩]).2 = [(0, none), (1, none)] ∧
    ((server.appendAll server.NewLog [⟨[104], 7⟩, ⟨[119], 9⟩]).1.Read 1).2 = .ok ⟨[119], 1⟩ ∧
    (((server.appendAll server.NewLog [⟨[104], 7⟩, ⟨[119], 9⟩]).1.Read 2).2 =
      .error server.Err.ErrOffsetNotFound ↔ 2 ≤ 2) :=
  ⟨by decide,
    (server_Log_append_read [⟨[104], 7⟩, ⟨[119], 9⟩] (by decide)).2.2.1 1 (by decide),
    (server_Log_append_read [⟨[104], 7⟩, ⟨[119], 9⟩] (by decide)).2.2.2.1 2⟩

set_option maxRecDepth 100000 in
/-- C20, evaluated: `Log.Read` releases the read lock in the statement after the one that
takes it, so on every log that has a segment the scan runs without the lock, where
`LowestOffset`, whose unlock is deferred, holds it throughout. With `Read(0)` in one
goroutine and `Truncate` in another on the log of two records, the lock allows the
schedule in which `Truncate` takes the write lock, scans, assigns `l.segments` and unlocks
between the `RUnlock` of `Read` and its scan; with `LowestOffset` in place of `Read` no
schedule of the two calls lets the assignment fall inside the call. -/
theorem Read_unlocks_before_scan :
    (∀ (d : Directory) (c : Config) (heap : List segment) (a : Option Nat) (p : Nat)
      (ps : List Nat) (off : Nat),
      lockedFrom 0 (Log.Read.events ⟨d, c, heap, a, p :: ps⟩ off) = false) ∧
    (∀ l : Log, lockedFrom 0 (Log.LowestOffset.events l) = true) ∧
    (∀ l : Log, lockedFrom 0 (Log.Truncate.events l) = true) ∧
    Log.Read.events twoRecords 0 = [.RLock, .RUnlock, .scan 0, .read 0] ∧
    Log.Truncate.events twoRecords = [.Lock, .scan 0, .assign, .Unlock] ∧
    run ⟨0, false⟩ (Log.Read.events twoRecords 0) (Log.Truncate.events twoRecords)
        [false, false, true, true, true, true, false, false] =
      some [(false, .RLock), (false, .RUnlock), (true, .Lock), (true, .scan 0),
        (true, .assign), (true, .Unlock), (false, .scan 0), (false, .read 0)] ∧
    excludes (Log.Read.events twoRecords 0) (Log.Truncate.events twoRecords)
      [false, false, true, true, true, true, false, false] = false ∧
    (∀ s ∈ schedules 7,
      excludes (Log.LowestOffset.events twoRecords) (Log.Truncate.events twoRecords) s = true) ∧
    (schedules 7).any (fun s => (run ⟨0, false⟩ (Log.LowestOffset.events twoRecords)
      (Log.Truncate.events twoRecords) s).isSome) = true := by
  refine ⟨?_, ?_, ?_, by decide, by decide, by decide, by decide, by decide, by decide⟩
  · intro d c heap a p ps off
    simp only [Log.Read.events, scanEvents]
    split <;> simp [lockedFrom]
  · intro l
    simp only [Log.LowestOffset.events]
    split <;> simp [lockedFrom]
  · intro l
    have h : ∀ (ps : List Nat), lockedFrom 1 (ps.map Event.scan ++ [.assign, .Unlock]) = true := by
      intro ps
      induction ps with
      | nil => simp [lockedFrom]
      | cons p ps ih => simp [lockedFrom, ih]
    simp only [Log.Truncate.events, lockedFrom, Nat.zero_add]
    exact h l.segments

end Proglog
